import Mathlib

/-!
# dizibox `dios/exec.c`: the exec interception layer

A shallow embedding of `dizi_execve`, `__run_dios_file`, `scripts_argv` and
`dizi_execvp` of `src/dios/exec.c`, and theorems about them.

Conventions of the embedding.

* A C string is the list of its bytes before the terminating NUL (`CStr`); the
  terminator is a separate memory cell (`Cell.nul`), so a `CStr` never holds one.
* An `argv`/`envp` pointer is the list of pointer slots readable from it
  (`none` is the NULL pointer).  Reading a slot past that list, or a byte that
  is outside a buffer or was never written, is undefined behaviour in C: the
  embedding stops with `Res.fault`.
* `errno` is threaded explicitly (`St.errno`).  The registry calls, the legacy
  `execve` and `malloc` are external: they are fields of `Host`, functions of
  an abstract world state.
* Every function returns, next to its result, the list of events it produced
  (external calls made, and the values of `errno` the code branches on), oldest
  first.
* `size_t`/`int` arithmetic is done in `Nat`: the quantities are lengths of
  strings and vectors held in memory, far below `2^31`.
-/

namespace Dizi

/-- The bytes of a C string, terminator excluded. -/
abbrev CStr := List Char

/-- The pointer slots readable from a `char *const argv[]`; `none` is NULL. -/
abbrev Argv := List (Option CStr)

/-- The type `dios_name_t`: the 256-bit digest. -/
abbrev dios_name_t := Nat

/-- The type `dios_ref_t *`: an opaque registry reference. -/
abbrev dios_ref := Nat

/-! ### `errno` values (`<errno.h>`, Linux numbering) -/

def ENOENT : Int := 2
def ENOEXEC : Int := 8
def ENOMEM : Int := 12
def EACCES : Int := 13
def ENODEV : Int := 19
def ENOTDIR : Int := 20
def EINVAL : Int := 22
def ENOSYS : Int := 38
def ETIMEDOUT : Int := 110
def ESTALE : Int := 116

/-- The string `_PATH_BSHELL` of `<paths.h>`. -/
def _PATH_BSHELL : CStr := "/bin/sh".toList

/-- The constant `__MAX_ALLOCA_CUTOFF`. -/
def __MAX_ALLOCA_CUTOFF : Nat := 65536

/-- The test `__libc_use_alloca(size)`. -/
def __libc_use_alloca (size : Nat) : Bool := decide (size ≤ __MAX_ALLOCA_CUTOFF)

/-- The size `sizeof (char *)`, on a 64-bit target. -/
def sizeof_ptr : Nat := 8

/-- The structure `dios_task_spec_t` as `__run_dios_file` fills it. -/
structure dios_task_spec_t where
  input_count : Nat
  output_count : Nat
  argv : Argv
  argc : Nat
deriving DecidableEq, Repr

/-- The heap pointers of `dizi_execvp`: `path_malloc` and `script_argv_malloc`
of the PATH search, and `ptr` of the branch for a name with a slash; and the
pointer `argv` of `dizi_execl`, `dizi_execle` and `dizi_execlp` once it has
left `initial_argv`. -/
inductive HeapBuf where
  | path_malloc
  | script_argv_malloc
  | ptr
  | argv
deriving DecidableEq, Repr

/-- What a call does that is visible from outside, oldest first in a trace. -/
inductive Event where
  /-- The call `dizi_execve (path, argv, envp)` was entered. -/
  | dispatch (path : CStr) (argv envp : Argv)
  /-- The call `dios_lookup (D_NONE, &name, &ref, &rc)` returned `ret`, leaving `rc`. -/
  | lookup (name : dios_name_t) (ret : Int) (rc : Nat)
  /-- The call `dios_run (D_NONE, ref, &ts, &new_ref)` returned `ret`. -/
  | run (ref : dios_ref) (ts : dios_task_spec_t) (ret : Int)
  /-- The legacy `execve (path, argv, envp)` was called. -/
  | legacy (path : CStr) (argv envp : Argv)
  /-- The call `_Exit (code)`. -/
  | exit (code : Int)
  /-- The call `dizi_execve` returned `ret` to its caller with `errno = err`. -/
  | returned (ret : Int) (err : Int)
  /-- The PATH loop set `startp` to the candidate name `name` (lines 230-235). -/
  | candidate (name : CStr)
  /-- The PATH loop reached `switch (errno)` with `errno = err`. -/
  | tried (err : Int)
  /-- The call `malloc (size)` for the pointer `b`; `ok` is false when it
  returned NULL. -/
  | malloc (b : HeapBuf) (size : Nat) (ok : Bool)
  /-- The call `free (p)` on a non-NULL heap pointer. -/
  | free (b : HeapBuf)
deriving DecidableEq, Repr

/-- The part of the machine state the C code shares with the outside: the
world of the external calls and `errno`. -/
structure St (σ : Type) where
  world : σ
  errno : Int

/-- How a call ends: it returns `v` to its caller, the process ends in
`_Exit`, the legacy `execve` replaced the process image, or the code left
defined behaviour: it read memory it may not read, or an `int` overflowed.
`tr` holds the events of the call. -/
inductive Res (σ : Type) where
  | ret (tr : List Event) (s : St σ) (v : Int)
  | exited (tr : List Event) (s : St σ) (code : Int)
  | replaced (tr : List Event) (s : St σ)
  | fault (tr : List Event)

/-- The events of a call. -/
def Res.trace {σ : Type} : Res σ → List Event
  | .ret tr _ _ => tr
  | .exited tr _ _ => tr
  | .replaced tr _ => tr
  | .fault tr => tr

/-- Put the events `pre`, which happened before, in front of a result. -/
def Res.after {σ : Type} (pre : List Event) : Res σ → Res σ
  | .ret tr s v => .ret (pre ++ tr) s v
  | .exited tr s c => .exited (pre ++ tr) s c
  | .replaced tr s => .replaced (pre ++ tr) s
  | .fault tr => .fault (pre ++ tr)

/-- What `dios_lookup` hands back: its return value, the values it left in
`rc` and `ref`, and the world and `errno` after the call. -/
structure LookupRet (σ : Type) where
  world : σ
  errno : Int
  ret : Int
  rc : Nat
  ref : dios_ref

/-- What `dios_run` hands back. -/
structure RunRet (σ : Type) where
  world : σ
  errno : Int
  ret : Int

/-- What the legacy `execve` does: it replaces the process image, or it
returns `ret` with `errno` set. -/
inductive ExecRet (σ : Type) where
  | replaced (world : σ)
  | returned (world : σ) (errno : Int) (ret : Int)

/-- The external collaborators of `exec.c`.  Each call reads the world and the
current `errno`. -/
structure Host (σ : Type) where
  /-- The digest `sha256_begin; sha256_hash; sha256_end` of a byte string. -/
  sha256 : CStr → dios_name_t
  dios_lookup : σ → Int → dios_name_t → LookupRet σ
  dios_run : σ → Int → dios_ref → dios_task_spec_t → RunRet σ
  execve : σ → Int → CStr → Argv → Argv → ExecRet σ
  /-- The call `malloc (size)`: the new world and whether it succeeded.  A
  failing `malloc` sets `errno` to `ENOMEM`. -/
  malloc : σ → Nat → σ × Bool
  /-- The value of `getenv ("PATH")`. -/
  getenv_PATH : Option CStr
  /-- The string behind `confstr (_CS_PATH, ...)`: `confstr (_CS_PATH, NULL, 0)`
  returns its length plus one. -/
  cs_path : CStr
  /-- The vector `__environ`. -/
  environ : Argv

/-- A counting loop over `argv` run on the slots from the one the counter
stands at, with the counter at `argc`, the counter taken without a bound: the
counter after the loop, `none` when the loop runs past the readable slots.
`__run_dios_file` counts so into the field `ts.argc`, whose type is declared
outside this source; the loops on an `int argc` are `count_args_int`. -/
def count_args : Argv → Nat → Option Nat
  | [], _ => none
  | none :: _, argc => some (argc + 1)
  | some _ :: rest, argc => count_args rest (argc + 1)

/-- The largest value of an `int`. -/
def INT_MAX : Nat := 2 ^ 31 - 1

/-- The loop `int argc = 0; while (argv[argc++]) ;` of lines 157-159 and
245-246, whose counter is an `int`, run on the slots from index `argc` on: the
counter after the loop; `none` when the loop runs past the readable slots or
`argc++` is reached with `argc = INT_MAX` (the `int` overflows; the loop would
go on to read `argv` at a negative index). -/
def count_args_int : Argv → Nat → Option Nat
  | [], _ => none
  | a :: rest, argc =>
    if INT_MAX ≤ argc then none
    else
      match a with
      | none => some (argc + 1)
      | some _ => count_args_int rest (argc + 1)

/-- The value `(argc + 1) * sizeof (char *)` of lines 160 and 247; the sum
`argc + 1` is computed in `int`: `none` when it passes `INT_MAX`. -/
def script_argv_len (argc : Nat) : Option Nat :=
  if argc + 1 ≤ INT_MAX then some ((argc + 1) * sizeof_ptr) else none

/-- The function `__run_dios_file`, lines 355-396.  The loop
`while (argv[++ts.argc]);` reads the slots from index 1 on. -/
def __run_dios_file {σ : Type} (h : Host σ) (s : St σ) (filename : CStr) (argv : Argv) :
    Res σ :=
  match count_args (argv.drop 1) 0 with
  | none => .fault []
  | some argc =>
    let ts : dios_task_spec_t := { input_count := 0, output_count := 0, argv := argv, argc := argc }
    if filename.length > 4096 then
      .ret [] { s with errno := EINVAL } (-1)
    else
      let name := h.sha256 filename
      let l := h.dios_lookup s.world s.errno name
      let tr1 := [Event.lookup name l.ret l.rc]
      if l.ret ≠ 0 then
        .ret tr1 { world := l.world, errno := l.errno } (-1)
      else if l.rc = 0 then
        .ret tr1 { world := l.world, errno := ENOENT } (-1)
      else
        let r := h.dios_run l.world l.errno l.ref ts
        let tr2 := tr1 ++ [Event.run l.ref ts r.ret]
        if r.ret ≠ 0 then
          .ret tr2 { world := r.world, errno := r.errno } (-1)
        else
          .ret tr2 { world := r.world, errno := r.errno } 0

/-- The function `dizi_execve`, lines 402-417. -/
def dizi_execve {σ : Type} (h : Host σ) (s : St σ) (filename : CStr) (argv envp : Argv) :
    Res σ :=
  let tr0 := [Event.dispatch filename argv envp]
  match __run_dios_file h s filename argv with
  | .ret tr s1 v =>
    if v = 0 then
      .exited (tr0 ++ tr ++ [Event.exit 0]) s1 0
    else if s1.errno = ENOENT ∨ s1.errno = ENOSYS then
      match h.execve s1.world s1.errno filename argv envp with
      | .replaced w =>
        .replaced (tr0 ++ tr ++ [Event.legacy filename argv envp]) { world := w, errno := s1.errno }
      | .returned w e v1 =>
        .ret (tr0 ++ tr ++ [Event.legacy filename argv envp, Event.returned v1 e])
          { world := w, errno := e } v1
    else
      .ret (tr0 ++ tr ++ [Event.returned (-1) s1.errno]) s1 (-1)
  | r => Res.after tr0 r

/-! ### Memory of `dizi_execvp` -/

/-- One byte of memory: not yet written, the NUL terminator, or a string byte. -/
inductive Cell where
  | uninit
  | nul
  | ch (c : Char)
deriving DecidableEq, Repr

/-- The bytes of a C string in memory: its characters, then the terminator. -/
def cstr_cells (s : CStr) : List Cell := s.map Cell.ch ++ [Cell.nul]

/-- Read the C string that starts at the first cell; `none` when the read
leaves the memory or meets a byte never written. -/
def read_cstr : List Cell → Option CStr
  | [] => none
  | .uninit :: _ => none
  | .nul :: _ => some []
  | .ch c :: rest => (read_cstr rest).map (fun s => c :: s)

/-- The offset `__strchrnul (s, ':') - s` for the string at the first cell. -/
def strchrnul_colon : List Cell → Option Nat
  | [] => none
  | .uninit :: _ => none
  | .nul :: _ => some 0
  | .ch c :: rest => if c = ':' then some 0 else (strchrnul_colon rest).map (fun k => k + 1)

/-- The copy `memcpy (buf + off, src, n)` of `n = src.length` bytes; `none`
when it would write past the end of `buf`. -/
def store (buf : List Cell) (off : Nat) (src : List Cell) : Option (List Cell) :=
  if off + src.length ≤ buf.length then
    some (buf.take off ++ src ++ buf.drop (off + src.length))
  else none

/-- Where the pointers `path` and `p` point: into the string `getenv ("PATH")`
returned, or into the buffer `name`; the number is the byte offset. -/
inductive Loc where
  | env (i : Nat)
  | buf (i : Nat)
deriving DecidableEq, Repr

/-- The pointer `p + k`. -/
def Loc.add : Loc → Nat → Loc
  | .env i, k => .env (i + k)
  | .buf i, k => .buf (i + k)

/-- The memory from the address `p` on; `penv` holds the bytes of the PATH
string of the environment, `buf` the buffer. -/
def cells_at (penv buf : List Cell) : Loc → List Cell
  | .env i => penv.drop i
  | .buf i => buf.drop i

/-- A `char *` stored in the script argv: a string outside the candidate
buffer, or an address inside it. -/
inductive Ptr where
  | str (s : CStr)
  | buf (off : Nat)
deriving DecidableEq, Repr

/-- One pointer slot of the script argv buffer. -/
inductive Slot where
  | uninit
  | null
  | ptr (p : Ptr)
deriving DecidableEq, Repr

/-- The slot a pointer of the caller's argv is copied to. -/
def Slot.of_arg : Option CStr → Slot
  | none => .null
  | some s => .ptr (.str s)

/-- The string a pointer points to, read when the pointer is used. -/
def deref (buf : List Cell) : Ptr → Option CStr
  | .str s => some s
  | .buf off => read_cstr (buf.drop off)

/-- The value read from a slot; `none` when it cannot be read. -/
def load_slot (buf : List Cell) : Slot → Option (Option CStr)
  | .uninit => none
  | .null => some none
  | .ptr p => (deref buf p).map some

/-- The argv a callee sees behind the script argv buffer: its slots, up to the
first one that cannot be read. -/
def load_argv (buf : List Cell) : List Slot → Argv
  | [] => []
  | x :: xs =>
    match load_slot buf x with
    | some a => a :: load_argv buf xs
    | none => []

/-- The assignment `new_argv[i] = v`; `none` when `i` is outside the buffer. -/
def set_slot (new_argv : List Slot) (i : Nat) (v : Slot) : Option (List Slot) :=
  if i < new_argv.length then some (new_argv.set i v) else none

/-- The loop of `scripts_argv`, lines 132-136:
`while (argc > 1) { new_argv[argc] = argv[argc - 1]; --argc; }`. -/
def scripts_argv_loop (argv : Argv) : Nat → List Slot → Option (List Slot)
  | 0, new_argv => some new_argv
  | argc + 1, new_argv =>
    if argc + 1 > 1 then
      match argv[argc]? with
      | none => none
      | some a =>
        match set_slot new_argv (argc + 1) (Slot.of_arg a) with
        | none => none
        | some nv => scripts_argv_loop argv argc nv
    else some new_argv

/-- The function `scripts_argv`, lines 127-137; `none` when it reads or writes
outside `argv` or `new_argv`. -/
def scripts_argv (file : Ptr) (argv : Argv) (argc : Nat) (new_argv : List Slot) :
    Option (List Slot) :=
  match set_slot new_argv 0 (.ptr (.str _PATH_BSHELL)) with
  | none => none
  | some nv0 =>
    match set_slot nv0 1 (.ptr file) with
    | none => none
    | some nv1 => scripts_argv_loop argv argc nv1

/-! ### `dizi_execvp` -/

/-- The local variables of the PATH loop of `dizi_execvp` that change, next
to the shared state `s`: the bytes of the buffer `name` was cut from,
`script_argv` (`none` is NULL), whether `script_argv_malloc` is non-NULL, and
`got_eacces`. -/
structure Search (σ : Type) where
  s : St σ
  buf : List Cell
  script_argv : Option (List Slot)
  script_argv_malloc : Bool
  got_eacces : Bool

/-- How one pass through the body of the PATH loop ends: at the loop test
`while (*p++ != 0)`, at the `break` of line 257, or by leaving the function. -/
inductive Step (σ : Type) where
  | next (tr : List Event) (st : Search σ)
  | brk (tr : List Event) (st : Search σ)
  | done (r : Res σ)

/-- Put the events `pre` in front of a step. -/
def Step.after {σ : Type} (pre : List Event) : Step σ → Step σ
  | .next tr st => .next (pre ++ tr) st
  | .brk tr st => .brk (pre ++ tr) st
  | .done r => .done (Res.after pre r)

/-- The statement `switch (errno)` of lines 265-290. -/
def search_classify {σ : Type} (st : Search σ) : Step σ :=
  let e := st.s.errno
  if e = EACCES then
    .next [Event.tried e] { st with got_eacces := true }
  else if e = ENOENT ∨ e = ESTALE ∨ e = ENOTDIR ∨ e = ENODEV ∨ e = ETIMEDOUT then
    .next [Event.tried e] st
  else
    .done (.ret [Event.tried e] st.s (-1))

/-- The call `dizi_execve (script_argv[0], script_argv, envp)` of line 262 and
the `switch` after it. -/
def search_run_script {σ : Type} (h : Host σ) (envp : Argv) (st : Search σ)
    (script_argv : List Slot) : Step σ :=
  match script_argv.head? with
  | some (.ptr p) =>
    match deref st.buf p with
    | none => .done (.fault [])
    | some sh =>
      match dizi_execve h st.s sh (load_argv st.buf script_argv) envp with
      | .ret tr s2 _ => Step.after tr (search_classify { st with s := s2 })
      | r => .done r
  | _ => .done (.fault [])

/-- The block `if (errno == ENOEXEC) { ... }` of lines 240-263, and the
`switch` after it. -/
def search_script {σ : Type} (h : Host σ) (argv envp : Argv) (alloclen : Nat)
    (st : Search σ) (startp : Nat) : Step σ :=
  match st.script_argv with
  | some sa => search_run_script h envp st sa
  | none =>
    match count_args_int argv 0 with
    | none => .done (.fault [])
    | some argc =>
      match script_argv_len argc with
      | none => .done (.fault [])
      | some arglen =>
        if __libc_use_alloca (alloclen + arglen) then
          match scripts_argv (.buf startp) argv argc (List.replicate (argc + 1) Slot.uninit) with
          | none => .done (.fault [])
          | some sa => search_run_script h envp { st with script_argv := some sa } sa
        else
          let m := h.malloc st.s.world arglen
          if m.2 then
            match scripts_argv (.buf startp) argv argc
                (List.replicate (argc + 1) Slot.uninit) with
            | none => .done (.fault [Event.malloc .script_argv_malloc arglen true])
            | some sa =>
              Step.after [Event.malloc .script_argv_malloc arglen true]
                (search_run_script h envp
                  { st with s := { st.s with world := m.1 }, script_argv := some sa,
                            script_argv_malloc := true } sa)
          else
            .brk [Event.malloc .script_argv_malloc arglen false]
              { st with s := { world := m.1, errno := ENOMEM }, got_eacces := false }

/-- Lines 237-290 for one candidate: `dizi_execve (startp, argv, envp)`, the
script fallback and the `switch`.  `cand` is the string at `startp`. -/
def search_attempt {σ : Type} (h : Host σ) (argv envp : Argv) (alloclen : Nat)
    (st : Search σ) (startp : Nat) (cand : CStr) : Step σ :=
  match dizi_execve h st.s cand argv envp with
  | .ret tr s1 _ =>
    if s1.errno = ENOEXEC then
      Step.after tr (search_script h argv envp alloclen { st with s := s1 } startp)
    else
      Step.after tr (search_classify { st with s := s1 })
  | r => .done r

/-- Lines 227-235: `p = __strchrnul (path, ':')` and the choice of `startp`.
Gives `p - path`, `startp` (an offset in the buffer) and the buffer after the
`memcpy`; `none` when an access leaves the memory. `name` is the offset of the
pointer `name` in the buffer. -/
def search_startp (penv buf : List Cell) (name : Nat) (path : Loc) :
    Option (Nat × Nat × List Cell) :=
  match strchrnul_colon (cells_at penv buf path) with
  | none => none
  | some k =>
    if k = 0 then some (0, name + 1, buf)
    else if k ≤ name then
      match store buf (name - k) ((cells_at penv buf path).take k) with
      | none => none
      | some buf1 => some (k, name - k, buf1)
    else none

/-- Lines 294-305: the code after the loop. -/
def search_finish {σ : Type} (path_malloc : Bool) (st : Search σ) : Res σ :=
  .ret ((if st.script_argv_malloc then [Event.free .script_argv_malloc] else []) ++
        (if path_malloc then [Event.free .path_malloc] else []))
    (if st.got_eacces then { st.s with errno := EACCES } else st.s) (-1)

/-- The loop `do { ... } while (*p++ != 0)` of lines 223-292 and the code
after it, started with `p` at the given address.  Every pass moves `p` at
least one byte on, so a number of passes above the number of bytes readable
from `p` is not reached: with the fuel `dizi_execvp` gives, the first clause
is dead code. -/
def search_loop {σ : Type} (h : Host σ) (argv envp : Argv) (alloclen name : Nat)
    (penv : List Cell) (path_malloc : Bool) : Nat → Search σ → Loc → Res σ
  | 0, _, _ => .fault []
  | fuel + 1, st, p =>
    match search_startp penv st.buf name p with
    | none => .fault []
    | some (k, startp, buf1) =>
      match read_cstr (buf1.drop startp) with
      | none => .fault []
      | some cand =>
        match search_attempt h argv envp alloclen { st with buf := buf1 } startp cand with
        | .done r => Res.after [Event.candidate cand] r
        | .brk tr st1 => Res.after (Event.candidate cand :: tr) (search_finish path_malloc st1)
        | .next tr st1 =>
          match (cells_at penv st1.buf (p.add k)).head? with
          | some .nul =>
            Res.after (Event.candidate cand :: tr) (search_finish path_malloc st1)
          | some (.ch _) =>
            Res.after (Event.candidate cand :: tr)
              (search_loop h argv envp alloclen name penv path_malloc fuel st1 (p.add (k + 1)))
          | _ => .fault (Event.candidate cand :: tr)

/-- What `confstr (_CS_PATH, dst, len)` writes at `dst`: nothing when `len` is
0, else the value cut to `len - 1` bytes and a terminator. -/
def confstr_cells (value : CStr) (len : Nat) : List Cell :=
  if len = 0 then [] else cstr_cells (value.take (len - 1))

/-- The branch of `dizi_execvp` for a name with a slash, after the first
`dizi_execve` came back with `ENOEXEC` (lines 155-174). -/
def slash_script {σ : Type} (h : Host σ) (s1 : St σ) (file : CStr) (argv envp : Argv) :
    Res σ :=
  match count_args_int argv 0 with
  | none => .fault []
  | some argc =>
    match script_argv_len argc with
    | none => .fault []
    | some len =>
      let m := if __libc_use_alloca len then (s1.world, true) else h.malloc s1.world len
      let tr0 := if __libc_use_alloca len then [] else [Event.malloc .ptr len m.2]
      if m.2 then
        match scripts_argv (.str file) argv argc (List.replicate (argc + 1) Slot.uninit) with
        | none => .fault tr0
        | some sa =>
          match sa.head? with
          | some (.ptr p) =>
            match deref [] p with
            | none => .fault tr0
            | some sh =>
              match dizi_execve h { s1 with world := m.1 } sh (load_argv [] sa) envp with
              | .ret tr s2 _ =>
                .ret (tr0 ++ tr ++ (if __libc_use_alloca len then [] else [Event.free .ptr]))
                  s2 (-1)
              | r => Res.after tr0 r
          | _ => .fault tr0
      else
        .ret tr0 { world := m.1, errno := ENOMEM } (-1)

/-- The value of `pathlen` (lines 184-188). -/
def pathlen_of {σ : Type} (h : Host σ) : Nat :=
  match h.getenv_PATH with
  | none => h.cs_path.length + 1
  | some path => path.length

/-- The value of `alloclen` (lines 180-191). -/
def alloclen_of {σ : Type} (h : Host σ) (file : CStr) : Nat :=
  (match h.getenv_PATH with
    | none => pathlen_of h + 1
    | some _ => 0) + pathlen_of h + (file.length + 1) + 1

/-- The bytes of the string `getenv ("PATH")` returned; empty when it
returned NULL. -/
def env_cells {σ : Type} (h : Host σ) : List Cell :=
  match h.getenv_PATH with
  | none => []
  | some path => cstr_cells path

/-- Lines 204-217: the default path stored in the buffer when `PATH` is not
set, the copy of `file` at `name + pathlen + 1`, and the slash before it.
Gives the pointer `p` of line 222 and the buffer; `none` when a write leaves
the buffer. -/
def path_setup {σ : Type} (h : Host σ) (file : CStr) : Option (Loc × List Cell) :=
  let pathlen := pathlen_of h
  let len := file.length + 1
  let buf0 := List.replicate (alloclen_of h file) Cell.uninit
  let init : Option (Loc × List Cell) := match h.getenv_PATH with
    | none =>
      (store buf0 (pathlen + len + 1) (Cell.ch ':' :: confstr_cells h.cs_path pathlen)).map
        (fun b => (Loc.buf (pathlen + len + 1), b))
    | some _ => some (Loc.env 0, buf0)
  match init with
  | none => none
  | some (p, buf1) =>
    match store buf1 (pathlen + 1) (cstr_cells file) with
    | none => none
    | some buf2 =>
      match store buf2 pathlen [Cell.ch '/'] with
      | none => none
      | some buf3 => some (p, buf3)

/-- The PATH branch of `dizi_execvp`, lines 179-302. -/
def path_search {σ : Type} (h : Host σ) (s : St σ) (file : CStr) (argv envp : Argv) :
    Res σ :=
  let alloclen := alloclen_of h file
  let m := if __libc_use_alloca alloclen then (s.world, true) else h.malloc s.world alloclen
  let path_malloc := !__libc_use_alloca alloclen
  let tr0 := if path_malloc then [Event.malloc .path_malloc alloclen m.2] else []
  if m.2 then
    match path_setup h file with
    | none => .fault tr0
    | some (p, buf) =>
      Res.after tr0
        (search_loop h argv envp alloclen (pathlen_of h) (env_cells h) path_malloc
          ((cells_at (env_cells h) buf p).length + 1)
          { s := { s with world := m.1 }, buf := buf, script_argv := none,
            script_argv_malloc := false, got_eacces := false } p)
  else
    .ret tr0 { world := m.1, errno := ENOMEM } (-1)

/-- The function `dizi_execvp`, lines 139-306. -/
def dizi_execvp {σ : Type} (h : Host σ) (s : St σ) (file : CStr) (argv : Argv) : Res σ :=
  let envp := h.environ
  if file = [] then
    .ret [] { s with errno := ENOENT } (-1)
  else if '/' ∈ file then
    match dizi_execve h s file argv envp with
    | .ret tr s1 _ =>
      if s1.errno = ENOEXEC then Res.after tr (slash_script h s1 file argv envp)
      else .ret tr s1 (-1)
    | r => r
  else
    path_search h s file argv envp

/-! ### The variadic wrappers `dizi_execl`, `dizi_execle`, `dizi_execlp` -/

/-- The constant `INITIAL_ARGV_MAX`. -/
def INITIAL_ARGV_MAX : Nat := 1024

/-- The number of values of `unsigned int`: the counter `i` is kept modulo it. -/
def UINT_RANGE : Nat := 2 ^ 32

/-- How the argument loop of the variadic wrappers ends: with the array
`argv` filled (`heap` tells whether `argv != initial_argv`; `va` is what
`va_arg` would yield next), with `return -1` after a failed `realloc`, or by
reading memory it may not read. -/
inductive Collected (σ : Type) where
  | filled (tr : List Event) (s : St σ) (argv : List Slot) (heap : Bool)
      (va : List (Option CStr))
  | failed (tr : List Event) (s : St σ)
  | fault (tr : List Event)

/-- Put the events `pre` in front of the result of the argument loop. -/
def Collected.after {σ : Type} (pre : List Event) : Collected σ → Collected σ
  | .filled tr s a hp va => .filled (pre ++ tr) s a hp va
  | .failed tr s => .failed (pre ++ tr) s
  | .fault tr => .fault (pre ++ tr)

/-- The events of the argument loop. -/
def Collected.trace {σ : Type} : Collected σ → List Event
  | .filled tr _ _ _ _ => tr
  | .failed tr _ => tr
  | .fault tr => tr

/-- The loop `while (argv[i++] != NULL) { ... argv[i] = va_arg (args, const
char *); }` of lines 47-68 (the same text at lines 88-109 and 319-340).
`argv` is the array of `argv_max` slots, `va` the values `va_arg` yields, in
order.  A failed `realloc` sets `errno` to `ENOMEM`; the allocator is asked
through `Host.malloc`.  Every pass takes one value from `va`, so the first
clause is dead code with the fuel `collect_args` gives. -/
def collect_loop {σ : Type} (h : Host σ) :
    Nat → St σ → List Slot → Nat → Bool → Nat → List (Option CStr) → Collected σ
  | 0, _, _, _, _, _, _ => .fault []
  | fuel + 1, s, argv, argv_max, heap, i, va =>
    match argv[i]? with
    | some .null => .filled [] s argv heap va
    | some (.ptr _) =>
      let i1 := (i + 1) % UINT_RANGE
      if i1 = argv_max then
        let argv_max1 := argv_max * 2
        let m := h.malloc s.world (argv_max1 * sizeof_ptr)
        if m.2 then
          let kept := if heap then argv else argv.take i1
          let nptr := kept ++ List.replicate (argv_max1 - kept.length) Slot.uninit
          match va with
          | [] => .fault [Event.malloc .argv (argv_max1 * sizeof_ptr) true]
          | a :: va1 =>
            match set_slot nptr i1 (Slot.of_arg a) with
            | none => .fault [Event.malloc .argv (argv_max1 * sizeof_ptr) true]
            | some argv1 =>
              Collected.after [Event.malloc .argv (argv_max1 * sizeof_ptr) true]
                (collect_loop h fuel { s with world := m.1 } argv1 argv_max1 true i1 va1)
        else
          .failed (Event.malloc .argv (argv_max1 * sizeof_ptr) false ::
              (if heap then [Event.free .argv] else []))
            { world := m.1, errno := ENOMEM }
      else
        match va with
        | [] => .fault []
        | a :: va1 =>
          match set_slot argv i1 (Slot.of_arg a) with
          | none => .fault []
          | some argv1 => collect_loop h fuel s argv1 argv_max heap i1 va1
    | _ => .fault []

/-- Lines 38-69: `argv[0] = arg`, then the argument loop, here with
`initial_argv` of `INITIAL_ARGV_MAX` slots. -/
def collect_args {σ : Type} (h : Host σ) (s : St σ) (arg : Option CStr)
    (va : List (Option CStr)) : Collected σ :=
  collect_loop h (va.length + 1) s
    (Slot.of_arg arg :: List.replicate (INITIAL_ARGV_MAX - 1) Slot.uninit)
    INITIAL_ARGV_MAX false 0 va

/-- The end of the wrappers: `if (argv != initial_argv) free (argv); return ret;`. -/
def collect_return {σ : Type} (heap : Bool) : Res σ → Res σ
  | .ret tr s v => .ret (tr ++ (if heap then [Event.free .argv] else [])) s v
  | r => r

/-- The function `dizi_execl`, lines 36-76; `va` holds the arguments after
`arg`. -/
def dizi_execl {σ : Type} (h : Host σ) (s : St σ) (path : CStr) (arg : Option CStr)
    (va : List (Option CStr)) : Res σ :=
  match collect_args h s arg va with
  | .filled tr s1 argv heap _ =>
    Res.after tr (collect_return heap (dizi_execve h s1 path (load_argv [] argv) h.environ))
  | .failed tr s1 => .ret tr s1 (-1)
  | .fault tr => .fault tr

/-- The function `dizi_execle`, lines 78-119; `va` holds the `const char *`
arguments after `arg`, and `envp` is the argument `va_arg` yields after the
loop (line 111). -/
def dizi_execle {σ : Type} (h : Host σ) (s : St σ) (path : CStr) (arg : Option CStr)
    (va : List (Option CStr)) (envp : Argv) : Res σ :=
  match collect_args h s arg va with
  | .filled tr s1 argv heap _ =>
    Res.after tr (collect_return heap (dizi_execve h s1 path (load_argv [] argv) envp))
  | .failed tr s1 => .ret tr s1 (-1)
  | .fault tr => .fault tr

/-- The function `dizi_execv`, lines 121-123. -/
def dizi_execv {σ : Type} (h : Host σ) (s : St σ) (path : CStr) (argv : Argv) : Res σ :=
  dizi_execve h s path argv h.environ

/-- The function `dizi_execlp`, lines 308-348. -/
def dizi_execlp {σ : Type} (h : Host σ) (s : St σ) (file : CStr) (arg : Option CStr)
    (va : List (Option CStr)) : Res σ :=
  match collect_args h s arg va with
  | .filled tr s1 argv heap _ =>
    Res.after tr (collect_return heap (dizi_execvp h s1 file (load_argv [] argv)))
  | .failed tr s1 => .ret tr s1 (-1)
  | .fault tr => .fault tr

/-! ### Reading traces, and hosts for examples -/

/-- The legacy `execve` calls of a trace, in order. -/
def legacy_calls : List Event → List (CStr × Argv × Argv)
  | [] => []
  | .legacy p a e :: tr => (p, a, e) :: legacy_calls tr
  | _ :: tr => legacy_calls tr

/-- A host for examples: the digest of a string is its length, the registry
knows the names in `known` (lookup leaves `rc = 1`), `dios_run` returns
`run_ret` with `errno = run_errno`, the legacy `execve` fails with the `errno`
that `legacy_errno` gives for the path, `malloc` fails. -/
def example_host (known : List dios_name_t) (run_ret run_errno : Int)
    (legacy_errno : CStr → Int) (path : Option CStr) : Host Unit where
  sha256 := fun s => s.length
  dios_lookup := fun w e n =>
    { world := w, errno := e, ret := 0, rc := if n ∈ known then 1 else 0, ref := n }
  dios_run := fun w _ _ _ => { world := w, errno := run_errno, ret := run_ret }
  execve := fun w _ p _ _ => .returned w (legacy_errno p) (-1)
  malloc := fun w _ => (w, false)
  getenv_PATH := path
  cs_path := "/bin:/usr/bin".toList
  environ := [none]

/-- The vector `["prog", "x", NULL]`. -/
def argv_prog : Argv := [some "prog".toList, some "x".toList, none]

/-! ### The PATH loop over the segments of the search path -/

/-- The errno values the `switch` of lines 265-283 answers with `break`:
the loop goes on to the next directory. -/
def is_skip (e : Int) : Prop :=
  e = EACCES ∨ e = ENOENT ∨ e = ESTALE ∨ e = ENOTDIR ∨ e = ENODEV ∨ e = ETIMEDOUT

instance (e : Int) : Decidable (is_skip e) := by
  unfold is_skip
  exact inferInstance

/-- The colon-separated segments of a search path, in order; an empty path
has one segment, the empty one. -/
def segments : CStr → List CStr
  | [] => [[]]
  | c :: rest =>
    if c = ':' then [] :: segments rest
    else
      match segments rest with
      | [] => [[c]]
      | d :: ds => (c :: d) :: ds

/-- The segments put together again, a colon between neighbours. -/
def join_segs : List CStr → CStr
  | [] => []
  | [d] => d
  | d :: ds => d ++ ':' :: join_segs ds

/-- The path `dizi_execvp` searches: `PATH`, or `":"` followed by the
`confstr` default when `PATH` is not set (lines 181-212). -/
def search_path {σ : Type} (h : Host σ) : CStr :=
  match h.getenv_PATH with
  | some path => path
  | none => ':' :: h.cs_path

/-- The candidate name for the directory `d`: `d + "/" + file`, and the bare
`file` for the empty segment. -/
def candidate_of (file d : CStr) : CStr :=
  if d = [] then file else d ++ '/' :: file

/-- The PATH loop told over the segments still to search, the buffer being
`st.buf`: what `search_loop` computes when `p` stands at the start of these
segments (theorem `search_loop_eq_search_over`). -/
def search_over {σ : Type} (h : Host σ) (argv envp : Argv) (alloclen name : Nat)
    (file : CStr) (path_malloc : Bool) : List CStr → Search σ → Res σ
  | [], st => search_finish path_malloc st
  | d :: ds, st =>
    let buf1 := if d = [] then st.buf
      else st.buf.take (name - d.length) ++ d.map Cell.ch ++ st.buf.drop name
    let startp := if d = [] then name + 1 else name - d.length
    match search_attempt h argv envp alloclen { st with buf := buf1 } startp
        (candidate_of file d) with
    | .done r => Res.after [Event.candidate (candidate_of file d)] r
    | .brk tr st1 =>
      Res.after (Event.candidate (candidate_of file d) :: tr) (search_finish path_malloc st1)
    | .next tr st1 =>
      Res.after (Event.candidate (candidate_of file d) :: tr)
        (search_over h argv envp alloclen name file path_malloc ds st1)

/-- The errno values the `switch` of the PATH loop saw, in order. -/
def tried_errs (tr : List Event) : List Int :=
  tr.filterMap (fun ev => match ev with | .tried e => some e | _ => none)

/-- The errno values the calls of `dizi_execve` returned with, in order. -/
def returned_errs (tr : List Event) : List Int :=
  tr.filterMap (fun ev => match ev with | .returned _ e => some e | _ => none)

/-- The calls of `dizi_execve` of a trace, in order. -/
def dispatch_calls (tr : List Event) : List (CStr × Argv × Argv) :=
  tr.filterMap (fun ev => match ev with | .dispatch p a e => some (p, a, e) | _ => none)

/-- The candidate names the PATH loop formed, in order. -/
def candidates (tr : List Event) : List CStr :=
  tr.filterMap (fun ev => match ev with | .candidate c => some c | _ => none)

/-- The events inside a call of `dizi_execve`, between entry and return. -/
def Event.inner : Event → Bool
  | .lookup _ _ _ => true
  | .run _ _ _ => true
  | .legacy _ _ _ => true
  | .exit _ => true
  | _ => false

/-- The pointer `p` stands, outside the first `name` bytes of the buffer, at
the start of the string `rest`. -/
def PathAt (penv buf : List Cell) (name : Nat) (p : Loc) (rest : CStr) : Prop :=
  match p with
  | .env i => penv.drop i = cstr_cells rest
  | .buf i => name ≤ i ∧ buf.drop i = cstr_cells rest

/-- The buffer holds `"/" + file` at the offset `name`. -/
def BufOk (buf : List Cell) (name : Nat) (file : CStr) : Prop :=
  name ≤ buf.length ∧ ∃ tailc, buf.drop name = Cell.ch '/' :: (cstr_cells file ++ tailc)

/-- The bytes of a joined path after its first segment: the terminator, or a
colon and the other segments. -/
def after_seg (ds : List CStr) : List Cell :=
  match ds with
  | [] => [Cell.nul]
  | _ :: _ => Cell.ch ':' :: cstr_cells (join_segs ds)

/-- The buffer when the PATH loop starts: `pathlen` bytes not yet written,
`"/" + file`, and, when `PATH` is not set, the default search path. -/
def init_buf {σ : Type} (h : Host σ) (file : CStr) : List Cell :=
  List.replicate (pathlen_of h) Cell.uninit ++ (Cell.ch '/' :: (cstr_cells file ++
    (match h.getenv_PATH with
      | none => cstr_cells (':' :: h.cs_path)
      | some _ => [])))

/-- The local variables when the PATH loop starts (lines 219-222). -/
def init_search {σ : Type} (h : Host σ) (s : St σ) (file : CStr) : Search σ :=
  { s := s, buf := init_buf h file, script_argv := none, script_argv_malloc := false,
    got_eacces := false }

/-! ### One pass of the PATH loop, told in its events -/

/-- The sizes of the failed `malloc` calls for the script argv, in order. -/
def script_fails (tr : List Event) : List Nat :=
  tr.filterMap (fun ev => match ev with
    | .malloc .script_argv_malloc n false => some n
    | _ => none)

/-- Every call of `dizi_execve` in the trace returned, with an `errno` of the
skip class. -/
def all_skipped (tr : List Event) : Prop :=
  (returned_errs tr).length = (dispatch_calls tr).length ∧ ∀ e ∈ returned_errs tr, is_skip e

/-- What one pass of the PATH loop for the candidate `cand` leaves, told in
the events of the pass; `g` is `got_eacces` before the pass. -/
def attempt_spec {σ : Type} (g : Bool) (cand : CStr) (argv envp : Argv) : Step σ → Prop
  | .next tr st1 =>
    candidates tr = [] ∧ script_fails tr = [] ∧
    (∃ e, tried_errs tr = [e] ∧ is_skip e ∧ st1.s.errno = e ∧
      st1.got_eacces = (g || decide (e = EACCES))) ∧
    (returned_errs tr).length ≤ (dispatch_calls tr).length ∧
    (all_skipped tr → dispatch_calls tr = [(cand, argv, envp)])
  | .brk tr st1 =>
    candidates tr = [] ∧ tried_errs tr = [] ∧ st1.s.errno = ENOMEM ∧ st1.got_eacces = false ∧
    (∃ pre v n, tr = pre ++ [Event.returned v ENOEXEC, Event.malloc .script_argv_malloc n false] ∧
      script_fails pre = []) ∧
    (returned_errs tr).length ≤ (dispatch_calls tr).length ∧ ¬ all_skipped tr
  | .done (.ret tr s1 v) =>
    candidates tr = [] ∧ script_fails tr = [] ∧ v = -1 ∧
    (∃ pre e, tr = pre ++ [Event.tried e] ∧ tried_errs pre = [] ∧ ¬ is_skip e ∧ s1.errno = e) ∧
    (returned_errs tr).length ≤ (dispatch_calls tr).length ∧ ¬ all_skipped tr
  | .done r =>
    candidates r.trace = [] ∧ script_fails r.trace = [] ∧ tried_errs r.trace = [] ∧
    (returned_errs r.trace).length ≤ (dispatch_calls r.trace).length ∧ ¬ all_skipped r.trace

/-- The events of a pass so far end with a return of `dizi_execve` that left
`errno = e`. -/
def pre_ok (pre : List Event) (e : Int) (cand : CStr) (argv envp : Argv) : Prop :=
  candidates pre = [] ∧ script_fails pre = [] ∧ tried_errs pre = [] ∧
  (returned_errs pre).length = (dispatch_calls pre).length ∧
  (∃ pre0 v, pre = pre0 ++ [Event.returned v e]) ∧
  ((∀ x ∈ returned_errs pre, is_skip x) → dispatch_calls pre = [(cand, argv, envp)])

/-- The events of a pass so far hold a return of `dizi_execve` with an
`errno` outside the skip class. -/
def pre_mid (pre : List Event) : Prop :=
  candidates pre = [] ∧ script_fails pre = [] ∧ tried_errs pre = [] ∧
  (returned_errs pre).length = (dispatch_calls pre).length ∧
  ∃ x ∈ returned_errs pre, ¬ is_skip x

/-- The `errno` after a search that ran through all directories: `EACCES` when
`got_eacces` was set (`g`) or one of the tried candidates failed with it, else
the `errno` of the last candidate tried (`e0` when none was). -/
def exhausted_errno (g : Bool) (e0 : Int) (errs : List Int) : Int :=
  if g = true ∨ EACCES ∈ errs then EACCES else errs.getLast?.getD e0

/-- The value a call returns to its caller and the `errno` it leaves; `none`
when the call does not return. -/
def Res.returns {σ : Type} : Res σ → Option (Int × Int)
  | .ret _ s v => some (v, s.errno)
  | _ => none

/-- The sizes of the failed `malloc` calls for the candidate buffer. -/
def buffer_fails (tr : List Event) : List Nat :=
  tr.filterMap (fun ev => match ev with
    | .malloc .path_malloc n false => some n
    | _ => none)

instance (tr : List Event) : Decidable (all_skipped tr) := by
  unfold all_skipped
  exact inferInstance

/-- A directory name of `n` bytes, for examples. -/
def long_dir (n : Nat) : CStr := List.replicate n 'd'

/-- The legacy `errno` of the examples: `EACCES` for `/a/prog`, `EINVAL` for
`/x/prog`, `ESTALE` for `/s/prog`, `ENOENT` for every other path. -/
def example_errno (p : CStr) : Int :=
  if p = "/a/prog".toList then EACCES
  else if p = "/x/prog".toList then EINVAL
  else if p = "/s/prog".toList then ESTALE
  else ENOENT

/-- The host of the examples with `PATH = "/a:/b"`. -/
def host_ab : Host Unit := example_host [] 0 0 example_errno (some "/a:/b".toList)

/-- The host of the examples with `PATH = "/b:/s"`. -/
def host_bs : Host Unit := example_host [] 0 0 example_errno (some "/b:/s".toList)

/-- The host of the examples with `PATH = "/a::/b"`. -/
def host_gap : Host Unit := example_host [] 0 0 example_errno (some "/a::/b".toList)

/-- The host of the examples with `PATH = "/a:/x:/b"`. -/
def host_ax : Host Unit := example_host [] 0 0 example_errno (some "/a:/x:/b".toList)

/-- The host of the examples whose `PATH` is one directory of `n` bytes. -/
def host_long (n : Nat) : Host Unit := example_host [] 0 0 example_errno (some (long_dir n))

/-- The host of the examples whose `PATH` is `/a` and a directory of `n`
bytes, every legacy `execve` failing with `ENOEXEC`. -/
def host_noexec (n : Nat) : Host Unit :=
  example_host [] 0 0 (fun _ => ENOEXEC) (some ('/' :: 'a' :: ':' :: long_dir n))

/-- The sizes of the failed `realloc` calls of the argument loop, in order. -/
def realloc_fails (tr : List Event) : List Nat :=
  tr.filterMap (fun ev => match ev with
    | .malloc .argv n false => some n
    | _ => none)

/-- A host for examples like `example_host`, with a `malloc` that succeeds. -/
def alloc_host (known : List dios_name_t) (run_ret run_errno : Int)
    (legacy_errno : CStr → Int) (path : Option CStr) : Host Unit :=
  { example_host known run_ret run_errno legacy_errno path with malloc := fun w _ => (w, true) }

/-- The legacy `errno` of the script examples: `ESTALE` for the shell,
`ENOEXEC` for every other path. -/
def script_errno (p : CStr) : Int := if p = _PATH_BSHELL then ESTALE else ENOEXEC

/-- The host of the script examples: no DIOS name is known, the legacy
`execve` fails with `script_errno`, `malloc` fails. -/
def host_script (path : Option CStr) : Host Unit := example_host [] 0 0 script_errno path

/-- An argv of `n + 1` arguments: `"prog"`, then `n` times `"x"`. -/
def argv_many (n : Nat) : Argv :=
  some "prog".toList :: ((List.replicate n "x".toList).map some ++ [none])

/-- The host of the examples whose `PATH` is `/x` and a directory of `n`
bytes, with a `malloc` that succeeds. -/
def host_x_long (n : Nat) : Host Unit :=
  alloc_host [] 0 0 example_errno (some ('/' :: 'x' :: ':' :: long_dir n))

/-- The host of the examples with `PATH` not set: the search path is
`":/bin:/usr/bin"`. -/
def host_unset : Host Unit := example_host [] 0 0 example_errno none

/-- The memory the PATH loop can stand in at the top of a pass (line 227): the
buffer and the pointer `p`.  The first pass starts from the buffer and pointer
lines 204-222 set up; a pass that goes round the loop leaves the buffer as the
`memcpy` of line 235 wrote it and `p` one byte behind the colon the loop test
of line 292 read. -/
inductive MemReach {σ : Type} (h : Host σ) (file : CStr) : List Cell → Loc → Prop where
  | init (p : Loc) (buf : List Cell) :
      path_setup h file = some (p, buf) → MemReach h file buf p
  | step (buf : List Cell) (p : Loc) (k startp : Nat) (buf1 : List Cell) (c : Char) :
      MemReach h file buf p →
      search_startp (env_cells h) buf (pathlen_of h) p = some (k, startp, buf1) →
      (cells_at (env_cells h) buf1 (p.add k)).head? = some (.ch c) →
      MemReach h file buf1 (p.add (k + 1))

/-- What holds of the memory at the top of every pass: the buffer has
`alloclen` bytes and holds `"/" + file` at `name`, and `p` stands at the start
of the rest of the search path, which is not longer than `pathlen`. -/
def MemInv {σ : Type} (h : Host σ) (file : CStr) (buf : List Cell) (p : Loc) : Prop :=
  buf.length = alloclen_of h file ∧ BufOk buf (pathlen_of h) file ∧
    ∃ d ds, (∀ x ∈ d :: ds, ':' ∉ x) ∧ (join_segs (d :: ds)).length ≤ pathlen_of h ∧
      PathAt (env_cells h) buf (pathlen_of h) p (join_segs (d :: ds))

/-- A file name of `n` bytes, for examples. -/
def long_name (n : Nat) : CStr := List.replicate n 'f'

/-! ## Theorems -/

/-! ### The dispatcher `dizi_execve` -/

theorem legacy_calls_append (a b : List Event) :
    legacy_calls (a ++ b) = legacy_calls a ++ legacy_calls b := by
  induction a with
  | nil => rfl
  | cons x xs ih => cases x <;> simp [legacy_calls, ih]

/-- What `__run_dios_file` gives: it reads past `argv`, or it returns; it makes
no legacy call, returns 0 when `dios_run` returned 0, and leaves `ENOENT` when
the lookup succeeded and left `rc = 0`. -/
theorem run_dios_file_shape {σ : Type} (h : Host σ) (s : St σ) (f : CStr) (argv : Argv) :
    __run_dios_file h s f argv = .fault [] ∨
    ∃ tr s1 v, __run_dios_file h s f argv = .ret tr s1 v ∧ legacy_calls tr = [] ∧
      ((∃ ref ts, Event.run ref ts 0 ∈ tr) → v = 0) ∧
      ((∃ name, Event.lookup name 0 0 ∈ tr) → s1.errno = ENOENT) := by
  unfold __run_dios_file
  dsimp only
  split
  · exact Or.inl rfl
  · right
    split_ifs <;> refine ⟨_, _, _, rfl, ?_, ?_, ?_⟩ <;> simp_all [legacy_calls]
    all_goals (intro hh; exact absurd hh.symm (by assumption))

theorem run_dios_file_no_legacy {σ : Type} (h : Host σ) (s : St σ) (f : CStr) (argv : Argv)
    (tr : List Event) (s1 : St σ) (v : Int) (hd : __run_dios_file h s f argv = .ret tr s1 v) :
    legacy_calls tr = [] := by
  rcases run_dios_file_shape h s f argv with hf | ⟨tr2, s2, v2, hd2, h2, -, -⟩
  · simp [hf] at hd
  · rw [hd] at hd2
    cases hd2
    exact h2

theorem run_dios_file_long {σ : Type} (h : Host σ) (s : St σ) (f : CStr) (argv : Argv)
    (hc : count_args (argv.drop 1) 0 ≠ none) (hlen : 4096 < f.length) :
    __run_dios_file h s f argv = .ret [] { s with errno := EINVAL } (-1) := by
  unfold __run_dios_file
  cases hn : count_args (argv.drop 1) 0 with
  | none => exact absurd hn hc
  | some argc => simp [hlen]

theorem run_dios_file_short {σ : Type} (h : Host σ) (s : St σ) (f : CStr) (argv : Argv)
    (hc : count_args (argv.drop 1) 0 ≠ none) (hlen : f.length ≤ 4096) :
    ∃ tr s1 v, __run_dios_file h s f argv =
      .ret (Event.lookup (h.sha256 f) (h.dios_lookup s.world s.errno (h.sha256 f)).ret
        (h.dios_lookup s.world s.errno (h.sha256 f)).rc :: tr) s1 v := by
  unfold __run_dios_file
  cases hn : count_args (argv.drop 1) 0 with
  | none => exact absurd hn hc
  | some argc =>
    have hlen2 : ¬ f.length > 4096 := by omega
    simp only [hlen2, if_false]
    split_ifs <;> exact ⟨_, _, _, rfl⟩

/-- C1: when the lookup `dizi_execve` makes returns 0 and reports found
(`rc ≠ 0`) and the `dios_run` it makes returns 0, the call does not return: it
ends in `_Exit (0)`, and its trace holds no legacy `execve`. -/
theorem dizi_execve_registry_success_exits {σ : Type} (h : Host σ) (s : St σ) (path : CStr)
    (argv envp : Argv) (name : dios_name_t) (rc : Nat) (ref : dios_ref) (ts : dios_task_spec_t)
    (hl : Event.lookup name 0 rc ∈ (dizi_execve h s path argv envp).trace) (hrc : rc ≠ 0)
    (hr : Event.run ref ts 0 ∈ (dizi_execve h s path argv envp).trace) :
    (∃ tr s1, dizi_execve h s path argv envp = .exited (tr ++ [Event.exit 0]) s1 0) ∧
      legacy_calls (dizi_execve h s path argv envp).trace = [] := by
  rcases run_dios_file_shape h s path argv with hf | ⟨tr, s1, v, hd, hleg, hv, -⟩
  · simp [dizi_execve, hf, Res.after, Res.trace] at hr
  · simp only [dizi_execve, hd] at hr ⊢
    by_cases h0 : v = 0
    · subst h0
      simp [Res.trace, legacy_calls_append, hleg, legacy_calls]
      exact ⟨Event.dispatch path argv envp :: tr, rfl⟩
    · exfalso
      apply h0
      apply hv
      refine ⟨ref, ts, ?_⟩
      simp only [h0, if_false] at hr
      split_ifs at hr
      · split at hr <;> simpa [Res.trace] using hr
      · simpa [Res.trace] using hr

theorem dizi_execve_registry_success_exits_witness :
    Event.lookup 9 0 1 ∈ (dizi_execve (example_host [9] 0 0 (fun _ => ENOENT) none) ⟨(), 0⟩
        "/bin/prog".toList argv_prog [none]).trace ∧
    (1 : Nat) ≠ 0 ∧
    Event.run 9 ⟨0, 0, argv_prog, 2⟩ 0 ∈ (dizi_execve (example_host [9] 0 0 (fun _ => ENOENT) none)
        ⟨(), 0⟩ "/bin/prog".toList argv_prog [none]).trace ∧
    ((∃ tr s1, dizi_execve (example_host [9] 0 0 (fun _ => ENOENT) none) ⟨(), 0⟩
        "/bin/prog".toList argv_prog [none] = .exited (tr ++ [Event.exit 0]) s1 0) ∧
      legacy_calls (dizi_execve (example_host [9] 0 0 (fun _ => ENOENT) none) ⟨(), 0⟩
        "/bin/prog".toList argv_prog [none]).trace = []) :=
  ⟨by decide, by decide, by decide,
    dizi_execve_registry_success_exits _ _ _ _ _ 9 1 9 ⟨0, 0, argv_prog, 2⟩
      (by decide) (by decide) (by decide)⟩

/-- C2: when the registry part `__run_dios_file` fails and the lookup
succeeded with `rc = 0` (not found), or `errno` is left at `ENOENT` or
`ENOSYS`, `dizi_execve` calls the legacy `execve` once, with the path, argv
and envp it was given, and ends as that call ends: replaced, or returning the
value and `errno` of that call. -/
theorem dizi_execve_not_found_runs_legacy {σ : Type} (h : Host σ) (s : St σ) (path : CStr)
    (argv envp : Argv) (tr : List Event) (s1 : St σ) (v : Int)
    (hd : __run_dios_file h s path argv = .ret tr s1 v) (hv : v ≠ 0)
    (hc : (∃ name, Event.lookup name 0 0 ∈ tr) ∨ s1.errno = ENOENT ∨ s1.errno = ENOSYS) :
    legacy_calls (dizi_execve h s path argv envp).trace = [(path, argv, envp)] ∧
    dizi_execve h s path argv envp =
      match h.execve s1.world s1.errno path argv envp with
      | .replaced w =>
        .replaced (Event.dispatch path argv envp :: tr ++ [Event.legacy path argv envp])
          { world := w, errno := s1.errno }
      | .returned w e v1 =>
        .ret (Event.dispatch path argv envp :: tr ++
          [Event.legacy path argv envp, Event.returned v1 e]) { world := w, errno := e } v1 := by
  have he : s1.errno = ENOENT ∨ s1.errno = ENOSYS := by
    rcases hc with hc | hc
    · rcases run_dios_file_shape h s path argv with hf | ⟨tr2, s2, v2, hd2, -, -, h4⟩
      · simp [hf] at hd
      · rw [hd] at hd2
        cases hd2
        exact Or.inl (h4 hc)
    · exact hc
  have hleg := run_dios_file_no_legacy h s path argv tr s1 v hd
  simp only [dizi_execve, hd, hv, if_false, he, if_true]
  cases h.execve s1.world s1.errno path argv envp <;>
    simp [Res.trace, legacy_calls_append, hleg, legacy_calls]

theorem dizi_execve_not_found_runs_legacy_witness :
    __run_dios_file (example_host [] 0 0 (fun _ => EACCES) none) ⟨(), 0⟩ "/bin/prog".toList
        argv_prog = .ret [Event.lookup 9 0 0] ⟨(), ENOENT⟩ (-1) ∧
    (-1 : Int) ≠ 0 ∧
    ((∃ name, Event.lookup name 0 0 ∈ [Event.lookup 9 0 0]) ∨
      (⟨(), ENOENT⟩ : St Unit).errno = ENOENT ∨ (⟨(), ENOENT⟩ : St Unit).errno = ENOSYS) ∧
    (legacy_calls (dizi_execve (example_host [] 0 0 (fun _ => EACCES) none) ⟨(), 0⟩
        "/bin/prog".toList argv_prog [none]).trace = [("/bin/prog".toList, argv_prog, [none])] ∧
      dizi_execve (example_host [] 0 0 (fun _ => EACCES) none) ⟨(), 0⟩ "/bin/prog".toList
        argv_prog [none] =
        .ret [Event.dispatch "/bin/prog".toList argv_prog [none], Event.lookup 9 0 0,
          Event.legacy "/bin/prog".toList argv_prog [none], Event.returned (-1) EACCES]
          ⟨(), EACCES⟩ (-1)) :=
  ⟨rfl, by decide, Or.inr (Or.inl rfl),
    dizi_execve_not_found_runs_legacy (example_host [] 0 0 (fun _ => EACCES) none) ⟨(), 0⟩
      "/bin/prog".toList argv_prog [none] [Event.lookup 9 0 0] ⟨(), ENOENT⟩ (-1) rfl (by decide)
      (Or.inr (Or.inl rfl))⟩

/-- C3: when the registry part `__run_dios_file` fails with `errno` other than
`ENOENT` and `ENOSYS`, `dizi_execve` returns -1 with the state, `errno`
included, as the registry part left it, and its trace holds no legacy
`execve`. -/
theorem dizi_execve_other_failure_returned {σ : Type} (h : Host σ) (s : St σ) (path : CStr)
    (argv envp : Argv) (tr : List Event) (s1 : St σ) (v : Int)
    (hd : __run_dios_file h s path argv = .ret tr s1 v) (hv : v ≠ 0)
    (h1 : s1.errno ≠ ENOENT) (h2 : s1.errno ≠ ENOSYS) :
    dizi_execve h s path argv envp =
      .ret (Event.dispatch path argv envp :: tr ++ [Event.returned (-1) s1.errno]) s1 (-1) ∧
    legacy_calls (dizi_execve h s path argv envp).trace = [] := by
  have hleg := run_dios_file_no_legacy h s path argv tr s1 v hd
  simp [dizi_execve, hd, hv, h1, h2, Res.trace, legacy_calls_append, hleg, legacy_calls]

theorem dizi_execve_other_failure_returned_witness :
    __run_dios_file (example_host [9] (-1) EACCES (fun _ => ENOENT) none) ⟨(), 0⟩
        "/bin/prog".toList argv_prog =
      .ret [Event.lookup 9 0 1, Event.run 9 ⟨0, 0, argv_prog, 2⟩ (-1)] ⟨(), EACCES⟩ (-1) ∧
    (-1 : Int) ≠ 0 ∧ EACCES ≠ ENOENT ∧ EACCES ≠ ENOSYS ∧
    (dizi_execve (example_host [9] (-1) EACCES (fun _ => ENOENT) none) ⟨(), 0⟩
        "/bin/prog".toList argv_prog [none] =
      .ret [Event.dispatch "/bin/prog".toList argv_prog [none], Event.lookup 9 0 1,
        Event.run 9 ⟨0, 0, argv_prog, 2⟩ (-1), Event.returned (-1) EACCES] ⟨(), EACCES⟩ (-1) ∧
      legacy_calls (dizi_execve (example_host [9] (-1) EACCES (fun _ => ENOENT) none) ⟨(), 0⟩
        "/bin/prog".toList argv_prog [none]).trace = []) :=
  ⟨rfl, by decide, by decide, by decide,
    dizi_execve_other_failure_returned (example_host [9] (-1) EACCES (fun _ => ENOENT) none)
      ⟨(), 0⟩ "/bin/prog".toList argv_prog [none] _ ⟨(), EACCES⟩ (-1) rfl (by decide) (by decide)
      (by decide)⟩

/-- C4: for an argv whose counting loop (line 370) finds its sentinel, a path
longer than 4096 bytes makes `dizi_execve` return -1 with `EINVAL`, its trace
holding no lookup, no run and no legacy `execve`; for a path of at most 4096
bytes the first thing `dizi_execve` does is the lookup of the digest of the
bytes of the path. -/
theorem dizi_execve_path_length_check {σ : Type} (h : Host σ) (s : St σ) (path : CStr)
    (argv envp : Argv) (hc : count_args (argv.drop 1) 0 ≠ none) :
    (4096 < path.length →
      dizi_execve h s path argv envp =
        .ret [Event.dispatch path argv envp, Event.returned (-1) EINVAL]
          { s with errno := EINVAL } (-1)) ∧
    (path.length ≤ 4096 →
      ∃ rest, (dizi_execve h s path argv envp).trace =
        Event.dispatch path argv envp ::
          Event.lookup (h.sha256 path) (h.dios_lookup s.world s.errno (h.sha256 path)).ret
            (h.dios_lookup s.world s.errno (h.sha256 path)).rc :: rest) := by
  constructor
  · intro hlen
    have : EINVAL ≠ ENOENT ∧ EINVAL ≠ ENOSYS := by decide
    simp [dizi_execve, run_dios_file_long h s path argv hc hlen, this]
  · intro hlen
    obtain ⟨tr, s1, v, hd⟩ := run_dios_file_short h s path argv hc hlen
    simp only [dizi_execve, hd]
    split_ifs <;> (try split) <;> simp [Res.trace]

theorem dizi_execve_path_length_check_witness :
    count_args (argv_prog.drop 1) 0 ≠ none ∧
    4096 < (List.replicate 4097 'a').length ∧ (List.replicate 4096 'a').length ≤ 4096 ∧
    dizi_execve (example_host [9] 0 0 (fun _ => ENOENT) none) ⟨(), 0⟩ (List.replicate 4097 'a')
        argv_prog [none] =
      .ret [Event.dispatch (List.replicate 4097 'a') argv_prog [none],
        Event.returned (-1) EINVAL] ⟨(), EINVAL⟩ (-1) ∧
    (∃ rest, (dizi_execve (example_host [9] 0 0 (fun _ => ENOENT) none) ⟨(), 0⟩
        (List.replicate 4096 'a') argv_prog [none]).trace =
      Event.dispatch (List.replicate 4096 'a') argv_prog [none] ::
        Event.lookup 4096 0 0 :: rest) :=
  ⟨by decide, by rw [List.length_replicate]; decide, by rw [List.length_replicate],
    (dizi_execve_path_length_check (example_host [9] 0 0 (fun _ => ENOENT) none) ⟨(), 0⟩
      (List.replicate 4097 'a') argv_prog [none] (by decide)).1
      (by rw [List.length_replicate]; decide),
    by
      have h := (dizi_execve_path_length_check (example_host [9] 0 0 (fun _ => ENOENT) none)
        ⟨(), 0⟩ (List.replicate 4096 'a') argv_prog [none] (by decide)).2
        (by rw [List.length_replicate])
      simp only [example_host, List.length_replicate] at h
      exact h⟩

/-! ### The PATH loop of `dizi_execvp`: memory -/

theorem read_cstr_cells (s : CStr) (rest : List Cell) :
    read_cstr (s.map Cell.ch ++ Cell.nul :: rest) = some s := by
  induction s with
  | nil => rfl
  | cons c s ih => simp [read_cstr, ih]

theorem strchrnul_colon_nul (d : CStr) (rest : List Cell) (hd : ':' ∉ d) :
    strchrnul_colon (d.map Cell.ch ++ Cell.nul :: rest) = some d.length := by
  induction d with
  | nil => rfl
  | cons c d ih =>
    have hc : c ≠ ':' := fun hh => hd (by simp [hh])
    have hd2 : ':' ∉ d := fun hh => hd (List.mem_cons_of_mem _ hh)
    simp [strchrnul_colon, hc, ih hd2]

theorem strchrnul_colon_colon (d : CStr) (rest : List Cell) (hd : ':' ∉ d) :
    strchrnul_colon (d.map Cell.ch ++ Cell.ch ':' :: rest) = some d.length := by
  induction d with
  | nil => simp [strchrnul_colon]
  | cons c d ih =>
    have hc : c ≠ ':' := fun hh => hd (by simp [hh])
    have hd2 : ':' ∉ d := fun hh => hd (List.mem_cons_of_mem _ hh)
    simp [strchrnul_colon, hc, ih hd2]

theorem cstr_cells_join (d : CStr) (ds : List CStr) :
    cstr_cells (join_segs (d :: ds)) = d.map Cell.ch ++ after_seg ds := by
  cases ds with
  | nil => simp [join_segs, cstr_cells, after_seg]
  | cons d2 ds2 => simp [join_segs, cstr_cells, after_seg]

theorem strchrnul_colon_join (d : CStr) (ds : List CStr) (hd : ':' ∉ d) :
    strchrnul_colon (cstr_cells (join_segs (d :: ds))) = some d.length := by
  rw [cstr_cells_join]
  cases ds with
  | nil => exact strchrnul_colon_nul d [] hd
  | cons d2 ds2 => exact strchrnul_colon_colon d _ hd

theorem pathAt_cells {penv buf : List Cell} {name : Nat} {p : Loc} {rest : CStr}
    (hp : PathAt penv buf name p rest) : cells_at penv buf p = cstr_cells rest := by
  cases p with
  | env i => exact hp
  | buf i => exact hp.2

theorem drop_stored (buf cells : List Cell) (name k i : Nat) (hk : k ≤ name)
    (hn : name ≤ buf.length) (hc : cells.length = k) (hi : name ≤ i) :
    (buf.take (name - k) ++ cells ++ buf.drop name).drop i = buf.drop i := by
  have hl : (buf.take (name - k) ++ cells).length = name := by
    simp [List.length_take]; omega
  rw [List.drop_append_eq_append_drop, List.drop_eq_nil_of_le (by omega), hl, List.nil_append,
    List.drop_drop]
  congr 1
  omega

theorem pathAt_stored {penv buf : List Cell} {name : Nat} {p : Loc} {rest : CStr}
    (hp : PathAt penv buf name p rest) (cells : List Cell) (k : Nat) (hk : k ≤ name)
    (hn : name ≤ buf.length) (hc : cells.length = k) :
    PathAt penv (buf.take (name - k) ++ cells ++ buf.drop name) name p rest := by
  cases p with
  | env i => exact hp
  | buf i =>
    refine ⟨hp.1, ?_⟩
    rw [drop_stored buf cells name k i hk hn hc hp.1]
    exact hp.2

theorem bufOk_stored {buf : List Cell} {name : Nat} {file : CStr}
    (hb : BufOk buf name file) (cells : List Cell) (k : Nat) (hk : k ≤ name)
    (hc : cells.length = k) :
    BufOk (buf.take (name - k) ++ cells ++ buf.drop name) name file := by
  obtain ⟨hn, tailc, ht⟩ := hb
  refine ⟨?_, tailc, ?_⟩
  · simp [List.length_take]; omega
  · rw [drop_stored buf cells name k name hk hn hc (le_refl _)]
    exact ht

theorem store_seg (buf cells : List Cell) (name k : Nat) (hk : k ≤ name)
    (hn : name ≤ buf.length) (hc : cells.length = k) :
    store buf (name - k) cells = some (buf.take (name - k) ++ cells ++ buf.drop name) := by
  unfold store
  have h1 : name - k + cells.length ≤ buf.length := by omega
  have h2 : name - k + cells.length = name := by omega
  simp [h1, h2, hn]

theorem drop_append_cons {α : Type} (l1 : List α) (a : α) (l2 : List α) :
    (l1 ++ a :: l2).drop (l1.length + 1) = l2 := by
  induction l1 with
  | nil => rfl
  | cons x xs ih => simp [ih]

theorem pathAt_add {penv buf : List Cell} {name : Nat} {p : Loc} (d : CStr) (ds : List CStr)
    (d2 : CStr) (hp : PathAt penv buf name p (join_segs (d :: d2 :: ds))) :
    PathAt penv buf name (p.add (d.length + 1)) (join_segs (d2 :: ds)) := by
  have key : ∀ l : List Cell, l = cstr_cells (join_segs (d :: d2 :: ds)) →
      l.drop (d.length + 1) = cstr_cells (join_segs (d2 :: ds)) := by
    intro l hl
    rw [hl, cstr_cells_join]
    have := drop_append_cons (d.map Cell.ch) (Cell.ch ':') (cstr_cells (join_segs (d2 :: ds)))
    simpa [after_seg] using this
  cases p with
  | env i =>
    show List.drop (i + (d.length + 1)) penv = _
    rw [← List.drop_drop]
    exact key _ hp
  | buf i =>
    refine ⟨Nat.le_trans hp.1 (Nat.le_add_right _ _), ?_⟩
    show List.drop (i + (d.length + 1)) buf = _
    rw [← List.drop_drop]
    exact key _ hp.2


theorem classify_next_buf {σ : Type} (st : Search σ) (tr : List Event) (st1 : Search σ)
    (hs : search_classify st = .next tr st1) : st1.buf = st.buf := by
  unfold search_classify at hs
  dsimp only at hs
  split_ifs at hs <;> cases hs <;> rfl

theorem step_after_next {σ : Type} (pre : List Event) (x : Step σ) (tr : List Event)
    (st1 : Search σ) (hs : Step.after pre x = .next tr st1) :
    ∃ tr0, x = .next tr0 st1 ∧ tr = pre ++ tr0 := by
  cases x <;> simp [Step.after] at hs
  obtain ⟨h1, h2⟩ := hs
  subst h1 h2
  exact ⟨_, rfl, rfl⟩

theorem run_script_next_buf {σ : Type} (h : Host σ) (envp : Argv) (st : Search σ)
    (sa : List Slot) (tr : List Event) (st1 : Search σ)
    (hs : search_run_script h envp st sa = .next tr st1) : st1.buf = st.buf := by
  unfold search_run_script at hs
  split at hs
  · split at hs
    · cases hs
    · split at hs
      · obtain ⟨tr0, h0, -⟩ := step_after_next _ _ _ _ hs
        have hh := classify_next_buf _ _ _ h0; exact hh
      · cases hs
  · cases hs

theorem script_next_buf {σ : Type} (h : Host σ) (argv envp : Argv) (alloclen : Nat)
    (st : Search σ) (startp : Nat) (tr : List Event) (st1 : Search σ)
    (hs : search_script h argv envp alloclen st startp = .next tr st1) : st1.buf = st.buf := by
  unfold search_script at hs
  split at hs
  · have hh := run_script_next_buf _ _ _ _ _ _ hs; exact hh
  · split at hs
    · cases hs
    · split at hs
      · cases hs
      · dsimp only at hs
        split_ifs at hs
        · split at hs
          · cases hs
          · have hh := run_script_next_buf _ _ _ _ _ _ hs; exact hh
        · split at hs
          · cases hs
          · obtain ⟨tr0, h0, -⟩ := step_after_next _ _ _ _ hs
            have hh := run_script_next_buf _ _ _ _ _ _ h0; exact hh

theorem attempt_next_buf {σ : Type} (h : Host σ) (argv envp : Argv) (alloclen : Nat)
    (st : Search σ) (startp : Nat) (cand : CStr) (tr : List Event) (st1 : Search σ)
    (hs : search_attempt h argv envp alloclen st startp cand = .next tr st1) :
    st1.buf = st.buf := by
  unfold search_attempt at hs
  split at hs
  · split_ifs at hs
    · obtain ⟨tr0, h0, -⟩ := step_after_next _ _ _ _ hs
      have hh := script_next_buf _ _ _ _ _ _ _ _ h0; exact hh
    · obtain ⟨tr0, h0, -⟩ := step_after_next _ _ _ _ hs
      have hh := classify_next_buf _ _ _ h0; exact hh
  · cases hs


theorem cells_at_add (penv buf : List Cell) (p : Loc) (k : Nat) :
    cells_at penv buf (p.add k) = (cells_at penv buf p).drop k := by
  cases p <;> simp [cells_at, Loc.add, List.drop_drop, Nat.add_comm]

theorem length_join_cons (d : CStr) (ds : List CStr) :
    d.length ≤ (join_segs (d :: ds)).length ∧
      (join_segs ds).length ≤ (join_segs (d :: ds)).length := by
  cases ds with
  | nil => simp [join_segs]
  | cons d2 ds2 => simp only [join_segs, List.length_append, List.length_cons]; omega

theorem search_startp_eq {penv buf : List Cell} {name : Nat} {p : Loc} {file : CStr}
    (d : CStr) (ds : List CStr) (hp : PathAt penv buf name p (join_segs (d :: ds)))
    (hb : BufOk buf name file) (hd : ':' ∉ d) (hk : d.length ≤ name) :
    search_startp penv buf name p =
      some (d.length, (if d = [] then name + 1 else name - d.length),
        (if d = [] then buf
         else buf.take (name - d.length) ++ d.map Cell.ch ++ buf.drop name)) := by
  unfold search_startp
  rw [pathAt_cells hp, strchrnul_colon_join d ds hd]
  dsimp only
  by_cases h0 : d = []
  · simp [h0]
  · have hl : d.length ≠ 0 := fun hh => h0 (List.length_eq_zero.1 hh)
    have ht : (cstr_cells (join_segs (d :: ds))).take d.length = d.map Cell.ch := by
      rw [cstr_cells_join]
      simp
    simp only [hl, if_false, hk, if_true, ht, h0]
    rw [store_seg buf (d.map Cell.ch) name d.length hk hb.1 (by simp)]

theorem read_candidate {buf : List Cell} {name : Nat} {file : CStr} (d : CStr)
    (hb : BufOk buf name file) :
    read_cstr ((if d = [] then buf
        else buf.take (name - d.length) ++ d.map Cell.ch ++ buf.drop name).drop
        (if d = [] then name + 1 else name - d.length)) = some (candidate_of file d) := by
  obtain ⟨hn, tailc, ht⟩ := hb
  by_cases h0 : d = []
  · simp only [h0, if_true, candidate_of]
    have : buf.drop (name + 1) = cstr_cells file ++ tailc := by
      have h1 : buf.drop (name + 1) = (buf.drop name).drop 1 := by
        rw [List.drop_drop, Nat.add_comm]
      rw [h1, ht]
      rfl
    rw [this]
    unfold cstr_cells
    rw [List.append_assoc]
    exact read_cstr_cells file _
  · simp only [h0, if_false, candidate_of]
    have hl : (buf.take (name - d.length)).length = name - d.length := by
      simp [List.length_take]; omega
    have : (buf.take (name - d.length) ++ d.map Cell.ch ++ buf.drop name).drop
        (name - d.length) = (d ++ '/' :: file).map Cell.ch ++ Cell.nul :: tailc := by
      rw [List.append_assoc, List.drop_append_eq_append_drop, List.drop_eq_nil_of_le (by omega),
        hl, Nat.sub_self, ht]
      simp [cstr_cells]
    rw [this]
    exact read_cstr_cells _ _


theorem search_loop_eq_search_over {σ : Type} (h : Host σ) (argv envp : Argv)
    (alloclen name : Nat) (penv : List Cell) (file : CStr) (path_malloc : Bool) :
    ∀ (ds : List CStr) (d : CStr) (fuel : Nat) (st : Search σ) (p : Loc),
      (∀ x ∈ d :: ds, ':' ∉ x) → (join_segs (d :: ds)).length ≤ name →
      (d :: ds).length ≤ fuel → BufOk st.buf name file →
      PathAt penv st.buf name p (join_segs (d :: ds)) →
      search_loop h argv envp alloclen name penv path_malloc fuel st p =
        search_over h argv envp alloclen name file path_malloc (d :: ds) st := by
  intro ds
  induction ds with
  | nil =>
    intro d fuel st p hcol hlen hfuel hb hp
    obtain ⟨f, rfl⟩ : ∃ f, fuel = f + 1 := ⟨fuel - 1, by simp at hfuel; omega⟩
    have hk : d.length ≤ name := Nat.le_trans (length_join_cons d []).1 hlen
    have hd : ':' ∉ d := hcol d (List.mem_cons_self _ _)
    unfold search_loop search_over
    rw [search_startp_eq d [] hp hb hd hk]
    dsimp only
    rw [read_candidate d hb]
    dsimp only
    cases hatt : search_attempt h argv envp alloclen
      { st with buf := if d = [] then st.buf
          else st.buf.take (name - d.length) ++ d.map Cell.ch ++ st.buf.drop name }
      (if d = [] then name + 1 else name - d.length) (candidate_of file d) with
    | done r => rfl
    | brk tr st1 => rfl
    | next tr st1 =>
      dsimp only
      have hbuf := attempt_next_buf _ _ _ _ _ _ _ _ _ hatt
      dsimp only at hbuf
      have hp1 : PathAt penv st1.buf name p (join_segs [d]) := by
        rw [hbuf]
        by_cases h0 : d = []
        · simpa [h0] using hp
        · simp only [h0, if_false]
          exact pathAt_stored hp _ d.length hk hb.1 (by simp)
      rw [cells_at_add, pathAt_cells hp1, cstr_cells_join]
      simp [after_seg, search_over]
  | cons d2 ds2 ih =>
    intro d fuel st p hcol hlen hfuel hb hp
    obtain ⟨f, rfl⟩ : ∃ f, fuel = f + 1 := ⟨fuel - 1, by simp at hfuel; omega⟩
    have hk : d.length ≤ name := Nat.le_trans (length_join_cons d (d2 :: ds2)).1 hlen
    have hd : ':' ∉ d := hcol d (List.mem_cons_self _ _)
    unfold search_loop
    rw [search_over]
    rw [search_startp_eq d (d2 :: ds2) hp hb hd hk]
    dsimp only
    rw [read_candidate d hb]
    dsimp only
    cases hatt : search_attempt h argv envp alloclen
      { st with buf := if d = [] then st.buf
          else st.buf.take (name - d.length) ++ d.map Cell.ch ++ st.buf.drop name }
      (if d = [] then name + 1 else name - d.length) (candidate_of file d) with
    | done r => rfl
    | brk tr st1 => rfl
    | next tr st1 =>
      dsimp only
      have hbuf := attempt_next_buf _ _ _ _ _ _ _ _ _ hatt
      dsimp only at hbuf
      have hp1 : PathAt penv st1.buf name p (join_segs (d :: d2 :: ds2)) := by
        rw [hbuf]
        by_cases h0 : d = []
        · simpa [h0] using hp
        · simp only [h0, if_false]
          exact pathAt_stored hp _ d.length hk hb.1 (by simp)
      have hb1 : BufOk st1.buf name file := by
        rw [hbuf]
        by_cases h0 : d = []
        · simpa [h0] using hb
        · simp only [h0, if_false]
          exact bufOk_stored hb _ d.length hk (by simp)
      rw [cells_at_add, pathAt_cells hp1, cstr_cells_join]
      have hdrop : (d.map Cell.ch ++ after_seg (d2 :: ds2)).drop d.length =
          after_seg (d2 :: ds2) := by
        simp
      rw [hdrop]
      simp only [after_seg, List.head?_cons]
      rw [ih d2 f st1 (p.add (d.length + 1))
        (fun x hx => hcol x (List.mem_cons_of_mem _ hx))
        (Nat.le_trans (length_join_cons d (d2 :: ds2)).2 hlen)
        (by simp at hfuel ⊢; omega) hb1 (pathAt_add d ds2 d2 hp1)]

theorem store_mid (a x b y : List Cell) (hxy : x.length = y.length) :
    store (a ++ (x ++ b)) a.length y = some (a ++ (y ++ b)) := by
  unfold store
  have h1 : a.length + y.length ≤ (a ++ (x ++ b)).length := by simp; omega
  rw [if_pos h1]
  congr 1
  rw [List.take_left, List.append_assoc, List.drop_append_eq_append_drop,
    List.drop_eq_nil_of_le (by omega)]
  have : a.length + y.length - a.length = x.length := by omega
  rw [this, List.drop_left]
  rfl

theorem segments_length_le (s : CStr) : (segments s).length ≤ s.length + 1 := by
  induction s with
  | nil => simp [segments]
  | cons c rest ih =>
    unfold segments
    split_ifs
    · simp; omega
    · split <;> simp_all
      omega

/-! ### The PATH loop of `dizi_execvp`: set-up and the segments of the path -/

theorem segments_ne_nil (s : CStr) : segments s ≠ [] := by
  induction s with
  | nil => simp [segments]
  | cons c rest ih =>
    unfold segments
    split_ifs
    · simp
    · split <;> simp

theorem join_segments (s : CStr) : join_segs (segments s) = s := by
  induction s with
  | nil => rfl
  | cons c rest ih =>
    unfold segments
    split_ifs with hc
    · subst hc
      have := segments_ne_nil rest
      cases hs : segments rest with
      | nil => exact absurd hs this
      | cons d ds => rw [hs] at ih; simp [join_segs, ih]
    · cases hs : segments rest with
      | nil => exact absurd hs (segments_ne_nil rest)
      | cons d ds =>
        rw [hs] at ih
        cases ds with
        | nil => simpa [join_segs] using ih
        | cons d2 ds2 => simp only [join_segs] at ih ⊢; simp [ih]

theorem segments_no_colon (s : CStr) : ∀ d ∈ segments s, ':' ∉ d := by
  induction s with
  | nil => simp [segments]
  | cons c rest ih =>
    unfold segments
    split_ifs with hc
    · intro d hd
      rcases List.mem_cons.1 hd with h | h
      · simp [h]
      · exact ih d h
    · cases hs : segments rest with
      | nil => simp [Ne.symm hc]
      | cons d ds =>
        rw [hs] at ih
        intro d2 hd2
        rcases List.mem_cons.1 hd2 with h | h
        · subst h
          have := ih d (List.mem_cons_self _ _)
          simp [this, Ne.symm hc]
        · exact ih d2 (List.mem_cons_of_mem _ h)


theorem replicate_split (a b : Nat) :
    List.replicate (a + b) Cell.uninit =
      List.replicate a Cell.uninit ++ List.replicate b Cell.uninit :=
  List.replicate_add a b _

/-- Lines 204-217 succeed: they leave the buffer `init_buf`, and `p` at the
start of the search path. -/
theorem path_setup_eq {σ : Type} (h : Host σ) (file : CStr) :
    ∃ p, path_setup h file = some (p, init_buf h file) ∧
      PathAt (env_cells h) (init_buf h file) (pathlen_of h) p (search_path h) := by
  have hfile : ∀ t : List Cell,
      (match store (List.replicate (pathlen_of h) Cell.uninit ++
          (List.replicate (1 + (file.length + 1)) Cell.uninit ++ t))
          (pathlen_of h + 1) (cstr_cells file) with
        | none => none
        | some buf2 =>
          match store buf2 (pathlen_of h) [Cell.ch '/'] with
          | none => none
          | some buf3 => some buf3) =
        some (List.replicate (pathlen_of h) Cell.uninit ++
          (Cell.ch '/' :: (cstr_cells file ++ t))) := by
    intro t
    have h1 := store_mid (List.replicate (pathlen_of h) Cell.uninit ++ [Cell.uninit])
      (List.replicate (file.length + 1) Cell.uninit) t (cstr_cells file) (by simp [cstr_cells])
    have e1 : List.replicate (pathlen_of h) Cell.uninit ++
        (List.replicate (1 + (file.length + 1)) Cell.uninit ++ t) =
        (List.replicate (pathlen_of h) Cell.uninit ++ [Cell.uninit]) ++
          (List.replicate (file.length + 1) Cell.uninit ++ t) := by
      rw [replicate_split]
      simp
    have l1 : (List.replicate (pathlen_of h) Cell.uninit ++ [Cell.uninit]).length =
        pathlen_of h + 1 := by simp
    rw [l1] at h1
    rw [e1, h1]
    dsimp only
    have h2 := store_mid (List.replicate (pathlen_of h) Cell.uninit) [Cell.uninit]
      (cstr_cells file ++ t) [Cell.ch '/'] rfl
    simp only [List.length_replicate] at h2
    have e2 : (List.replicate (pathlen_of h) Cell.uninit ++ [Cell.uninit]) ++
        (cstr_cells file ++ t) = List.replicate (pathlen_of h) Cell.uninit ++
          ([Cell.uninit] ++ (cstr_cells file ++ t)) := by simp
    rw [e2, h2]
    rfl
  unfold path_setup
  dsimp only
  cases hg : h.getenv_PATH with
  | some path =>
    refine ⟨Loc.env 0, ?_, ?_⟩
    · dsimp only
      have e0 : alloclen_of h file = pathlen_of h + (1 + (file.length + 1)) := by
        simp only [alloclen_of, hg]; omega
      have := hfile []
      simp only [List.append_nil] at this
      rw [e0, replicate_split]
      simp only [init_buf, hg, List.append_nil]
      revert this
      cases store (List.replicate (pathlen_of h) Cell.uninit ++
          List.replicate (1 + (file.length + 1)) Cell.uninit)
          (pathlen_of h + 1) (cstr_cells file) with
      | none => simp
      | some buf2 =>
        dsimp only
        cases store buf2 (pathlen_of h) [Cell.ch '/'] with
        | none => simp
        | some buf3 => simp
    · simp [PathAt, search_path, env_cells, hg]
  | none =>
    refine ⟨Loc.buf (pathlen_of h + (file.length + 1) + 1), ?_, ?_⟩
    · have hp : pathlen_of h = h.cs_path.length + 1 := by simp [pathlen_of, hg]
      have hy : (Cell.ch ':' :: confstr_cells h.cs_path (pathlen_of h)) =
          cstr_cells (':' :: h.cs_path) := by
        simp [confstr_cells, hp, cstr_cells]
      have hyl : (cstr_cells (':' :: h.cs_path)).length = pathlen_of h + 1 := by
        simp [cstr_cells, hp]
      have e0 : alloclen_of h file =
          (pathlen_of h + (file.length + 1) + 1) + (pathlen_of h + 1) := by
        simp only [alloclen_of, hg]; omega
      have h1 := store_mid (List.replicate (pathlen_of h + (file.length + 1) + 1) Cell.uninit)
        (List.replicate (pathlen_of h + 1) Cell.uninit) [] (cstr_cells (':' :: h.cs_path))
        (by rw [hyl]; simp)
      simp only [List.length_replicate, List.append_nil] at h1
      rw [hy, e0, replicate_split, h1]
      have e1 : List.replicate (pathlen_of h + (file.length + 1) + 1) Cell.uninit ++
          cstr_cells (':' :: h.cs_path) = List.replicate (pathlen_of h) Cell.uninit ++
          (List.replicate (1 + (file.length + 1)) Cell.uninit ++
            cstr_cells (':' :: h.cs_path)) := by
        have : pathlen_of h + (file.length + 1) + 1 = pathlen_of h + (1 + (file.length + 1)) := by
          omega
        rw [this, replicate_split, List.append_assoc]
      have := hfile (cstr_cells (':' :: h.cs_path))
      simp only [Option.map_some', e1, init_buf, hg]
      revert this
      cases store (List.replicate (pathlen_of h) Cell.uninit ++
          (List.replicate (1 + (file.length + 1)) Cell.uninit ++ cstr_cells (':' :: h.cs_path)))
          (pathlen_of h + 1) (cstr_cells file) with
      | none => simp
      | some buf2 =>
        dsimp only
        cases store buf2 (pathlen_of h) [Cell.ch '/'] with
        | none => simp
        | some buf3 => simp
    · refine ⟨by omega, ?_⟩
      have e2 : (init_buf h file).drop (pathlen_of h + (file.length + 1) + 1) =
          ((init_buf h file).drop (pathlen_of h)).drop ((file.length + 1) + 1) := by
        rw [List.drop_drop, Nat.add_assoc]
      have e3 : (init_buf h file).drop (pathlen_of h) =
          (Cell.ch '/' :: cstr_cells file) ++ cstr_cells (':' :: h.cs_path) := by
        unfold init_buf
        rw [hg]
        have := List.drop_left (List.replicate (pathlen_of h) Cell.uninit)
          (Cell.ch '/' :: (cstr_cells file ++ cstr_cells (':' :: h.cs_path)))
        simp only [List.length_replicate] at this
        rw [this]
        rfl
      have hl : (Cell.ch '/' :: cstr_cells file).length = file.length + 1 + 1 := by
        simp [cstr_cells]
      rw [e2, e3, ← hl, List.drop_left]
      simp [search_path, hg]


theorem res_after_nil {σ : Type} (r : Res σ) : Res.after [] r = r := by
  cases r <;> rfl

theorem res_after_after {σ : Type} (a b : List Event) (r : Res σ) :
    Res.after a (Res.after b r) = Res.after (a ++ b) r := by
  cases r <;> simp [Res.after]

theorem res_trace_after {σ : Type} (a : List Event) (r : Res σ) :
    (Res.after a r).trace = a ++ r.trace := by
  cases r <;> rfl

theorem bufOk_init {σ : Type} (h : Host σ) (file : CStr) :
    BufOk (init_buf h file) (pathlen_of h) file := by
  refine ⟨by simp [init_buf], (match h.getenv_PATH with
      | none => cstr_cells (':' :: h.cs_path)
      | some _ => []), ?_⟩
  unfold init_buf
  have := List.drop_left (List.replicate (pathlen_of h) Cell.uninit)
    (Cell.ch '/' :: (cstr_cells file ++ (match h.getenv_PATH with
      | none => cstr_cells (':' :: h.cs_path)
      | some _ => [])))
  simp only [List.length_replicate] at this
  exact this

theorem search_path_length {σ : Type} (h : Host σ) : (search_path h).length = pathlen_of h := by
  unfold search_path pathlen_of
  cases h.getenv_PATH <;> simp

/-- The loop started by `path_search` is the recursion over the segments of
the search path: the fuel is enough and no access leaves the memory. -/
theorem search_loop_init {σ : Type} (h : Host σ) (argv envp : Argv) (file : CStr)
    (path_malloc : Bool) (s : St σ) (p : Loc)
    (hp : PathAt (env_cells h) (init_buf h file) (pathlen_of h) p (search_path h)) :
    search_loop h argv envp (alloclen_of h file) (pathlen_of h) (env_cells h) path_malloc
        ((cells_at (env_cells h) (init_buf h file) p).length + 1) (init_search h s file) p =
      search_over h argv envp (alloclen_of h file) (pathlen_of h) file path_malloc
        (segments (search_path h)) (init_search h s file) := by
  have hj := join_segments (search_path h)
  have hc := segments_no_colon (search_path h)
  have hl := segments_length_le (search_path h)
  cases hs : segments (search_path h) with
  | nil => exact absurd hs (segments_ne_nil _)
  | cons d ds =>
    rw [hs] at hj hc hl
    apply search_loop_eq_search_over h argv envp _ _ _ file path_malloc ds d
    · exact hc
    · rw [hj, search_path_length]
    · rw [pathAt_cells hp]
      simp only [cstr_cells, List.length_append, List.length_map, List.length_singleton]
      omega
    · exact bufOk_init h file
    · rw [hj]
      exact hp

theorem path_search_eq {σ : Type} (h : Host σ) (s : St σ) (file : CStr) (argv envp : Argv) :
    path_search h s file argv envp =
      if __libc_use_alloca (alloclen_of h file) then
        search_over h argv envp (alloclen_of h file) (pathlen_of h) file false
          (segments (search_path h)) (init_search h s file)
      else if (h.malloc s.world (alloclen_of h file)).2 then
        Res.after [Event.malloc .path_malloc (alloclen_of h file) true]
          (search_over h argv envp (alloclen_of h file) (pathlen_of h) file true
            (segments (search_path h))
            (init_search h { s with world := (h.malloc s.world (alloclen_of h file)).1 } file))
      else
        .ret [Event.malloc .path_malloc (alloclen_of h file) false]
          { world := (h.malloc s.world (alloclen_of h file)).1, errno := ENOMEM } (-1) := by
  obtain ⟨p, hset, hp⟩ := path_setup_eq h file
  unfold path_search
  dsimp only
  rw [hset]
  dsimp only
  cases ha : __libc_use_alloca (alloclen_of h file)
  · simp only [Bool.false_eq_true, if_false, Bool.not_false, if_true]
    cases hm : (h.malloc s.world (alloclen_of h file)).2
    · simp
    · simp only [if_true]
      congr 1
      exact search_loop_init h argv envp file true _ p hp
  · simp only [if_true, Bool.not_true, Bool.false_eq_true, if_false]
    rw [res_after_nil]
    exact search_loop_init h argv envp file false s p hp

/-! ### The PATH loop of `dizi_execvp`: the events of one pass -/

theorem filterMap_inner {β : Type} (f : Event → Option β)
    (hf : ∀ ev, ev.inner = true → f ev = none) (mid : List Event)
    (hmid : ∀ ev ∈ mid, ev.inner = true) : mid.filterMap f = [] := by
  induction mid with
  | nil => rfl
  | cons x xs ih =>
    rw [List.filterMap_cons, hf x (hmid x (List.mem_cons_self _ _))]
    exact ih (fun ev hev => hmid ev (List.mem_cons_of_mem _ hev))

theorem tried_errs_inner (mid : List Event) (hmid : ∀ ev ∈ mid, ev.inner = true) :
    tried_errs mid = [] :=
  filterMap_inner _ (by intro ev; cases ev <;> simp [Event.inner]) mid hmid

theorem returned_errs_inner (mid : List Event) (hmid : ∀ ev ∈ mid, ev.inner = true) :
    returned_errs mid = [] :=
  filterMap_inner _ (by intro ev; cases ev <;> simp [Event.inner]) mid hmid

theorem dispatch_calls_inner (mid : List Event) (hmid : ∀ ev ∈ mid, ev.inner = true) :
    dispatch_calls mid = [] :=
  filterMap_inner _ (by intro ev; cases ev <;> simp [Event.inner]) mid hmid

theorem candidates_inner (mid : List Event) (hmid : ∀ ev ∈ mid, ev.inner = true) :
    candidates mid = [] :=
  filterMap_inner _ (by intro ev; cases ev <;> simp [Event.inner]) mid hmid

theorem script_fails_inner (mid : List Event) (hmid : ∀ ev ∈ mid, ev.inner = true) :
    script_fails mid = [] :=
  filterMap_inner _ (by intro ev; cases ev <;> simp [Event.inner]) mid hmid

theorem run_dios_file_inner {σ : Type} (h : Host σ) (s : St σ) (f : CStr) (argv : Argv) :
    __run_dios_file h s f argv = .fault [] ∨
    ∃ tr s1 v, __run_dios_file h s f argv = .ret tr s1 v ∧ ∀ ev ∈ tr, ev.inner = true := by
  unfold __run_dios_file
  dsimp only
  split
  · exact Or.inl rfl
  · right
    split_ifs <;> refine ⟨_, _, _, rfl, ?_⟩ <;> simp [Event.inner]

/-- The trace of a call of `dizi_execve`: the entry, events inside the call,
and, when the call returns, the return with the `errno` it leaves. -/
theorem dizi_execve_cases {σ : Type} (h : Host σ) (s : St σ) (p : CStr) (a e : Argv) :
    ∃ mid, (∀ ev ∈ mid, ev.inner = true) ∧
      ((∃ s1 v, dizi_execve h s p a e =
          .ret (Event.dispatch p a e :: (mid ++ [Event.returned v s1.errno])) s1 v) ∨
       (∃ s1 c, dizi_execve h s p a e = .exited (Event.dispatch p a e :: mid) s1 c) ∨
       (∃ s1, dizi_execve h s p a e = .replaced (Event.dispatch p a e :: mid) s1) ∨
       dizi_execve h s p a e = .fault (Event.dispatch p a e :: mid)) := by
  rcases run_dios_file_inner h s p a with hf | ⟨tr, s1, v, hd, hin⟩
  · exact ⟨[], by simp, Or.inr (Or.inr (Or.inr (by simp [dizi_execve, hf, Res.after])))⟩
  · simp only [dizi_execve, hd]
    split_ifs
    · refine ⟨tr ++ [Event.exit 0], ?_, Or.inr (Or.inl ⟨s1, 0, by simp⟩)⟩
      intro ev hev
      rcases List.mem_append.1 hev with h1 | h1
      · exact hin ev h1
      · simp at h1; simp [h1, Event.inner]
    · cases h.execve s1.world s1.errno p a e with
      | replaced w =>
        refine ⟨tr ++ [Event.legacy p a e], ?_, Or.inr (Or.inr (Or.inl ⟨⟨w, s1.errno⟩, by simp⟩))⟩
        intro ev hev
        rcases List.mem_append.1 hev with h1 | h1
        · exact hin ev h1
        · simp at h1; simp [h1, Event.inner]
      | returned w e1 v1 =>
        refine ⟨tr ++ [Event.legacy p a e], ?_, Or.inl ⟨⟨w, e1⟩, v1, by simp⟩⟩
        intro ev hev
        rcases List.mem_append.1 hev with h1 | h1
        · exact hin ev h1
        · simp at h1; simp [h1, Event.inner]
    · exact ⟨tr, hin, Or.inl ⟨s1, -1, by simp⟩⟩


theorem step_after_after {σ : Type} (a b : List Event) (x : Step σ) :
    Step.after a (Step.after b x) = Step.after (a ++ b) x := by
  cases x <;> simp [Step.after, res_after_after]

@[simp]
theorem tried_errs_nil : tried_errs [] = [] := rfl

@[simp]
theorem tried_errs_cons (ev : Event) (tr : List Event) :
    tried_errs (ev :: tr) = (match ev with
      | .tried e => [e]
      | _ => []) ++ tried_errs tr := by
  cases ev <;> try rfl

@[simp]
theorem tried_errs_append (a b : List Event) : tried_errs (a ++ b) = tried_errs a ++ tried_errs b := by
  simp [tried_errs]

@[simp]
theorem returned_errs_nil : returned_errs [] = [] := rfl

@[simp]
theorem returned_errs_cons (ev : Event) (tr : List Event) :
    returned_errs (ev :: tr) = (match ev with
      | .returned _ e => [e]
      | _ => []) ++ returned_errs tr := by
  cases ev <;> try rfl

@[simp]
theorem returned_errs_append (a b : List Event) : returned_errs (a ++ b) = returned_errs a ++ returned_errs b := by
  simp [returned_errs]

@[simp]
theorem dispatch_calls_nil : dispatch_calls [] = [] := rfl

@[simp]
theorem dispatch_calls_cons (ev : Event) (tr : List Event) :
    dispatch_calls (ev :: tr) = (match ev with
      | .dispatch p a e => [(p, a, e)]
      | _ => []) ++ dispatch_calls tr := by
  cases ev <;> try rfl

@[simp]
theorem dispatch_calls_append (a b : List Event) : dispatch_calls (a ++ b) = dispatch_calls a ++ dispatch_calls b := by
  simp [dispatch_calls]

@[simp]
theorem candidates_nil : candidates [] = [] := rfl

@[simp]
theorem candidates_cons (ev : Event) (tr : List Event) :
    candidates (ev :: tr) = (match ev with
      | .candidate c => [c]
      | _ => []) ++ candidates tr := by
  cases ev <;> try rfl

@[simp]
theorem candidates_append (a b : List Event) : candidates (a ++ b) = candidates a ++ candidates b := by
  simp [candidates]

@[simp]
theorem script_fails_nil : script_fails [] = [] := rfl

@[simp]
theorem script_fails_cons (ev : Event) (tr : List Event) :
    script_fails (ev :: tr) = (match ev with
      | .malloc .script_argv_malloc n false => [n]
      | _ => []) ++ script_fails tr := by
  cases ev <;> try rfl
  rename_i b n ok
  cases b <;> cases ok <;> rfl

@[simp]
theorem script_fails_append (a b : List Event) : script_fails (a ++ b) = script_fails a ++ script_fails b := by
  simp [script_fails]

theorem classify_eq {σ : Type} (st : Search σ) :
    search_classify st =
      if is_skip st.s.errno then
        .next [Event.tried st.s.errno]
          { st with got_eacces := st.got_eacces || decide (st.s.errno = EACCES) }
      else .done (.ret [Event.tried st.s.errno] st.s (-1)) := by
  unfold search_classify is_skip
  dsimp only
  by_cases h1 : st.s.errno = EACCES
  · simp [h1]
  · by_cases h2 : st.s.errno = ENOENT ∨ st.s.errno = ESTALE ∨ st.s.errno = ENOTDIR ∨
        st.s.errno = ENODEV ∨ st.s.errno = ETIMEDOUT
    · simp [h1, h2]
    · simp [h1, h2]

theorem classify_spec {σ : Type} (st : Search σ) (pre : List Event) (cand : CStr)
    (argv envp : Argv) (hpre : pre_ok pre st.s.errno cand argv envp) :
    attempt_spec st.got_eacces cand argv envp (Step.after pre (search_classify st)) := by
  obtain ⟨h1, h2, h3, h4, ⟨pre0, v, h5⟩, h6⟩ := hpre
  have hmem : st.s.errno ∈ returned_errs pre := by
    rw [h5]
    simp
  rw [classify_eq]
  by_cases hs : is_skip st.s.errno
  · simp only [hs, if_true, Step.after, attempt_spec]
    refine ⟨by simp [h1], by simp [h2], ⟨st.s.errno, by simp [h3], hs, rfl, rfl⟩,
      by simp [h4], ?_⟩
    intro hall
    simp only [all_skipped, returned_errs_append, dispatch_calls_append, returned_errs_cons,
      dispatch_calls_cons, returned_errs_nil, dispatch_calls_nil, List.append_nil] at hall ⊢
    exact h6 hall.2
  · simp only [hs, if_false, Step.after, Res.after, attempt_spec]
    refine ⟨by simp [h1], by simp [h2], trivial, ⟨pre, st.s.errno, rfl, h3, hs, rfl⟩,
      by simp [h4], ?_⟩
    intro hall
    apply hs
    apply hall.2
    simpa using hmem


theorem attempt_spec_fault {σ : Type} (g : Bool) (cand : CStr) (argv envp : Argv)
    (pre : List Event) (hpre : pre_mid pre) :
    attempt_spec g cand argv envp (Step.done (Res.fault pre : Res σ)) := by
  obtain ⟨h1, h2, h3, h4, x, hx, hns⟩ := hpre
  exact ⟨h1, h2, h3, Nat.le_of_eq h4, fun hall => hns (hall.2 x hx)⟩

theorem pre_ok_mid {pre : List Event} {e : Int} {cand : CStr} {argv envp : Argv}
    (hpre : pre_ok pre e cand argv envp) (he : ¬ is_skip e) : pre_mid pre := by
  obtain ⟨h1, h2, h3, h4, ⟨pre0, v, h5⟩, -⟩ := hpre
  refine ⟨h1, h2, h3, h4, e, ?_, he⟩
  rw [h5]
  simp

theorem run_script_spec {σ : Type} (h : Host σ) (envp0 : Argv) (st : Search σ)
    (sa : List Slot) (pre : List Event) (cand : CStr) (argv envp : Argv) (hpre : pre_mid pre) :
    attempt_spec st.got_eacces cand argv envp
      (Step.after pre (search_run_script h envp0 st sa)) := by
  have hpre2 := hpre
  obtain ⟨h1, h2, h3, h4, x, hx, hns⟩ := hpre2
  unfold search_run_script
  split
  · split
    · simpa [Step.after, Res.after] using attempt_spec_fault _ cand argv envp pre hpre
    · rename_i p sh hsh
      obtain ⟨mid, hmid, hc⟩ := dizi_execve_cases h st.s sh (load_argv st.buf sa) envp0
      have m1 := candidates_inner mid hmid
      have m2 := script_fails_inner mid hmid
      have m3 := tried_errs_inner mid hmid
      have m4 := returned_errs_inner mid hmid
      have m5 := dispatch_calls_inner mid hmid
      rcases hc with ⟨s1, v, hr⟩ | ⟨s1, c, hr⟩ | ⟨s1, hr⟩ | hr
      · rw [hr]
        dsimp only
        rw [step_after_after]
        have := classify_spec { st with s := s1 } (pre ++ Event.dispatch sh
          (load_argv st.buf sa) envp0 :: (mid ++ [Event.returned v s1.errno])) cand argv envp
          ⟨by simp [*], by simp [*], by simp [*], by simp [*],
            ⟨pre ++ Event.dispatch sh (load_argv st.buf sa) envp0 :: mid, v, by simp⟩,
            fun hall => absurd (hall x (by simp [hx])) hns⟩
        exact this
      · rw [hr]
        simp only [Step.after, Res.after, attempt_spec, Res.trace]
        exact ⟨by simp [*], by simp [*], by simp [*], by simp [*],
          fun hall => hns (hall.2 x (by simp [hx]))⟩
      · rw [hr]
        simp only [Step.after, Res.after, attempt_spec, Res.trace]
        exact ⟨by simp [*], by simp [*], by simp [*], by simp [*],
          fun hall => hns (hall.2 x (by simp [hx]))⟩
      · rw [hr]
        simp only [Step.after, Res.after, attempt_spec, Res.trace]
        exact ⟨by simp [*], by simp [*], by simp [*], by simp [*],
          fun hall => hns (hall.2 x (by simp [hx]))⟩
  · simpa [Step.after, Res.after] using attempt_spec_fault _ cand argv envp pre hpre


theorem pre_mid_malloc {pre : List Event} (hpre : pre_mid pre) (b : HeapBuf) (n : Nat) :
    pre_mid (pre ++ [Event.malloc b n true]) := by
  obtain ⟨h1, h2, h3, h4, x, hx, hns⟩ := hpre
  refine ⟨by simp [h1], ?_, by simp [h3], by simp [h4], x, by simp [hx], hns⟩
  cases b <;> simp [h2]

theorem enoexec_not_skip : ¬ is_skip ENOEXEC := by decide

theorem script_spec {σ : Type} (h : Host σ) (argv0 envp0 : Argv) (alloclen : Nat)
    (st : Search σ) (startp : Nat) (pre : List Event) (cand : CStr) (argv envp : Argv)
    (hpre : pre_ok pre ENOEXEC cand argv envp) :
    attempt_spec st.got_eacces cand argv envp
      (Step.after pre (search_script h argv0 envp0 alloclen st startp)) := by
  have hmid := pre_ok_mid hpre enoexec_not_skip
  unfold search_script
  split
  · exact run_script_spec h envp0 st _ pre cand argv envp hmid
  · split
    · simpa [Step.after, Res.after] using attempt_spec_fault _ cand argv envp pre hmid
    · split
      · simpa [Step.after, Res.after] using attempt_spec_fault _ cand argv envp pre hmid
      · rename_i argc hc arglen hlen
        dsimp only
        split_ifs
        · split
          · simpa [Step.after, Res.after] using attempt_spec_fault _ cand argv envp pre hmid
          · rename_i sa hsa
            exact run_script_spec h envp0 { st with script_argv := some sa } sa pre cand argv
              envp hmid
        · split
          · simpa [Step.after, Res.after] using
              attempt_spec_fault st.got_eacces cand argv envp _
                (pre_mid_malloc hmid .script_argv_malloc _)
          · rename_i sa hsa
            rw [step_after_after]
            exact run_script_spec h envp0 _ sa _ cand argv envp
              (pre_mid_malloc hmid .script_argv_malloc _)
        · obtain ⟨h1, h2, h3, h4, ⟨pre0, v, h5⟩, -⟩ := hpre
          simp only [Step.after, attempt_spec]
          refine ⟨by simp [h1], by simp [h3], trivial, trivial,
            ⟨pre0, v, arglen, ?_, ?_⟩, by simp [h4], ?_⟩
          · rw [h5]; simp
          · rw [h5] at h2
            simpa using h2
          · intro hall
            apply enoexec_not_skip
            apply hall.2
            rw [h5]
            simp


/-- One pass of the PATH loop meets `attempt_spec`. -/
theorem attempt_ok {σ : Type} (h : Host σ) (argv envp : Argv) (alloclen : Nat)
    (st : Search σ) (startp : Nat) (cand : CStr) :
    attempt_spec st.got_eacces cand argv envp
      (search_attempt h argv envp alloclen st startp cand) := by
  unfold search_attempt
  obtain ⟨mid, hmid, hc⟩ := dizi_execve_cases h st.s cand argv envp
  have m1 := candidates_inner mid hmid
  have m2 := script_fails_inner mid hmid
  have m3 := tried_errs_inner mid hmid
  have m4 := returned_errs_inner mid hmid
  have m5 := dispatch_calls_inner mid hmid
  rcases hc with ⟨s1, v, hr⟩ | ⟨s1, c, hr⟩ | ⟨s1, hr⟩ | hr
  · rw [hr]
    dsimp only
    have hpre : ∀ e, s1.errno = e →
        pre_ok (Event.dispatch cand argv envp :: (mid ++ [Event.returned v s1.errno]))
          e cand argv envp := by
      intro e he
      subst he
      exact ⟨by simp [*], by simp [*], by simp [*], by simp [*],
        ⟨Event.dispatch cand argv envp :: mid, v, by simp⟩, fun _ => by simp [*]⟩
    split_ifs with he
    · exact script_spec h argv envp alloclen { st with s := s1 } startp _ cand argv envp
        (hpre ENOEXEC he)
    · exact classify_spec { st with s := s1 } _ cand argv envp (hpre s1.errno rfl)
  · rw [hr]
    simp only [attempt_spec, Res.trace]
    exact ⟨by simp [*], by simp [*], by simp [*], by simp [*], fun hall => by
      have := hall.1
      simp [*] at this⟩
  · rw [hr]
    simp only [attempt_spec, Res.trace]
    exact ⟨by simp [*], by simp [*], by simp [*], by simp [*], fun hall => by
      have := hall.1
      simp [*] at this⟩
  · rw [hr]
    simp only [attempt_spec, Res.trace]
    exact ⟨by simp [*], by simp [*], by simp [*], by simp [*], fun hall => by
      have := hall.1
      simp [*] at this⟩

/-! ### The PATH loop of `dizi_execvp`: the whole search -/

/-- One pass of `search_over` and what follows it. -/
theorem search_over_cons {σ : Type} (h : Host σ) (argv envp : Argv) (alloclen name : Nat)
    (file : CStr) (pm : Bool) (d : CStr) (ds : List CStr) (st : Search σ) :
    ∃ x, attempt_spec st.got_eacces (candidate_of file d) argv envp x ∧
      search_over h argv envp alloclen name file pm (d :: ds) st =
        match x with
        | .done r => Res.after [Event.candidate (candidate_of file d)] r
        | .brk tr st1 =>
          Res.after (Event.candidate (candidate_of file d) :: tr) (search_finish pm st1)
        | .next tr st1 =>
          Res.after (Event.candidate (candidate_of file d) :: tr)
            (search_over h argv envp alloclen name file pm ds st1) :=
  ⟨search_attempt h argv envp alloclen
      { st with buf := if d = [] then st.buf
          else st.buf.take (name - d.length) ++ d.map Cell.ch ++ st.buf.drop name }
      (if d = [] then name + 1 else name - d.length) (candidate_of file d),
    attempt_ok h argv envp alloclen _ _ _, rfl⟩

theorem finish_eq {σ : Type} (pm : Bool) (st : Search σ) :
    ∃ tr, search_finish pm st =
        .ret tr (if st.got_eacces then { st.s with errno := EACCES } else st.s) (-1) ∧
      tried_errs tr = [] ∧ returned_errs tr = [] ∧ dispatch_calls tr = [] ∧
      candidates tr = [] ∧ script_fails tr = [] ∧ ∀ ev ∈ tr, ∃ b, ev = Event.free b := by
  refine ⟨_, rfl, ?_⟩
  cases st.script_argv_malloc <;> cases pm <;> simp

theorem tried_count_le {σ : Type} (h : Host σ) (argv envp : Argv) (alloclen name : Nat)
    (file : CStr) (pm : Bool) (ds : List CStr) :
    ∀ st : Search σ,
      (tried_errs (search_over h argv envp alloclen name file pm ds st).trace).length ≤
        ds.length := by
  induction ds with
  | nil =>
    intro st
    obtain ⟨tr, he, h1, -⟩ := finish_eq pm st
    simp [search_over, he, Res.trace, h1]
  | cons d ds ih =>
    intro st
    obtain ⟨x, hx, he⟩ := search_over_cons h argv envp alloclen name file pm d ds st
    rw [he]
    cases x with
    | next tr st1 =>
      obtain ⟨-, -, ⟨e, h3, -⟩, -⟩ := hx
      have := ih st1
      simp only [res_trace_after, tried_errs_append, tried_errs_cons, h3, List.length_append,
        List.length_cons, List.length_nil, List.nil_append]
      omega
    | brk tr st1 =>
      obtain ⟨-, h3, -⟩ := hx
      obtain ⟨tr2, he2, h1, -⟩ := finish_eq pm st1
      simp [Res.after, he2, Res.trace, h3, h1]
    | done r =>
      cases r with
      | ret tr s1 v =>
        obtain ⟨-, -, -, ⟨pre, e, h3, h4, -⟩, -⟩ := hx
        simp [Res.after, Res.trace, h3, h4]
      | exited tr s1 c =>
        obtain ⟨-, -, h3, -⟩ := hx
        simp only [Res.trace] at h3
        simp [Res.after, Res.trace, h3]
      | replaced tr s1 =>
        obtain ⟨-, -, h3, -⟩ := hx
        simp only [Res.trace] at h3
        simp [Res.after, Res.trace, h3]
      | fault tr =>
        obtain ⟨-, -, h3, -⟩ := hx
        simp only [Res.trace] at h3
        simp [Res.after, Res.trace, h3]


theorem exhausted_errno_cons (g : Bool) (e0 e : Int) (l : List Int) :
    exhausted_errno g e0 (e :: l) = exhausted_errno (g || decide (e = EACCES)) e l := by
  unfold exhausted_errno
  have hl : (e :: l).getLast?.getD e0 = l.getLast?.getD e := by
    cases l with
    | nil => rfl
    | cons x xs =>
      rw [List.getLast?_cons_cons]
      cases hh : (x :: xs).getLast? with
      | none => simp at hh
      | some y => rfl
  rw [hl]
  by_cases hg : g = true
  · simp [hg]
  · by_cases he : e = EACCES
    · simp [he]
    · have he2 : ¬ EACCES = e := fun hh => he hh.symm
      simp [hg, he, he2]

/-- A search in which every directory reached the `switch` with an `errno` of
the skip class returns -1 with `exhausted_errno`, having formed the
candidates of all directories. -/
theorem search_over_exhausted {σ : Type} (h : Host σ) (argv envp : Argv) (alloclen name : Nat)
    (file : CStr) (pm : Bool) (ds : List CStr) :
    ∀ st : Search σ,
      (tried_errs (search_over h argv envp alloclen name file pm ds st).trace).length =
        ds.length →
      (∀ e ∈ tried_errs (search_over h argv envp alloclen name file pm ds st).trace,
        is_skip e) →
      ∃ tr s1, search_over h argv envp alloclen name file pm ds st = .ret tr s1 (-1) ∧
        s1.errno = exhausted_errno st.got_eacces st.s.errno (tried_errs tr) ∧
        candidates tr = ds.map (candidate_of file) ∧ script_fails tr = [] := by
  induction ds with
  | nil =>
    intro st _ _
    obtain ⟨tr, he, h1, -, -, h4, h5, -⟩ := finish_eq pm st
    refine ⟨tr, _, by rw [search_over, he], ?_, by simp [h4], h5⟩
    rw [h1]
    cases hg : st.got_eacces <;> simp [exhausted_errno]
  | cons d ds ih =>
    intro st hlen hskip
    obtain ⟨x, hx, he⟩ := search_over_cons h argv envp alloclen name file pm d ds st
    rw [he] at hlen hskip ⊢
    cases x with
    | next tr st1 =>
      obtain ⟨h1, h2, ⟨e, h3, hs, herr, hg⟩, -⟩ := hx
      dsimp only at hlen hskip ⊢
      simp only [res_trace_after, tried_errs_append, tried_errs_cons, h3, List.length_append,
        List.length_cons, List.length_nil, List.nil_append, List.cons_append] at hlen hskip
      obtain ⟨tr2, s2, hr, herr2, hc2, hf2⟩ := ih st1 (by omega)
        (fun x hx => hskip x (List.mem_cons_of_mem _ hx))
      refine ⟨_, s2, by rw [hr]; rfl, ?_, ?_, ?_⟩
      · simp only [tried_errs_append, tried_errs_cons, h3, List.nil_append, List.cons_append]
        rw [exhausted_errno_cons, herr2, herr, hg]
      · simp [h1, hc2]
      · simp [h2, hf2]
    | brk tr st1 =>
      exfalso
      obtain ⟨-, h3, -⟩ := hx
      obtain ⟨tr2, he2, h1, -⟩ := finish_eq pm st1
      simp [Res.after, he2, Res.trace, h3, h1] at hlen
    | done r =>
      exfalso
      cases r with
      | ret tr s1 v =>
        obtain ⟨-, -, -, ⟨pre, e, h3, h4, hns, -⟩, -⟩ := hx
        apply hns
        apply hskip
        simp [Res.after, Res.trace, h3]
      | exited tr s1 c =>
        obtain ⟨-, -, h3, -⟩ := hx
        simp only [Res.trace] at h3
        simp [Res.after, Res.trace, h3] at hlen
      | replaced tr s1 =>
        obtain ⟨-, -, h3, -⟩ := hx
        simp only [Res.trace] at h3
        simp [Res.after, Res.trace, h3] at hlen
      | fault tr =>
        obtain ⟨-, -, h3, -⟩ := hx
        simp only [Res.trace] at h3
        simp [Res.after, Res.trace, h3] at hlen


@[simp]
theorem res_returns_after {σ : Type} (a : List Event) (r : Res σ) :
    (Res.after a r).returns = r.returns := by
  cases r <;> rfl

theorem mem_tried_errs (e : Int) (tr : List Event) :
    e ∈ tried_errs tr ↔ Event.tried e ∈ tr := by
  induction tr with
  | nil => simp
  | cons ev tr ih => cases ev <;> simp [ih]

theorem mem_script_fails (n : Nat) (tr : List Event) :
    n ∈ script_fails tr ↔ Event.malloc .script_argv_malloc n false ∈ tr := by
  induction tr with
  | nil => simp
  | cons ev tr ih =>
    cases ev <;> simp [ih]
    rename_i b m ok
    cases b <;> cases ok <;> simp

/-- A candidate that reaches the `switch` with an `errno` outside the skip
class ends the search: it returns -1 with that `errno`, and nothing happens
after the `switch`. -/
theorem search_over_abort {σ : Type} (h : Host σ) (argv envp : Argv) (alloclen name : Nat)
    (file : CStr) (pm : Bool) (ds : List CStr) (e : Int) (hns : ¬ is_skip e) :
    ∀ st : Search σ,
      e ∈ tried_errs (search_over h argv envp alloclen name file pm ds st).trace →
      (search_over h argv envp alloclen name file pm ds st).returns = some (-1, e) ∧
      ∃ tr, (search_over h argv envp alloclen name file pm ds st).trace =
        tr ++ [Event.tried e] := by
  induction ds with
  | nil =>
    intro st hmem
    obtain ⟨tr, he, h1, -⟩ := finish_eq pm st
    simp [search_over, he, Res.trace, h1] at hmem
  | cons d ds ih =>
    intro st hmem
    obtain ⟨x, hx, he⟩ := search_over_cons h argv envp alloclen name file pm d ds st
    rw [he] at hmem ⊢
    cases x with
    | next tr st1 =>
      obtain ⟨-, -, ⟨e1, h3, hs, -, -⟩, -⟩ := hx
      dsimp only at hmem ⊢
      simp only [res_trace_after, tried_errs_append, tried_errs_cons, h3, List.nil_append,
        List.cons_append, List.mem_cons] at hmem
      rcases hmem with hh | hh
      · exact absurd (hh ▸ hs) hns
      · obtain ⟨hr, tr2, ht⟩ := ih st1 hh
        refine ⟨by simpa using hr, Event.candidate (candidate_of file d) :: (tr ++ tr2), ?_⟩
        simp [res_trace_after, ht]
    | brk tr st1 =>
      exfalso
      obtain ⟨-, h3, -⟩ := hx
      obtain ⟨tr2, he2, h1, -⟩ := finish_eq pm st1
      simp [Res.after, he2, Res.trace, h3, h1] at hmem
    | done r =>
      cases r with
      | ret tr s1 v =>
        obtain ⟨-, -, hv, ⟨pre, e1, h3, h4, -, herr⟩, -⟩ := hx
        simp [Res.after, Res.trace, h3, h4] at hmem
        subst hmem
        subst hv
        refine ⟨by simp [Res.after, Res.returns, herr], Event.candidate (candidate_of file d)
          :: pre, by simp [Res.after, Res.trace, h3]⟩
      | exited tr s1 c =>
        obtain ⟨-, -, h3, -⟩ := hx
        simp only [Res.trace] at h3
        simp [Res.after, Res.trace, h3] at hmem
      | replaced tr s1 =>
        obtain ⟨-, -, h3, -⟩ := hx
        simp only [Res.trace] at h3
        simp [Res.after, Res.trace, h3] at hmem
      | fault tr =>
        obtain ⟨-, -, h3, -⟩ := hx
        simp only [Res.trace] at h3
        simp [Res.after, Res.trace, h3] at hmem


/-- A failed `malloc` of the script argv ends the search: it returns -1 with
`ENOMEM`, and after the failed `malloc`, which follows a return of
`dizi_execve` with `ENOEXEC`, only `free` is called. -/
theorem search_over_alloc_fail {σ : Type} (h : Host σ) (argv envp : Argv)
    (alloclen name : Nat) (file : CStr) (pm : Bool) (ds : List CStr) (n : Nat) :
    ∀ st : Search σ,
      n ∈ script_fails (search_over h argv envp alloclen name file pm ds st).trace →
      (search_over h argv envp alloclen name file pm ds st).returns = some (-1, ENOMEM) ∧
      ∃ tr v tl, (search_over h argv envp alloclen name file pm ds st).trace =
        tr ++ Event.returned v ENOEXEC :: Event.malloc .script_argv_malloc n false :: tl ∧
        ∀ ev ∈ tl, ∃ b, ev = Event.free b := by
  induction ds with
  | nil =>
    intro st hmem
    obtain ⟨tr, he, -, -, -, -, h5, -⟩ := finish_eq pm st
    simp [search_over, he, Res.trace, h5] at hmem
  | cons d ds ih =>
    intro st hmem
    obtain ⟨x, hx, he⟩ := search_over_cons h argv envp alloclen name file pm d ds st
    rw [he] at hmem ⊢
    cases x with
    | next tr st1 =>
      obtain ⟨-, h2, -⟩ := hx
      dsimp only at hmem ⊢
      simp only [res_trace_after, script_fails_append, script_fails_cons, h2, List.nil_append,
        List.cons_append] at hmem
      obtain ⟨hr, tr2, v, tl, ht, hfree⟩ := ih st1 hmem
      refine ⟨by simpa using hr, Event.candidate (candidate_of file d) :: (tr ++ tr2), v, tl,
        ?_, hfree⟩
      simp [res_trace_after, ht]
    | brk tr st1 =>
      obtain ⟨-, -, herr, hg, ⟨pre, v, n1, h3, h4⟩, -⟩ := hx
      obtain ⟨tr2, he2, -, -, -, -, h5, hfree⟩ := finish_eq pm st1
      dsimp only at hmem ⊢
      rw [he2] at hmem ⊢
      simp [Res.after, Res.trace, h3, h4, h5] at hmem
      subst hmem
      refine ⟨by simp [Res.after, Res.returns, hg, herr],
        Event.candidate (candidate_of file d) :: pre, v, tr2, ?_, hfree⟩
      simp [Res.after, Res.trace, h3]
    | done r =>
      exfalso
      cases r with
      | ret tr s1 v =>
        obtain ⟨-, h2, -⟩ := hx
        simp [Res.after, Res.trace, h2] at hmem
      | exited tr s1 c =>
        obtain ⟨-, h2, -⟩ := hx
        simp only [Res.trace] at h2
        simp [Res.after, Res.trace, h2] at hmem
      | replaced tr s1 =>
        obtain ⟨-, h2, -⟩ := hx
        simp only [Res.trace] at h2
        simp [Res.after, Res.trace, h2] at hmem
      | fault tr =>
        obtain ⟨-, h2, -⟩ := hx
        simp only [Res.trace] at h2
        simp [Res.after, Res.trace, h2] at hmem

/-- The candidates a search forms are, in order, those of the first
directories of the path. -/
theorem search_over_candidates {σ : Type} (h : Host σ) (argv envp : Argv)
    (alloclen name : Nat) (file : CStr) (pm : Bool) (ds : List CStr) :
    ∀ st : Search σ,
      candidates (search_over h argv envp alloclen name file pm ds st).trace <+:
        ds.map (candidate_of file) := by
  induction ds with
  | nil =>
    intro st
    obtain ⟨tr, he, -, -, -, h4, -⟩ := finish_eq pm st
    simp [search_over, he, Res.trace, h4]
  | cons d ds ih =>
    intro st
    obtain ⟨x, hx, he⟩ := search_over_cons h argv envp alloclen name file pm d ds st
    rw [he]
    cases x with
    | next tr st1 =>
      obtain ⟨h1, -⟩ := hx
      simp only [res_trace_after, candidates_append, candidates_cons, h1, List.nil_append,
        List.cons_append, List.map_cons]
      exact (List.prefix_cons_inj _).2 (ih st1)
    | brk tr st1 =>
      obtain ⟨h1, -⟩ := hx
      obtain ⟨tr2, he2, -, -, -, h4, -⟩ := finish_eq pm st1
      simp [Res.after, he2, Res.trace, h1, h4]
    | done r =>
      cases r with
      | ret tr s1 v =>
        obtain ⟨h1, -⟩ := hx
        simp [Res.after, Res.trace, h1]
      | exited tr s1 c =>
        obtain ⟨h1, -⟩ := hx
        simp only [Res.trace] at h1
        simp [Res.after, Res.trace, h1]
      | replaced tr s1 =>
        obtain ⟨h1, -⟩ := hx
        simp only [Res.trace] at h1
        simp [Res.after, Res.trace, h1]
      | fault tr =>
        obtain ⟨h1, -⟩ := hx
        simp only [Res.trace] at h1
        simp [Res.after, Res.trace, h1]


theorem returned_le_dispatch {σ : Type} (h : Host σ) (argv envp : Argv)
    (alloclen name : Nat) (file : CStr) (pm : Bool) (ds : List CStr) :
    ∀ st : Search σ,
      (returned_errs (search_over h argv envp alloclen name file pm ds st).trace).length ≤
        (dispatch_calls (search_over h argv envp alloclen name file pm ds st).trace).length := by
  induction ds with
  | nil =>
    intro st
    obtain ⟨tr, he, -, h2, h3, -⟩ := finish_eq pm st
    simp [search_over, he, Res.trace, h2, h3]
  | cons d ds ih =>
    intro st
    obtain ⟨x, hx, he⟩ := search_over_cons h argv envp alloclen name file pm d ds st
    rw [he]
    cases x with
    | next tr st1 =>
      obtain ⟨-, -, -, h4, -⟩ := hx
      have := ih st1
      simp only [res_trace_after, returned_errs_append, returned_errs_cons,
        dispatch_calls_append, dispatch_calls_cons, List.nil_append, List.cons_append,
        List.length_append]
      omega
    | brk tr st1 =>
      obtain ⟨-, -, -, -, -, h4, -⟩ := hx
      obtain ⟨tr2, he2, -, h2, h3, -⟩ := finish_eq pm st1
      simp [Res.after, he2, Res.trace, h2, h3, h4]
    | done r =>
      cases r with
      | ret tr s1 v =>
        obtain ⟨-, -, -, -, h4, -⟩ := hx
        simp [Res.after, Res.trace, h4]
      | exited tr s1 c =>
        obtain ⟨-, -, -, h4, -⟩ := hx
        simp only [Res.trace] at h4
        simp [Res.after, Res.trace, h4]
      | replaced tr s1 =>
        obtain ⟨-, -, -, h4, -⟩ := hx
        simp only [Res.trace] at h4
        simp [Res.after, Res.trace, h4]
      | fault tr =>
        obtain ⟨-, -, -, h4, -⟩ := hx
        simp only [Res.trace] at h4
        simp [Res.after, Res.trace, h4]

theorem all_skipped_candidate (c : CStr) (tr : List Event) :
    all_skipped (Event.candidate c :: tr) ↔ all_skipped tr := by
  simp [all_skipped]

theorem all_skipped_append {a b : List Event}
    (ha : (returned_errs a).length ≤ (dispatch_calls a).length)
    (hb : (returned_errs b).length ≤ (dispatch_calls b).length)
    (hab : all_skipped (a ++ b)) : all_skipped a ∧ all_skipped b := by
  obtain ⟨h1, h2⟩ := hab
  simp only [returned_errs_append, dispatch_calls_append, List.length_append] at h1
  simp only [returned_errs_append, List.mem_append] at h2
  exact ⟨⟨by omega, fun e he => h2 e (Or.inl he)⟩, ⟨by omega, fun e he => h2 e (Or.inr he)⟩⟩

/-- When every call of `dizi_execve` in a search returned with an `errno` of
the skip class, the calls were those of the candidates of all directories,
in order, each with `argv` and `envp`. -/
theorem search_over_all_skipped {σ : Type} (h : Host σ) (argv envp : Argv)
    (alloclen name : Nat) (file : CStr) (pm : Bool) (ds : List CStr) :
    ∀ st : Search σ,
      all_skipped (search_over h argv envp alloclen name file pm ds st).trace →
      dispatch_calls (search_over h argv envp alloclen name file pm ds st).trace =
        ds.map (fun d => (candidate_of file d, argv, envp)) := by
  induction ds with
  | nil =>
    intro st _
    obtain ⟨tr, he, -, h2, h3, -⟩ := finish_eq pm st
    simp [search_over, he, Res.trace, h3]
  | cons d ds ih =>
    intro st hall
    obtain ⟨x, hx, he⟩ := search_over_cons h argv envp alloclen name file pm d ds st
    have hle := returned_le_dispatch h argv envp alloclen name file pm ds
    rw [he] at hall ⊢
    cases x with
    | next tr st1 =>
      obtain ⟨-, -, -, h4, h5⟩ := hx
      dsimp only at hall ⊢
      rw [res_trace_after, List.cons_append, all_skipped_candidate] at hall
      obtain ⟨ha, hb⟩ := all_skipped_append h4 (hle st1) hall
      simp [res_trace_after, h5 ha, ih st1 hb]
    | brk tr st1 =>
      exfalso
      obtain ⟨-, -, -, -, -, h4, h5⟩ := hx
      obtain ⟨tr2, he2, -, h2, h3, -⟩ := finish_eq pm st1
      dsimp only at hall
      rw [res_trace_after, List.cons_append, all_skipped_candidate] at hall
      exact h5 (all_skipped_append h4 (by rw [he2]; simp [Res.trace, h2, h3]) hall).1
    | done r =>
      exfalso
      dsimp only at hall
      rw [res_trace_after, List.singleton_append, all_skipped_candidate] at hall
      cases r with
      | ret tr s1 v => exact hx.2.2.2.2.2 hall
      | exited tr s1 c => exact hx.2.2.2.2 hall
      | replaced tr s1 => exact hx.2.2.2.2 hall
      | fault tr => exact hx.2.2.2.2 hall

/-! ### `dizi_execvp` on a bare name -/

theorem execvp_bare {σ : Type} (h : Host σ) (s : St σ) (file : CStr) (argv : Argv)
    (hf : file ≠ []) (hsl : '/' ∉ file) :
    dizi_execvp h s file argv = path_search h s file argv h.environ := by
  simp [dizi_execvp, hf, hsl]

/-- A search for a bare name: the `malloc` of the buffer fails, or the search
runs over the segments of the search path. -/
theorem execvp_search_cases {σ : Type} (h : Host σ) (s : St σ) (file : CStr) (argv : Argv)
    (hf : file ≠ []) (hsl : '/' ∉ file) :
    (∃ n w, dizi_execvp h s file argv =
        .ret [Event.malloc .path_malloc n false] ⟨w, ENOMEM⟩ (-1)) ∨
    (∃ pre pm st0, (pre = [] ∨ ∃ n, pre = [Event.malloc .path_malloc n true]) ∧
      st0.got_eacces = false ∧
      dizi_execvp h s file argv =
        Res.after pre (search_over h argv h.environ (alloclen_of h file) (pathlen_of h) file pm
          (segments (search_path h)) (st0 : Search σ))) := by
  rw [execvp_bare h s file argv hf hsl, path_search_eq]
  split_ifs
  · exact Or.inr ⟨[], false, _, Or.inl rfl, rfl, (res_after_nil _).symm⟩
  · exact Or.inr ⟨_, true, _, Or.inr ⟨_, rfl⟩, rfl, rfl⟩
  · exact Or.inl ⟨_, _, rfl⟩

theorem pre_summaries {pre : List Event}
    (hpre : pre = [] ∨ ∃ n, pre = [Event.malloc .path_malloc n true]) :
    tried_errs pre = [] ∧ returned_errs pre = [] ∧ dispatch_calls pre = [] ∧
      candidates pre = [] ∧ script_fails pre = [] := by
  rcases hpre with h | ⟨n, h⟩ <;> subst h <;> simp

/-! ### Examples with a long search path -/

theorem long_dir_length (n : Nat) : (long_dir n).length = n := by
  unfold long_dir
  exact List.length_replicate _ _

theorem segments_long_dir (n : Nat) : segments (long_dir n) = [long_dir n] := by
  unfold long_dir
  induction n with
  | zero => rfl
  | succ k ih =>
    rw [List.replicate_succ, segments, if_neg (by decide), ih]



theorem alloclen_of_some {σ : Type} (h : Host σ) (file path : CStr)
    (hp : h.getenv_PATH = some path) :
    alloclen_of h file = path.length + file.length + 2 := by
  unfold alloclen_of pathlen_of
  rw [hp]
  dsimp only
  omega

/-- When the buffer is too large for `alloca` and `malloc` fails,
`dizi_execvp` returns at once. -/
theorem execvp_buffer_malloc_fails {σ : Type} (h : Host σ) (s : St σ) (file : CStr)
    (argv : Argv) (hf : file ≠ []) (hsl : '/' ∉ file)
    (hbig : __MAX_ALLOCA_CUTOFF < alloclen_of h file)
    (hmf : (h.malloc s.world (alloclen_of h file)).2 = false) :
    dizi_execvp h s file argv =
      .ret [Event.malloc .path_malloc (alloclen_of h file) false]
        { world := (h.malloc s.world (alloclen_of h file)).1, errno := ENOMEM } (-1) := by
  rw [execvp_bare h s file argv hf hsl, path_search_eq]
  have : __libc_use_alloca (alloclen_of h file) = false := by
    unfold __libc_use_alloca
    exact decide_eq_false (by omega)
  rw [this, hmf]
  rfl

/-- The first directory of a search: when its candidate comes back with
`ENOEXEC`, no script argv exists yet, it is too large for `alloca` and
`malloc` fails, the failed `malloc` is in the trace. -/
theorem search_over_first_alloc_fail {σ : Type} (h : Host σ) (argv envp : Argv)
    (alloclen name : Nat) (file : CStr) (pm : Bool) (d : CStr) (ds : List CStr)
    (st : Search σ) (tr : List Event) (s1 : St σ) (v : Int) (argc : Nat)
    (hd : dizi_execve h st.s (candidate_of file d) argv envp = .ret tr s1 v)
    (he : s1.errno = ENOEXEC) (hsa : st.script_argv = none)
    (hc : count_args_int argv 0 = some argc)
    (hl : script_argv_len argc = some ((argc + 1) * sizeof_ptr))
    (hbig : __MAX_ALLOCA_CUTOFF < alloclen + (argc + 1) * sizeof_ptr)
    (hmf : (h.malloc s1.world ((argc + 1) * sizeof_ptr)).2 = false) :
    Event.malloc .script_argv_malloc ((argc + 1) * sizeof_ptr) false ∈
      (search_over h argv envp alloclen name file pm (d :: ds) st).trace := by
  have hua : __libc_use_alloca (alloclen + (argc + 1) * sizeof_ptr) = false := by
    unfold __libc_use_alloca
    exact decide_eq_false (by omega)
  rw [search_over]
  try dsimp only
  unfold search_attempt
  try dsimp only
  rw [hd]
  try dsimp only
  rw [if_pos he]
  unfold search_script
  try dsimp only
  rw [hsa]
  try dsimp only
  rw [hc]
  try dsimp only
  rw [hl]
  try dsimp only
  rw [hua, hmf]
  simp [Step.after, Res.after, search_finish, Res.trace]

theorem segments_a_long (n : Nat) :
    segments ('/' :: 'a' :: ':' :: long_dir n) = ['/' :: 'a' :: [], long_dir n] := by
  have h3 : segments (':' :: long_dir n) = [[], long_dir n] := by
    rw [segments, if_pos rfl, segments_long_dir]
  have h2 : segments ('a' :: ':' :: long_dir n) = [['a'], long_dir n] := by
    rw [segments, if_neg (by decide), h3]
  rw [segments, if_neg (by decide), h2]

theorem alloclen_a_long (n : Nat) (e : CStr → Int) : alloclen_of (example_host [] 0 0 e
    (some ('/' :: 'a' :: ':' :: long_dir n))) "prog".toList = n + 9 := by
  have hal := alloclen_of_some (example_host [] 0 0 e
    (some ('/' :: 'a' :: ':' :: long_dir n))) "prog".toList _ rfl
  simp only [List.length_cons, long_dir_length] at hal
  rw [hal]
  have : "prog".toList.length = 4 := rfl
  omega

theorem script_alloc_fails_long (n : Nat) (h1 : n + 9 ≤ 65536) (h2 : 65536 < n + 41) :
    Event.malloc .script_argv_malloc 32 false ∈
      (dizi_execvp (example_host [] 0 0 (fun _ => ENOEXEC)
        (some ('/' :: 'a' :: ':' :: long_dir n))) ⟨(), 0⟩ "prog".toList argv_prog).trace := by
  have hal := alloclen_a_long n (fun _ => ENOEXEC)
  have hua : __libc_use_alloca (alloclen_of (example_host [] 0 0 (fun _ => ENOEXEC)
      (some ('/' :: 'a' :: ':' :: long_dir n))) "prog".toList) = true := by
    rw [hal]
    unfold __libc_use_alloca __MAX_ALLOCA_CUTOFF
    exact decide_eq_true h1
  rw [execvp_bare _ _ _ _ (by decide) (by decide), path_search_eq, if_pos hua]
  have hseg : segments (search_path (example_host [] 0 0 (fun _ => ENOEXEC)
      (some ('/' :: 'a' :: ':' :: long_dir n)))) = ['/' :: 'a' :: [], long_dir n] :=
    segments_a_long n
  rw [hseg]
  exact search_over_first_alloc_fail _ _ _ _ _ _ _ _ _ _
    [Event.dispatch "/a/prog".toList argv_prog [none], Event.lookup 7 0 0,
      Event.legacy "/a/prog".toList argv_prog [none], Event.returned (-1) ENOEXEC]
    ⟨(), ENOEXEC⟩ (-1) 3 rfl rfl rfl rfl rfl
    (by rw [hal]; unfold __MAX_ALLOCA_CUTOFF sizeof_ptr; omega) rfl

/-! ### The PATH search of `dizi_execvp`: the claims -/

/-- With a buffer of more than 65536 bytes whose `malloc` fails, the search
of a path of one long directory makes no call of `dizi_execve`. -/
theorem long_path_no_dispatch (n : Nat) (hn : 65536 < n + 6) :
    (∀ d ∈ segments (long_dir n), d ≠ []) ∧
    all_skipped (dizi_execvp (host_long n) ⟨(), 0⟩
      "prog".toList argv_prog).trace ∧
    dispatch_calls (dizi_execvp (host_long n)
        ⟨(), 0⟩ "prog".toList argv_prog).trace ≠
      (segments (long_dir n)).map (fun d => (d ++ '/' :: "prog".toList, argv_prog,
        (host_long n).environ)) := by
  have hal := alloclen_of_some (host_long n)
    "prog".toList (long_dir n) rfl
  rw [long_dir_length] at hal
  have hlen : "prog".toList.length = 4 := rfl
  have hR := execvp_buffer_malloc_fails (host_long n) ⟨(), 0⟩ "prog".toList argv_prog (by decide) (by decide)
    (by rw [hal]; unfold __MAX_ALLOCA_CUTOFF; omega) rfl
  rw [hR, segments_long_dir]
  refine ⟨?_, ?_, ?_⟩
  · intro d hd
    rw [List.mem_singleton] at hd
    intro h0
    have := long_dir_length n
    rw [← hd, h0] at this
    simp at this
    omega
  · simp [all_skipped, Res.trace]
  · simp [Res.trace]

/-- C5, as stated, fails: with `PATH` one directory of 65536 bytes (no empty
segment), the file name `prog` and a failing `malloc`, every call of
`dizi_execve` made has returned with a skip-class error (none was made), yet
the candidate of the directory was not dispatched. -/
theorem dizi_execvp_dispatch_candidates_counterexample :
    "prog".toList ≠ [] ∧ '/' ∉ "prog".toList ∧
    (∀ d ∈ segments (long_dir 65536), d ≠ []) ∧
    all_skipped (dizi_execvp (host_long 65536)
      ⟨(), 0⟩ "prog".toList argv_prog).trace ∧
    dispatch_calls (dizi_execvp (host_long 65536)
        ⟨(), 0⟩ "prog".toList argv_prog).trace ≠
      (segments (long_dir 65536)).map (fun d => (d ++ '/' :: "prog".toList, argv_prog,
        (host_long 65536).environ)) :=
  ⟨by decide, by decide, long_path_no_dispatch 65536 (by decide)⟩

/-- C5 (amended): for a `PATH` whose segments are all non-empty and a
non-empty file name without a slash, when the `malloc` of the candidate
buffer does not fail and every call of `dizi_execve` made returned with an
`errno` of the skip class, the calls made are those of the candidates
`d + "/" + file` of the segments `d` of `PATH`, one each, in the order of
`PATH`, each with the caller's `argv` and `__environ`. -/
theorem dizi_execvp_dispatches_path_candidates {σ : Type} (h : Host σ) (s : St σ)
    (path file : CStr) (argv : Argv) (hp : h.getenv_PATH = some path) (hf : file ≠ [])
    (hsl : '/' ∉ file) (hne : ∀ d ∈ segments path, d ≠ [])
    (hm : buffer_fails (dizi_execvp h s file argv).trace = [])
    (hall : all_skipped (dizi_execvp h s file argv).trace) :
    dispatch_calls (dizi_execvp h s file argv).trace =
      (segments path).map (fun d => (d ++ '/' :: file, argv, h.environ)) := by
  have hsp : search_path h = path := by simp [search_path, hp]
  rcases execvp_search_cases h s file argv hf hsl with ⟨n, w, he⟩ | ⟨pre, pm, st0, hpre, hg, he⟩
  · rw [he] at hm
    simp [Res.trace, buffer_fails] at hm
  · obtain ⟨-, p2, p3, -, -⟩ := pre_summaries hpre
    rw [he, hsp] at hall ⊢
    have hall2 : all_skipped (search_over h argv h.environ (alloclen_of h file) (pathlen_of h)
        file pm (segments path) st0).trace := by
      simpa [all_skipped, res_trace_after, p2, p3] using hall
    rw [res_trace_after, dispatch_calls_append, p3, List.nil_append,
      search_over_all_skipped h argv h.environ _ _ file pm _ st0 hall2]
    apply List.map_congr_left
    intro d hd
    simp [candidate_of, hne d hd]

theorem dizi_execvp_dispatches_path_candidates_witness :
    host_ab.getenv_PATH =
      some "/a:/b".toList ∧
    "prog".toList ≠ [] ∧ '/' ∉ "prog".toList ∧ (∀ d ∈ segments "/a:/b".toList, d ≠ []) ∧
    buffer_fails (dizi_execvp host_ab
      ⟨(), 0⟩ "prog".toList argv_prog).trace = [] ∧
    all_skipped (dizi_execvp host_ab
      ⟨(), 0⟩ "prog".toList argv_prog).trace ∧
    dispatch_calls (dizi_execvp host_ab
      ⟨(), 0⟩ "prog".toList argv_prog).trace =
      [("/a/prog".toList, argv_prog, [none]), ("/b/prog".toList, argv_prog, [none])] :=
  ⟨rfl, by decide, by decide, by decide, by decide, by decide,
    dizi_execvp_dispatches_path_candidates
      host_ab ⟨(), 0⟩ "/a:/b".toList
      "prog".toList argv_prog rfl (by decide) (by decide) (by decide) (by decide) (by decide)⟩

/-- C6: for a non-empty file name without a slash, when the search ran
through all directories of the search path (each reached the `switch` of
line 265 with an `errno` of the skip class) and one of them, at any
position, failed with `EACCES`, `dizi_execvp` returns -1 with
`errno = EACCES`. -/
theorem dizi_execvp_exhausted_eacces {σ : Type} (h : Host σ) (s : St σ) (file : CStr)
    (argv : Argv) (hf : file ≠ []) (hsl : '/' ∉ file)
    (hall : (tried_errs (dizi_execvp h s file argv).trace).length =
      (segments (search_path h)).length)
    (hskip : ∀ e ∈ tried_errs (dizi_execvp h s file argv).trace, is_skip e)
    (hacc : EACCES ∈ tried_errs (dizi_execvp h s file argv).trace) :
    (dizi_execvp h s file argv).returns = some (-1, EACCES) := by
  rcases execvp_search_cases h s file argv hf hsl with ⟨n, w, he⟩ | ⟨pre, pm, st0, hpre, hg, he⟩
  · rw [he] at hacc
    simp [Res.trace] at hacc
  · obtain ⟨p1, -, -, -, -⟩ := pre_summaries hpre
    rw [he] at hall hskip hacc ⊢
    simp only [res_trace_after, tried_errs_append, p1, List.nil_append] at hall hskip hacc
    obtain ⟨tr, s1, hr, herr, -, -⟩ := search_over_exhausted h argv h.environ _ _ file pm _ st0
      hall hskip
    rw [hr] at hacc ⊢
    simp only [Res.trace] at hacc
    simp [Res.after, Res.returns, herr, exhausted_errno, hacc]

theorem dizi_execvp_exhausted_eacces_witness :
    "prog".toList ≠ [] ∧ '/' ∉ "prog".toList ∧
    tried_errs (dizi_execvp host_ab ⟨(), 0⟩ "prog".toList argv_prog).trace = [EACCES, ENOENT] ∧
    (tried_errs (dizi_execvp host_ab ⟨(), 0⟩ "prog".toList argv_prog).trace).length =
      (segments (search_path host_ab)).length ∧
    (∀ e ∈ tried_errs (dizi_execvp host_ab ⟨(), 0⟩ "prog".toList argv_prog).trace, is_skip e) ∧
    EACCES ∈ tried_errs (dizi_execvp host_ab ⟨(), 0⟩ "prog".toList argv_prog).trace ∧
    (dizi_execvp host_ab ⟨(), 0⟩ "prog".toList argv_prog).returns = some (-1, EACCES) :=
  ⟨by decide, by decide, by decide, by decide, by decide, by decide,
    dizi_execvp_exhausted_eacces host_ab ⟨(), 0⟩ "prog".toList argv_prog (by decide) (by decide)
      (by decide) (by decide) (by decide)⟩

/-- C7, as stated, fails: with `PATH = "/b:/s"`, `/b/prog` failing with
`ENOENT` and `/s/prog` with `ESTALE`, the search ran through both directories
with skip-class errors and none was `EACCES`, yet `dizi_execvp` returns -1
with `ESTALE`, not `ENOENT`. -/
theorem dizi_execvp_exhausted_enoent_counterexample :
    "prog".toList ≠ [] ∧ '/' ∉ "prog".toList ∧
    tried_errs (dizi_execvp host_bs ⟨(), 0⟩ "prog".toList argv_prog).trace = [ENOENT, ESTALE] ∧
    (tried_errs (dizi_execvp host_bs ⟨(), 0⟩ "prog".toList argv_prog).trace).length =
      (segments (search_path host_bs)).length ∧
    (∀ e ∈ tried_errs (dizi_execvp host_bs ⟨(), 0⟩ "prog".toList argv_prog).trace, is_skip e) ∧
    EACCES ∉ tried_errs (dizi_execvp host_bs ⟨(), 0⟩ "prog".toList argv_prog).trace ∧
    (dizi_execvp host_bs ⟨(), 0⟩ "prog".toList argv_prog).returns = some (-1, ESTALE) ∧
    (dizi_execvp host_bs ⟨(), 0⟩ "prog".toList argv_prog).returns ≠ some (-1, ENOENT) := by
  decide

/-- C7 (amended): for a non-empty file name without a slash, when the search
ran through all directories of the search path (each reached the `switch` of
line 265 with an `errno` of the skip class) and none failed with `EACCES`,
`dizi_execvp` returns -1 with the `errno` of the last directory tried:
`ENOENT` when that one failed with `ENOENT`, and `ESTALE`, `ENOTDIR`,
`ENODEV` or `ETIMEDOUT` when it failed with one of these. -/
theorem dizi_execvp_exhausted_last_errno {σ : Type} (h : Host σ) (s : St σ) (file : CStr)
    (argv : Argv) (hf : file ≠ []) (hsl : '/' ∉ file)
    (hall : (tried_errs (dizi_execvp h s file argv).trace).length =
      (segments (search_path h)).length)
    (hskip : ∀ e ∈ tried_errs (dizi_execvp h s file argv).trace, is_skip e)
    (hacc : EACCES ∉ tried_errs (dizi_execvp h s file argv).trace) :
    ∃ e, (tried_errs (dizi_execvp h s file argv).trace).getLast? = some e ∧
      (dizi_execvp h s file argv).returns = some (-1, e) := by
  have hpos : 0 < (segments (search_path h)).length :=
    List.length_pos.2 (segments_ne_nil _)
  rcases execvp_search_cases h s file argv hf hsl with ⟨n, w, he⟩ | ⟨pre, pm, st0, hpre, hg, he⟩
  · rw [he] at hall
    simp [Res.trace] at hall
    omega
  · obtain ⟨p1, -, -, -, -⟩ := pre_summaries hpre
    rw [he] at hall hskip hacc ⊢
    simp only [res_trace_after, tried_errs_append, p1, List.nil_append] at hall hskip hacc ⊢
    obtain ⟨tr, s1, hr, herr, -, -⟩ := search_over_exhausted h argv h.environ _ _ file pm _ st0
      hall hskip
    rw [hr] at hacc hall ⊢
    simp only [Res.trace] at hacc hall ⊢
    cases hl : (tried_errs tr).getLast? with
    | none =>
      rw [List.getLast?_eq_none_iff] at hl
      rw [hl] at hall
      simp at hall
      omega
    | some e =>
      refine ⟨e, rfl, ?_⟩
      simp [Res.after, Res.returns, herr, exhausted_errno, hacc, hg, hl]

theorem dizi_execvp_exhausted_last_errno_witness :
    "prog".toList ≠ [] ∧ '/' ∉ "prog".toList ∧
    (tried_errs (dizi_execvp host_bs ⟨(), 0⟩ "prog".toList argv_prog).trace).length =
      (segments (search_path host_bs)).length ∧
    (∀ e ∈ tried_errs (dizi_execvp host_bs ⟨(), 0⟩ "prog".toList argv_prog).trace, is_skip e) ∧
    EACCES ∉ tried_errs (dizi_execvp host_bs ⟨(), 0⟩ "prog".toList argv_prog).trace ∧
    (∃ e, (tried_errs (dizi_execvp host_bs ⟨(), 0⟩ "prog".toList argv_prog).trace).getLast? = some e ∧
      (dizi_execvp host_bs ⟨(), 0⟩ "prog".toList argv_prog).returns = some (-1, e)) :=
  ⟨by decide, by decide, by decide, by decide, by decide,
    dizi_execvp_exhausted_last_errno host_bs ⟨(), 0⟩ "prog".toList argv_prog (by decide) (by decide)
      (by decide) (by decide) (by decide)⟩

/-- C9: for a file name without a slash, when a candidate reaches the
`switch` of line 265 with an `errno` outside `EACCES`, `ENOENT`, `ESTALE`,
`ENOTDIR`, `ENODEV`, `ETIMEDOUT`, `dizi_execvp` returns -1 with that `errno`,
also after an earlier `EACCES`, and the `switch` is the last event of the
call: no later candidate is dispatched. -/
theorem dizi_execvp_aborts_on_other_error {σ : Type} (h : Host σ) (s : St σ) (file : CStr)
    (argv : Argv) (hsl : '/' ∉ file) (e : Int)
    (ht : Event.tried e ∈ (dizi_execvp h s file argv).trace) (hns : ¬ is_skip e) :
    (dizi_execvp h s file argv).returns = some (-1, e) ∧
      ∃ tr, (dizi_execvp h s file argv).trace = tr ++ [Event.tried e] := by
  by_cases hf : file = []
  · simp [dizi_execvp, hf, Res.trace] at ht
  rcases execvp_search_cases h s file argv hf hsl with ⟨n, w, he⟩ | ⟨pre, pm, st0, hpre, hg, he⟩
  · rw [he] at ht
    simp [Res.trace] at ht
  · obtain ⟨p1, -, -, -, -⟩ := pre_summaries hpre
    rw [he] at ht ⊢
    rw [← mem_tried_errs, res_trace_after, tried_errs_append, p1, List.nil_append] at ht
    obtain ⟨hr, tr, htr⟩ := search_over_abort h argv h.environ _ _ file pm _ e hns st0 ht
    exact ⟨by simpa using hr, pre ++ tr, by rw [res_trace_after, htr, List.append_assoc]⟩

theorem dizi_execvp_aborts_on_other_error_witness :
    '/' ∉ "prog".toList ∧
    Event.tried EINVAL ∈ (dizi_execvp host_ax ⟨(), 0⟩ "prog".toList argv_prog).trace ∧
    ¬ is_skip EINVAL ∧
    tried_errs (dizi_execvp host_ax ⟨(), 0⟩ "prog".toList argv_prog).trace = [EACCES, EINVAL] ∧
    candidates (dizi_execvp host_ax ⟨(), 0⟩ "prog".toList argv_prog).trace =
      ["/a/prog".toList, "/x/prog".toList] ∧
    ((dizi_execvp host_ax ⟨(), 0⟩ "prog".toList argv_prog).returns = some (-1, EINVAL) ∧
      ∃ tr, (dizi_execvp host_ax ⟨(), 0⟩ "prog".toList argv_prog).trace = tr ++ [Event.tried EINVAL]) :=
  ⟨by decide, by decide, by decide, by decide, by decide,
    dizi_execvp_aborts_on_other_error host_ax ⟨(), 0⟩ "prog".toList argv_prog (by decide) EINVAL
      (by decide) (by decide)⟩

/-- C10: for a file name without a slash, when the `malloc` of the script
argv fails during the PATH search, `dizi_execvp` returns -1 with
`errno = ENOMEM` (never `EACCES`), and the failed `malloc`, which follows a
return of `dizi_execve` with `ENOEXEC`, is followed by calls of `free` only:
neither the script nor a later candidate is dispatched. -/
theorem dizi_execvp_script_alloc_failure {σ : Type} (h : Host σ) (s : St σ) (file : CStr)
    (argv : Argv) (hsl : '/' ∉ file) (n : Nat)
    (hm : Event.malloc .script_argv_malloc n false ∈ (dizi_execvp h s file argv).trace) :
    (dizi_execvp h s file argv).returns = some (-1, ENOMEM) ∧
      ∃ tr v tl, (dizi_execvp h s file argv).trace =
        tr ++ Event.returned v ENOEXEC :: Event.malloc .script_argv_malloc n false :: tl ∧
        ∀ ev ∈ tl, ∃ b, ev = Event.free b := by
  by_cases hf : file = []
  · simp [dizi_execvp, hf, Res.trace] at hm
  rcases execvp_search_cases h s file argv hf hsl with ⟨n, w, he⟩ | ⟨pre, pm, st0, hpre, hg, he⟩
  · rw [he] at hm
    simp [Res.trace] at hm
  · obtain ⟨-, -, -, -, p5⟩ := pre_summaries hpre
    rw [he] at hm ⊢
    rw [← mem_script_fails, res_trace_after, script_fails_append, p5, List.nil_append] at hm
    obtain ⟨hr, tr, v, tl, htr, hfree⟩ :=
      search_over_alloc_fail h argv h.environ _ _ file pm _ n st0 hm
    exact ⟨by simpa using hr, pre ++ tr, v, tl,
      by rw [res_trace_after, htr, List.append_assoc], hfree⟩

theorem dizi_execvp_script_alloc_failure_witness :
    '/' ∉ "prog".toList ∧
    Event.malloc .script_argv_malloc 32 false ∈
      (dizi_execvp (host_noexec 65500) ⟨(), 0⟩ "prog".toList argv_prog).trace ∧
    ((dizi_execvp (host_noexec 65500) ⟨(), 0⟩ "prog".toList argv_prog).returns = some (-1, ENOMEM) ∧
      ∃ tr v tl, (dizi_execvp (host_noexec 65500) ⟨(), 0⟩ "prog".toList argv_prog).trace =
        tr ++ Event.returned v ENOEXEC :: Event.malloc .script_argv_malloc 32 false :: tl ∧
        ∀ ev ∈ tl, ∃ b, ev = Event.free b) :=
  ⟨by decide, script_alloc_fails_long 65500 (by decide) (by decide),
    dizi_execvp_script_alloc_failure (host_noexec 65500) ⟨(), 0⟩ "prog".toList argv_prog (by decide) 32
      (script_alloc_fails_long 65500 (by decide) (by decide))⟩

/-! ### `scripts_argv` -/

theorem set_slot_eq (nv : List Slot) (i : Nat) (v : Slot) (hi : i < nv.length) :
    set_slot nv i v = some (nv.take i ++ v :: nv.drop (i + 1)) := by
  unfold set_slot
  rw [if_pos hi, List.set_eq_take_append_cons_drop, if_pos hi]

/-- The loop of `scripts_argv` copies `argv[1 .. argc - 1]` to
`new_argv[2 .. argc]` and leaves the other slots. -/
theorem scripts_argv_loop_eq (argv : Argv) :
    ∀ (j : Nat) (nv : List Slot), j + 2 ≤ nv.length → j + 1 ≤ argv.length →
      scripts_argv_loop argv (j + 1) nv =
        some (nv.take 2 ++ ((argv.drop 1).take j).map Slot.of_arg ++ nv.drop (j + 2)) := by
  intro j
  induction j with
  | zero =>
    intro nv _ _
    simp [scripts_argv_loop]
  | succ j ih =>
    intro nv hnv hargv
    have hlt : j + 1 < argv.length := by omega
    rw [scripts_argv_loop, if_pos (by omega), List.getElem?_eq_getElem hlt]
    dsimp only
    rw [set_slot_eq nv (j + 1 + 1) _ (by omega)]
    dsimp only
    rw [ih _ (by simp [List.length_take]; omega) (by omega)]
    congr 1
    have h1 : (nv.take (j + 1 + 1) ++ Slot.of_arg argv[j + 1] :: nv.drop (j + 1 + 1 + 1)).take 2 =
        nv.take 2 := by
      rw [List.take_append_of_le_length (by simp [List.length_take]; omega), List.take_take]
      congr 1
      omega
    have h2 : (nv.take (j + 1 + 1) ++ Slot.of_arg argv[j + 1] :: nv.drop (j + 1 + 1 + 1)).drop
        (j + 2) = Slot.of_arg argv[j + 1] :: nv.drop (j + 1 + 2) := by
      have hl : (nv.take (j + 1 + 1)).length = j + 2 := by simp [List.length_take]; omega
      have := List.drop_left (nv.take (j + 1 + 1)) (Slot.of_arg argv[j + 1] :: nv.drop (j + 1 + 1 + 1))
      rw [hl] at this
      exact this
    have h3 : (argv.drop 1).take (j + 1) = (argv.drop 1).take j ++ [argv[j + 1]] := by
      have hlt2 : j < (argv.drop 1).length := by simp; omega
      rw [List.take_succ, List.getElem?_eq_getElem hlt2]
      simp [Nat.add_comm]
    rw [h1, h2, h3]
    simp


/-- What `scripts_argv` writes, for an argv of at least one argument
(`argc = rest.length + 2` counts the sentinel): the helper behind C11. -/
theorem scripts_argv_eq (f : Ptr) (a0 : CStr) (rest : List CStr) (extra : Argv) :
    scripts_argv f (some a0 :: (rest.map some ++ none :: extra)) (rest.length + 2)
        (List.replicate (rest.length + 3) Slot.uninit) =
      some (Slot.ptr (.str _PATH_BSHELL) :: Slot.ptr f ::
        (rest.map (fun a => Slot.ptr (.str a)) ++ [Slot.null])) := by
  unfold scripts_argv
  rw [set_slot_eq _ 0 _ (by simp)]
  dsimp only
  rw [set_slot_eq _ 1 _ (by simp)]
  dsimp only
  rw [scripts_argv_loop_eq _ (rest.length + 1) _ (by simp) (by simp)]
  congr 1
  have hd : (Slot.ptr (.str _PATH_BSHELL) ::
      List.drop 1 (List.replicate (rest.length + 3) Slot.uninit)).length = rest.length + 3 := by
    simp
  have hrep : List.take 1 (List.take 0 (List.replicate (rest.length + 3) Slot.uninit) ++
      Slot.ptr (.str _PATH_BSHELL) ::
        List.drop (0 + 1) (List.replicate (rest.length + 3) Slot.uninit)) =
      [Slot.ptr (.str _PATH_BSHELL)] := by
    simp
  have hrep2 : List.drop (1 + 1) (List.take 0 (List.replicate (rest.length + 3) Slot.uninit) ++
      Slot.ptr (.str _PATH_BSHELL) ::
        List.drop (0 + 1) (List.replicate (rest.length + 3) Slot.uninit)) =
      List.replicate (rest.length + 1) Slot.uninit := by
    simp
  rw [hrep, hrep2]
  have ht : List.take (rest.length + 1) (List.drop 1
      (some a0 :: (rest.map some ++ none :: extra))) = rest.map some ++ [none] := by
    have := List.take_left (rest.map some ++ [none]) extra
    simpa using this
  rw [ht]
  simp [Slot.of_arg, Function.comp_def]

/-- Reading an array whose written slots hold the pointers `w`: the callee
sees `w`, whatever the candidate buffer holds. -/
theorem load_argv_args (buf : List Cell) (w : List (Option CStr)) (c : Nat) :
    load_argv buf (w.map Slot.of_arg ++ List.replicate c Slot.uninit) = w := by
  induction w with
  | nil => cases c <;> simp [load_argv, load_slot, List.replicate_succ]
  | cons a w ih => cases a <;> simp [load_argv, load_slot, Slot.of_arg, deref, ih]

/-- C11: for every candidate path `f` and every argv `a0, a1, ..., a(n-1), NULL`
with `n = rest.length + 1` elements before the sentinel, `scripts_argv` called
with `argc = n + 1` on the buffer of `argc + 1` slots its callers give it fills
the buffer with exactly the shell path, `f`, `a1 ... a(n-1)` in their order and
the sentinel: `n + 2` slots, `a0` dropped; a callee reads through them the argv
`[shell, f, a1, ..., a(n-1), NULL]`. -/
theorem scripts_argv_fills_shell_argv (f a0 : CStr) (rest : List CStr) (extra : Argv)
    (buf : List Cell) :
    ∃ nv, scripts_argv (.str f) (some a0 :: (rest.map some ++ none :: extra)) (rest.length + 2)
        (List.replicate (rest.length + 2 + 1) Slot.uninit) = some nv ∧
      nv = Slot.ptr (.str _PATH_BSHELL) :: Slot.ptr (.str f) ::
        (rest.map (fun a => Slot.ptr (.str a)) ++ [Slot.null]) ∧
      nv.length = (rest.length + 1) + 2 ∧
      load_argv buf nv = some _PATH_BSHELL :: some f :: (rest.map some ++ [none]) := by
  refine ⟨_, scripts_argv_eq (.str f) a0 rest extra, rfl, by simp, ?_⟩
  have h := load_argv_args buf (some _PATH_BSHELL :: some f :: (rest.map some ++ [none])) 0
  simpa [Slot.of_arg, Function.comp_def] using h

/-- The example of C11: `["prog", "x", "y", NULL]` and `/a/prog`. -/
theorem scripts_argv_fills_shell_argv_witness :
    ∃ nv, scripts_argv (.str "/a/prog".toList)
        [some "prog".toList, some "x".toList, some "y".toList, none] 4
        (List.replicate 5 Slot.uninit) = some nv ∧
      load_argv [] nv = [some "/bin/sh".toList, some "/a/prog".toList, some "x".toList,
        some "y".toList, none] :=
  (scripts_argv_fills_shell_argv "/a/prog".toList "prog".toList ["x".toList, "y".toList] []
    []).imp (fun _ hx => ⟨hx.1, hx.2.2.2⟩)

/-! ### The argument loop of `dizi_execl`, `dizi_execle`, `dizi_execlp` -/

theorem load_argv_written (w : List (Option CStr)) (c : Nat) :
    load_argv [] (w.map Slot.of_arg ++ List.replicate c Slot.uninit) = w :=
  load_argv_args [] w c

theorem set_slot_end (w : List Slot) (c : Nat) (x : Slot) :
    set_slot (w ++ List.replicate (c + 1) Slot.uninit) w.length x =
      some ((w ++ [x]) ++ List.replicate c Slot.uninit) := by
  unfold set_slot
  rw [if_pos (by simp)]
  congr 1
  induction w with
  | nil => simp [List.replicate_succ]
  | cons a w ih => simpa using ih

theorem collected_trace_after {σ : Type} (pre : List Event) (r : Collected σ) :
    (Collected.after pre r).trace = pre ++ r.trace := by
  cases r <;> rfl

/-- One pass of the argument loop from a slot holding a non-null argument:
the next argument is stored in the next slot, after a `realloc` to twice the
size when the array is full. -/
theorem collect_step {σ : Type} (h : Host σ) (pw : List (Option CStr)) (c : CStr)
    (cap fuel : Nat) (s : St σ) (heap : Bool) (a : Option CStr) (va1 : List (Option CStr))
    (hi : pw.length + 1 < UINT_RANGE) :
    collect_loop h (fuel + 1) s ((pw ++ [some c]).map Slot.of_arg ++
        List.replicate cap Slot.uninit) (pw.length + 1 + cap) heap pw.length (a :: va1) =
      match cap with
      | cap1 + 1 =>
        collect_loop h fuel s ((pw ++ [some c] ++ [a]).map Slot.of_arg ++
          List.replicate cap1 Slot.uninit) (pw.length + 1 + (cap1 + 1)) heap (pw.length + 1) va1
      | 0 =>
        if (h.malloc s.world ((pw.length + 1) * 2 * sizeof_ptr)).2 then
          Collected.after [Event.malloc .argv ((pw.length + 1) * 2 * sizeof_ptr) true]
            (collect_loop h fuel
              { s with world := (h.malloc s.world ((pw.length + 1) * 2 * sizeof_ptr)).1 }
              ((pw ++ [some c] ++ [a]).map Slot.of_arg ++
                List.replicate pw.length Slot.uninit) ((pw.length + 1) * 2) true
              (pw.length + 1) va1)
        else
          .failed (Event.malloc .argv ((pw.length + 1) * 2 * sizeof_ptr) false ::
              (if heap then [Event.free .argv] else []))
            { world := (h.malloc s.world ((pw.length + 1) * 2 * sizeof_ptr)).1,
              errno := ENOMEM } := by
  have hq : ∀ (l1 : List Slot) (x : Slot) (l2 : List Slot), (l1 ++ x :: l2)[l1.length]? = some x := by
    intro l1 x l2
    induction l1 with
    | nil => simp
    | cons y ys ih => simpa using ih
  have hget : ((pw ++ [some c]).map Slot.of_arg ++ List.replicate cap Slot.uninit)[pw.length]? =
      some (Slot.ptr (.str c)) := by
    have := hq (pw.map Slot.of_arg) (Slot.ptr (.str c)) (List.replicate cap Slot.uninit)
    simpa [Slot.of_arg] using this
  have hmod : (pw.length + 1) % UINT_RANGE = pw.length + 1 := Nat.mod_eq_of_lt hi
  have hwl : ((pw ++ [some c]).map Slot.of_arg).length = pw.length + 1 := by simp
  rw [collect_loop, hget]
  dsimp only
  rw [hmod]
  cases cap with
  | succ cap1 =>
    rw [if_neg (by omega)]
    have := set_slot_end ((pw ++ [some c]).map Slot.of_arg) cap1 (Slot.of_arg a)
    rw [hwl] at this
    rw [this]
    simp
  | zero =>
    rw [if_pos (by omega)]
    simp only [Nat.add_zero, List.replicate_zero, List.append_nil]
    have hkept : (if heap = true then (pw ++ [some c]).map Slot.of_arg
        else ((pw ++ [some c]).map Slot.of_arg).take (pw.length + 1)) =
        (pw ++ [some c]).map Slot.of_arg := by
      split_ifs
      · rfl
      · rw [← hwl, List.take_length]
    rw [hkept, hwl]
    have hcap : (pw.length + 1) * 2 - (pw.length + 1) = pw.length + 1 := by omega
    rw [hcap]
    have := set_slot_end ((pw ++ [some c]).map Slot.of_arg) pw.length (Slot.of_arg a)
    rw [hwl] at this
    rw [this]
    simp

/-- The argument loop from a slot holding a non-null argument on: when no
`realloc` fails it stops at the first null of `va`, having stored the
arguments up to it. -/
theorem collect_loop_filled {σ : Type} (h : Host σ) (more : List (Option CStr)) :
    ∀ (rest : List CStr) (pw : List (Option CStr)) (c : CStr) (cap fuel : Nat) (s : St σ)
      (heap : Bool),
      pw.length + 1 + rest.length < UINT_RANGE → rest.length + 2 ≤ fuel →
      (∀ sz, Event.malloc .argv sz false ∉
        (collect_loop h fuel s ((pw ++ [some c]).map Slot.of_arg ++
          List.replicate cap Slot.uninit) (pw.length + 1 + cap) heap pw.length
          (rest.map some ++ none :: more)).trace) →
      ∃ tr s1 buf hp,
        collect_loop h fuel s ((pw ++ [some c]).map Slot.of_arg ++
          List.replicate cap Slot.uninit) (pw.length + 1 + cap) heap pw.length
          (rest.map some ++ none :: more) = .filled tr s1 buf hp more ∧
        load_argv [] buf = pw ++ some c :: (rest.map some ++ [none]) ∧
        s1.errno = s.errno := by
  intro rest
  induction rest with
  | nil =>
    intro pw c cap fuel s heap hi hfuel hno
    obtain ⟨f, rfl⟩ : ∃ f, fuel = f + 1 := ⟨fuel - 1, by simp at hfuel; omega⟩
    obtain ⟨f2, rfl⟩ : ∃ f2, f = f2 + 1 := ⟨f - 1, by simp at hfuel; omega⟩
    have hq : ∀ (l1 : List Slot) (x : Slot) (l2 : List Slot),
        (l1 ++ x :: l2)[l1.length]? = some x := by
      intro l1 x l2
      induction l1 with
      | nil => simp
      | cons y ys ih => simpa using ih
    have hnull : ∀ k, ((pw ++ [some c] ++ [none]).map Slot.of_arg ++
        List.replicate k Slot.uninit)[pw.length + 1]? = some Slot.null := by
      intro k
      have := hq ((pw ++ [some c]).map Slot.of_arg) Slot.null (List.replicate k Slot.uninit)
      simpa [Slot.of_arg] using this
    have hload : ∀ k, load_argv [] ((pw ++ [some c] ++ [none]).map Slot.of_arg ++
        List.replicate k Slot.uninit) = pw ++ some c :: [none] := by
      intro k
      rw [load_argv_written]
      simp
    simp only [List.map_nil, List.nil_append] at hno ⊢
    rw [collect_step h pw c cap (f2 + 1) s heap none more (by simp at hi; omega)] at hno ⊢
    cases cap with
    | succ cap1 =>
      dsimp only
      rw [collect_loop, hnull]
      exact ⟨_, _, _, _, rfl, hload _, rfl⟩
    | zero =>
      dsimp only at hno ⊢
      by_cases hm : (h.malloc s.world ((pw.length + 1) * 2 * sizeof_ptr)).2 = true
      · simp only [hm, if_true] at hno ⊢
        rw [collect_loop, hnull]
        exact ⟨_, _, _, _, rfl, hload _, rfl⟩
      · simp only [hm, if_false] at hno
        exact absurd (by simp [Collected.trace]) (hno ((pw.length + 1) * 2 * sizeof_ptr))
  | cons r rs ih =>
    intro pw c cap fuel s heap hi hfuel hno
    obtain ⟨f, rfl⟩ : ∃ f, fuel = f + 1 := ⟨fuel - 1, by simp at hfuel; omega⟩
    simp only [List.map_cons, List.cons_append, List.length_cons] at hno hi hfuel ⊢
    rw [collect_step h pw c cap f s heap (some r) _ (by omega)] at hno ⊢
    have hpl : (pw ++ [some c]).length = pw.length + 1 := by simp
    cases cap with
    | succ cap1 =>
      dsimp only at hno ⊢
      have ih1 := ih (pw ++ [some c]) r cap1 f s heap (by rw [hpl]; omega) (by omega)
      rw [hpl] at ih1
      have e1 : pw.length + 1 + (cap1 + 1) = pw.length + 1 + 1 + cap1 := by omega
      rw [e1] at hno ⊢
      obtain ⟨tr, s1, buf, hp, hr, hl, he⟩ := ih1 hno
      exact ⟨tr, s1, buf, hp, hr, by simpa using hl, he⟩
    | zero =>
      dsimp only at hno ⊢
      by_cases hm : (h.malloc s.world ((pw.length + 1) * 2 * sizeof_ptr)).2 = true
      · simp only [hm, if_true] at hno ⊢
        have ih1 := ih (pw ++ [some c]) r pw.length f
          { s with world := (h.malloc s.world ((pw.length + 1) * 2 * sizeof_ptr)).1 } true
          (by rw [hpl]; omega) (by omega)
        rw [hpl] at ih1
        have e1 : pw.length + 1 + 1 + pw.length = (pw.length + 1) * 2 := by omega
        rw [e1] at ih1
        obtain ⟨tr, s1, buf, hp, hr, hl, he⟩ := ih1 (by
          intro sz hsz
          apply hno sz
          rw [collected_trace_after]
          exact List.mem_append_right _ hsz)
        rw [hr]
        exact ⟨_, s1, buf, hp, rfl, by simpa using hl, he⟩
      · simp only [hm, if_false] at hno
        exact absurd (by simp [Collected.trace]) (hno ((pw.length + 1) * 2 * sizeof_ptr))


theorem mem_realloc_fails (n : Nat) (tr : List Event) :
    n ∈ realloc_fails tr ↔ Event.malloc .argv n false ∈ tr := by
  induction tr with
  | nil => simp [realloc_fails]
  | cons ev tr ih =>
    simp only [realloc_fails, List.filterMap_cons] at ih ⊢
    cases ev <;> simp [ih]
    rename_i b m ok
    cases b <;> cases ok <;> simp [ih]

/-- The argument loop of the wrappers: the helper behind C12. -/
theorem collect_args_filled {σ : Type} (h : Host σ) (s : St σ) (args : List CStr)
    (more : List (Option CStr)) (arg : Option CStr) (va : List (Option CStr))
    (hin : arg :: va = args.map some ++ none :: more) (hn : args.length < UINT_RANGE)
    (hno : realloc_fails (collect_args h s arg va).trace = []) :
    ∃ tr s1 buf heap, collect_args h s arg va = .filled tr s1 buf heap more ∧
      load_argv [] buf = args.map some ++ [none] ∧ s1.errno = s.errno := by
  have hno2 : ∀ sz, Event.malloc .argv sz false ∉ (collect_args h s arg va).trace := by
    intro sz hsz
    rw [← mem_realloc_fails, hno] at hsz
    simp at hsz
  cases args with
  | nil =>
    simp only [List.map_nil, List.nil_append, List.cons.injEq] at hin
    obtain ⟨rfl, rfl⟩ := hin
    refine ⟨[], s, Slot.null :: List.replicate (INITIAL_ARGV_MAX - 1) Slot.uninit, false, ?_, ?_,
      rfl⟩
    · simp [collect_args, collect_loop, Slot.of_arg]
    · simp [load_argv, load_slot, Slot.of_arg, INITIAL_ARGV_MAX, List.replicate_succ]
  | cons a0 rest =>
    simp only [List.map_cons, List.cons_append, List.cons.injEq] at hin
    obtain ⟨rfl, rfl⟩ := hin
    have key := collect_loop_filled h more rest [] a0 (INITIAL_ARGV_MAX - 1)
      ((rest.map some ++ none :: more).length + 1) s false
      (by simp at hn ⊢; omega) (by simp)
    simp only [List.nil_append, List.length_nil, List.map_cons, List.map_nil,
      List.singleton_append] at key
    have e1 : 0 + 1 + (INITIAL_ARGV_MAX - 1) = INITIAL_ARGV_MAX := by decide
    rw [e1] at key
    exact key hno2


/-- C12: for `n` non-null arguments followed by a null (`n` below the range
of the counter `i`), when no `realloc` of the argument loop fails, the loop
ends with an array whose readable slots are the `n` arguments, in order, and
the null after them: a vector of `n + 1` slots; and `dizi_execl`,
`dizi_execle` and `dizi_execlp` call `dizi_execve` or `dizi_execvp` with
that vector. -/
theorem collect_args_hands_vector {σ : Type} (h : Host σ) (s : St σ) (args : List CStr)
    (more : List (Option CStr)) (arg : Option CStr) (va : List (Option CStr))
    (hin : arg :: va = args.map some ++ none :: more) (hn : args.length < UINT_RANGE)
    (hno : realloc_fails (collect_args h s arg va).trace = []) :
    ∃ tr s1 buf heap, collect_args h s arg va = .filled tr s1 buf heap more ∧
      load_argv [] buf = args.map some ++ [none] ∧
      (load_argv [] buf).length = args.length + 1 ∧
      (∀ path, dizi_execl h s path arg va =
        Res.after tr (collect_return heap
          (dizi_execve h s1 path (args.map some ++ [none]) h.environ))) ∧
      (∀ path envp, dizi_execle h s path arg va envp =
        Res.after tr (collect_return heap
          (dizi_execve h s1 path (args.map some ++ [none]) envp))) ∧
      (∀ file, dizi_execlp h s file arg va =
        Res.after tr (collect_return heap
          (dizi_execvp h s1 file (args.map some ++ [none])))) := by
  obtain ⟨tr, s1, buf, heap, hc, hl, -⟩ := collect_args_filled h s args more arg va hin hn hno
  refine ⟨tr, s1, buf, heap, hc, hl, by simp [hl], ?_, ?_, ?_⟩
  · intro path
    unfold dizi_execl
    rw [hc]
    dsimp only
    rw [hl]
  · intro path envp
    unfold dizi_execle
    rw [hc]
    dsimp only
    rw [hl]
  · intro file
    unfold dizi_execlp
    rw [hc]
    dsimp only
    rw [hl]

/-- With a `malloc` that never fails, no `realloc` of the argument loop fails. -/
theorem collect_loop_no_fail {σ : Type} (h : Host σ) (hok : ∀ w n, (h.malloc w n).2 = true) :
    ∀ (fuel : Nat) (s : St σ) (argv : List Slot) (argv_max : Nat) (heap : Bool) (i : Nat)
      (va : List (Option CStr)),
      realloc_fails (collect_loop h fuel s argv argv_max heap i va).trace = [] := by
  intro fuel
  induction fuel with
  | zero => intros; rfl
  | succ f ih =>
    intro s argv argv_max heap i va
    rw [collect_loop]
    split
    · rfl
    · dsimp only
      by_cases h1 : (i + 1) % UINT_RANGE = argv_max
      · simp only [h1, if_true, hok]
        split
        · rfl
        · split
          · rfl
          · rw [collected_trace_after]
            simp only [realloc_fails, List.filterMap_append] at ih ⊢
            rw [ih]
            rfl
      · simp only [h1, if_false]
        split
        · rfl
        · split
          · rfl
          · exact ih _ _ _ _ _ _
    · rfl

theorem collect_args_no_fail {σ : Type} (h : Host σ) (hok : ∀ w n, (h.malloc w n).2 = true)
    (s : St σ) (arg : Option CStr) (va : List (Option CStr)) :
    realloc_fails (collect_args h s arg va).trace = [] := by
  unfold collect_args
  exact collect_loop_no_fail h hok _ _ _ _ _ _ _

theorem collect_args_hands_vector_witness :
    some ['a'] :: (List.replicate 2000 (some ['b']) ++ [none]) =
      (['a'] :: List.replicate 2000 ['b']).map some ++ none :: [] ∧
    (['a'] :: List.replicate 2000 ['b']).length < UINT_RANGE ∧
    realloc_fails (collect_args (alloc_host [] 0 0 example_errno none) ⟨(), 0⟩
      (some ['a']) (List.replicate 2000 (some ['b']) ++ [none])).trace = [] ∧
    ∃ tr s1 buf heap, collect_args (alloc_host [] 0 0 example_errno none) ⟨(), 0⟩
        (some ['a']) (List.replicate 2000 (some ['b']) ++ [none]) = .filled tr s1 buf heap [] ∧
      load_argv [] buf = (['a'] :: List.replicate 2000 ['b']).map some ++ [none] ∧
      (load_argv [] buf).length = (['a'] :: List.replicate 2000 ['b']).length + 1 :=
  have hin : some ['a'] :: (List.replicate 2000 (some ['b']) ++ [none]) =
      (['a'] :: List.replicate 2000 ['b']).map some ++ none :: [] := by
    rw [List.map_cons, List.map_replicate]
    rfl
  have hn : (['a'] :: List.replicate 2000 ['b']).length < UINT_RANGE := by
    rw [List.length_cons, List.length_replicate]
    decide
  have hno := collect_args_no_fail (alloc_host [] 0 0 example_errno none) (fun _ _ => rfl)
    ⟨(), 0⟩ (some ['a']) (List.replicate 2000 (some ['b']) ++ [none])
  ⟨hin, hn, hno,
    (collect_args_hands_vector (alloc_host [] 0 0 example_errno none) ⟨(), 0⟩
      (['a'] :: List.replicate 2000 ['b']) [] (some ['a'])
      (List.replicate 2000 (some ['b']) ++ [none]) hin hn hno).imp
      (fun _ hx => hx.imp (fun _ hy => hy.imp (fun _ hz => hz.imp
        (fun _ hw => ⟨hw.1, hw.2.1, hw.2.2.1⟩))))⟩

/-! ### The branch of `dizi_execvp` for a name with a slash -/

theorem count_args_args (w : List CStr) (extra : Argv) (k : Nat) :
    count_args (w.map some ++ none :: extra) k = some (k + w.length + 1) := by
  induction w generalizing k with
  | nil => simp [count_args]
  | cons a w ih =>
    rw [List.map_cons, List.cons_append, count_args, ih, List.length_cons, Option.some.injEq]
    omega

/-- The `int` counter of lines 157-159 and 245-246 on an argv whose count stays
inside `int`. -/
theorem count_args_int_args (w : List CStr) (extra : Argv) (k : Nat)
    (hk : k + w.length + 1 ≤ INT_MAX) :
    count_args_int (w.map some ++ none :: extra) k = some (k + w.length + 1) := by
  induction w generalizing k with
  | nil =>
    have h1 : ¬ INT_MAX ≤ k := by simp at hk; omega
    simp [count_args_int, h1]
  | cons a w ih =>
    have h1 : ¬ INT_MAX ≤ k := by simp at hk; omega
    rw [List.map_cons, List.cons_append, count_args_int, if_neg h1]
    rw [ih (k + 1) (by simp at hk ⊢; omega), List.length_cons, Option.some.injEq]
    omega

/-- The `int` counter on an argv whose count does not fit in `int`: the
increment overflows before the sentinel is counted. -/
theorem count_args_int_overflow (w : List CStr) (extra : Argv) (k : Nat)
    (hk : INT_MAX < k + w.length + 1) :
    count_args_int (w.map some ++ none :: extra) k = none := by
  induction w generalizing k with
  | nil =>
    have h1 : INT_MAX ≤ k := by simp at hk; omega
    simp [count_args_int, h1]
  | cons a w ih =>
    rw [List.map_cons, List.cons_append, count_args_int]
    split_ifs with h1
    · rfl
    · exact ih (k + 1) (by simp at hk ⊢; omega)

/-- A call of `dizi_execve` whose counting loop finds a sentinel reads no
memory it may not read. -/
theorem dizi_execve_no_fault {σ : Type} (h : Host σ) (s : St σ) (p : CStr) (a e : Argv)
    (hc : count_args (a.drop 1) 0 ≠ none) (tr : List Event) :
    dizi_execve h s p a e ≠ .fault tr := by
  rcases run_dios_file_inner h s p a with hf | ⟨t, s1, v, hd, -⟩
  · unfold __run_dios_file at hf
    cases hn : count_args (a.drop 1) 0 with
    | none => exact absurd hn hc
    | some argc =>
      rw [hn] at hf
      dsimp only at hf
      split_ifs at hf
  · simp only [dizi_execve, hd]
    split_ifs
    · simp
    · cases h.execve s1.world s1.errno p a e <;> simp
    · simp

/-- The script branch for a name with a slash, for an argv of at least one
argument: the shell is dispatched with `[shell, file, a1, ..., NULL]`, unless
the `malloc` of the script argv fails. -/
theorem slash_script_eq {σ : Type} (h : Host σ) (s1 : St σ) (file a0 : CStr) (rest : List CStr)
    (envp : Argv) (hb : rest.length + 3 ≤ INT_MAX) :
    slash_script h s1 file (some a0 :: (rest.map some ++ [none])) envp =
      if (rest.length + 3) * sizeof_ptr ≤ __MAX_ALLOCA_CUTOFF then
        match dizi_execve h s1 _PATH_BSHELL
            (some _PATH_BSHELL :: some file :: (rest.map some ++ [none])) envp with
        | .ret tr s2 _ => .ret tr s2 (-1)
        | r => r
      else if (h.malloc s1.world ((rest.length + 3) * sizeof_ptr)).2 then
        match dizi_execve h { s1 with world := (h.malloc s1.world ((rest.length + 3) * sizeof_ptr)).1 }
            _PATH_BSHELL (some _PATH_BSHELL :: some file :: (rest.map some ++ [none])) envp with
        | .ret tr s2 _ =>
          .ret (Event.malloc .ptr ((rest.length + 3) * sizeof_ptr) true :: (tr ++ [Event.free .ptr]))
            s2 (-1)
        | r => Res.after [Event.malloc .ptr ((rest.length + 3) * sizeof_ptr) true] r
      else
        .ret [Event.malloc .ptr ((rest.length + 3) * sizeof_ptr) false]
          { world := (h.malloc s1.world ((rest.length + 3) * sizeof_ptr)).1, errno := ENOMEM } (-1) := by
  have hc : count_args_int (some a0 :: (rest.map some ++ [none])) 0 =
      some (rest.length + 2) := by
    have := count_args_int_args (a0 :: rest) [] 0 (by simp; omega)
    simpa [Nat.add_comm, Nat.add_left_comm] using this
  have hlen : script_argv_len (rest.length + 2) = some ((rest.length + 2 + 1) * sizeof_ptr) := by
    unfold script_argv_len
    rw [if_pos (by omega)]
  have hs := scripts_argv_eq (.str file) a0 rest []
  have hl := load_argv_args [] (some _PATH_BSHELL :: some file :: (rest.map some ++ [none])) 0
  simp only [List.map_cons, List.map_append, List.map_map, List.map_nil, Slot.of_arg,
    List.append_nil, List.cons_append] at hl
  have hl2 : load_argv [] (Slot.ptr (.str _PATH_BSHELL) :: Slot.ptr (.str file) ::
      (rest.map (fun a => Slot.ptr (.str a)) ++ [Slot.null])) =
      some _PATH_BSHELL :: some file :: (rest.map some ++ [none]) := by
    simpa [Slot.of_arg, Function.comp_def] using hl
  unfold slash_script
  rw [hc]
  dsimp only
  rw [hlen]
  dsimp only
  rw [hs]
  dsimp only [List.head?, deref]
  rw [hl2]
  unfold __libc_use_alloca
  by_cases h1 : (rest.length + 2 + 1) * sizeof_ptr ≤ __MAX_ALLOCA_CUTOFF
  · simp only [h1, decide_True, if_true]
    cases dizi_execve h s1 _PATH_BSHELL
      (some _PATH_BSHELL :: some file :: (rest.map some ++ [none])) envp <;> simp [Res.after]
  · simp only [h1, decide_False, if_false, Bool.false_eq_true]
    by_cases h2 : (h.malloc s1.world ((rest.length + 2 + 1) * sizeof_ptr)).2 = true
    · simp only [h2, if_true]
      cases dizi_execve h { s1 with world := (h.malloc s1.world ((rest.length + 2 + 1) * sizeof_ptr)).1 }
        _PATH_BSHELL (some _PATH_BSHELL :: some file :: (rest.map some ++ [none])) envp <;>
        simp [Res.after]
    · simp only [h2, if_false, Bool.false_eq_true]

theorem execvp_slash {σ : Type} (h : Host σ) (s : St σ) (file : CStr) (argv : Argv)
    (hsl : '/' ∈ file) :
    dizi_execvp h s file argv =
      match dizi_execve h s file argv h.environ with
      | .ret tr s1 _ =>
        if s1.errno = ENOEXEC then Res.after tr (slash_script h s1 file argv h.environ)
        else .ret tr s1 (-1)
      | r => r := by
  have hf : file ≠ [] := by
    intro h0
    rw [h0] at hsl
    simp at hsl
  unfold dizi_execvp
  simp only [hf, hsl, if_false, if_true]

/-- The branch of `dizi_execvp` for a name with a slash does not look at
`PATH` or at the `confstr` default. -/
theorem execvp_slash_no_path {σ : Type} (h : Host σ) (s : St σ) (file : CStr) (argv : Argv)
    (hsl : '/' ∈ file) (p : Option CStr) (c : CStr) :
    dizi_execvp { h with getenv_PATH := p, cs_path := c } s file argv =
      dizi_execvp h s file argv := by
  rw [execvp_slash _ _ _ _ hsl, execvp_slash _ _ _ _ hsl]
  rfl

/-- The traces of the branch of `dizi_execvp` for a name with a slash, for an
argv of at least one argument. -/
theorem execvp_slash_shape {σ : Type} (h : Host σ) (s : St σ) (file a0 : CStr)
    (rest : List CStr) (hsl : '/' ∈ file)
    (hb : rest.length + 3 ≤ INT_MAX) :
    ∃ mid, (∀ ev ∈ mid, ev.inner = true) ∧
      ((∃ s1 v, s1.errno ≠ ENOEXEC ∧
          dizi_execvp h s file (some a0 :: (rest.map some ++ [none])) =
            .ret (Event.dispatch file (some a0 :: (rest.map some ++ [none])) h.environ ::
              (mid ++ [Event.returned v s1.errno])) s1 (-1)) ∨
       (∃ s1 c, dizi_execvp h s file (some a0 :: (rest.map some ++ [none])) =
          .exited (Event.dispatch file (some a0 :: (rest.map some ++ [none])) h.environ :: mid)
            s1 c) ∨
       (∃ s1, dizi_execvp h s file (some a0 :: (rest.map some ++ [none])) =
          .replaced (Event.dispatch file (some a0 :: (rest.map some ++ [none])) h.environ :: mid)
            s1) ∨
       (∃ v n w, dizi_execvp h s file (some a0 :: (rest.map some ++ [none])) =
          .ret (Event.dispatch file (some a0 :: (rest.map some ++ [none])) h.environ ::
            (mid ++ [Event.returned v ENOEXEC, Event.malloc .ptr n false]))
            { world := w, errno := ENOMEM } (-1)) ∨
       (∃ v pre mid2, (∀ ev ∈ pre, ∃ n, ev = Event.malloc .ptr n true) ∧
          (∀ ev ∈ mid2, ev.inner = true) ∧
          ((∃ s2 v2 post, (∀ ev ∈ post, ev = Event.free .ptr) ∧
              dizi_execvp h s file (some a0 :: (rest.map some ++ [none])) =
                .ret (Event.dispatch file (some a0 :: (rest.map some ++ [none])) h.environ ::
                  (mid ++ Event.returned v ENOEXEC :: (pre ++
                    Event.dispatch _PATH_BSHELL
                      (some _PATH_BSHELL :: some file :: (rest.map some ++ [none])) h.environ ::
                    (mid2 ++ Event.returned v2 s2.errno :: post)))) s2 (-1)) ∨
           (∃ tr, dizi_execvp h s file (some a0 :: (rest.map some ++ [none])) = tr ∧
              tr.returns = none ∧ (∀ t, tr ≠ .fault t) ∧
              tr.trace = Event.dispatch file (some a0 :: (rest.map some ++ [none])) h.environ ::
                  (mid ++ Event.returned v ENOEXEC :: (pre ++
                    Event.dispatch _PATH_BSHELL
                      (some _PATH_BSHELL :: some file :: (rest.map some ++ [none])) h.environ ::
                    mid2)))))) := by
  have hc1 : count_args ((some a0 :: (rest.map some ++ [none])).drop 1) 0 ≠ none := by
    have := count_args_args rest [] 0
    simp [this]
  have hc2 : count_args ((some _PATH_BSHELL :: some file :: (rest.map some ++ [none])).drop 1) 0
      ≠ none := by
    have := count_args_args (file :: rest) [] 0
    simp only [List.map_cons, List.cons_append] at this
    simp [this]
  rw [execvp_slash _ _ _ _ hsl]
  obtain ⟨mid, hmid, hcase⟩ := dizi_execve_cases h s file (some a0 :: (rest.map some ++ [none]))
    h.environ
  refine ⟨mid, hmid, ?_⟩
  rcases hcase with ⟨s1, v, he⟩ | ⟨s1, c, he⟩ | ⟨s1, he⟩ | he
  · rw [he]
    dsimp only
    by_cases h1 : s1.errno = ENOEXEC
    · rw [if_pos h1, slash_script_eq _ _ _ _ _ _ hb, h1]
      right; right; right
      split_ifs with ha hm
      · right
        obtain ⟨mid2, hmid2, hcase2⟩ := dizi_execve_cases h s1 _PATH_BSHELL
          (some _PATH_BSHELL :: some file :: (rest.map some ++ [none])) h.environ
        refine ⟨v, [], mid2, by simp, hmid2, ?_⟩
        rcases hcase2 with ⟨s2, v2, he2⟩ | ⟨s2, c2, he2⟩ | ⟨s2, he2⟩ | he2
        · left
          refine ⟨s2, v2, [], by simp, ?_⟩
          rw [he2]
          simp [Res.after]
        · right
          refine ⟨_, rfl, ?_, ?_, ?_⟩ <;> rw [he2] <;> simp [Res.after, Res.returns, Res.trace]
        · right
          refine ⟨_, rfl, ?_, ?_, ?_⟩ <;> rw [he2] <;> simp [Res.after, Res.returns, Res.trace]
        · exact absurd he2 (dizi_execve_no_fault _ _ _ _ _ hc2 _)
      · right
        obtain ⟨mid2, hmid2, hcase2⟩ := dizi_execve_cases h
          { world := (h.malloc s1.world ((rest.length + 3) * sizeof_ptr)).1, errno := ENOEXEC }
          _PATH_BSHELL (some _PATH_BSHELL :: some file :: (rest.map some ++ [none])) h.environ
        refine ⟨v, [Event.malloc .ptr ((rest.length + 3) * sizeof_ptr) true], mid2, by simp,
          hmid2, ?_⟩
        rcases hcase2 with ⟨s2, v2, he2⟩ | ⟨s2, c2, he2⟩ | ⟨s2, he2⟩ | he2
        · left
          refine ⟨s2, v2, [Event.free .ptr], by simp, ?_⟩
          rw [he2]
          simp [Res.after]
        · right
          refine ⟨_, rfl, ?_, ?_, ?_⟩ <;> rw [he2] <;> simp [Res.after, Res.returns, Res.trace]
        · right
          refine ⟨_, rfl, ?_, ?_, ?_⟩ <;> rw [he2] <;> simp [Res.after, Res.returns, Res.trace]
        · exact absurd he2 (dizi_execve_no_fault _ _ _ _ _ hc2 _)
      · left
        exact ⟨v, (rest.length + 3) * sizeof_ptr,
          (h.malloc s1.world ((rest.length + 3) * sizeof_ptr)).1, by simp [Res.after]⟩
    · rw [if_neg h1]
      exact Or.inl ⟨s1, v, h1, rfl⟩
  · rw [he]
    exact Or.inr (Or.inl ⟨s1, c, rfl⟩)
  · rw [he]
    exact Or.inr (Or.inr (Or.inl ⟨s1, rfl⟩))
  · exact absurd he (dizi_execve_no_fault _ _ _ _ _ hc1 _)

theorem filterMap_quiet {β : Type} (f : Event → Option β) (l : List Event)
    (hl : ∀ ev ∈ l, f ev = none) : l.filterMap f = [] := by
  induction l with
  | nil => rfl
  | cons x xs ih =>
    rw [List.filterMap_cons, hl x (List.mem_cons_self _ _)]
    exact ih (fun ev hev => hl ev (List.mem_cons_of_mem _ hev))

theorem not_mem_inner (ev : Event) (hev : ev.inner = false) (mid : List Event)
    (hmid : ∀ e ∈ mid, e.inner = true) : ev ∉ mid := by
  intro hin
  rw [hmid ev hin] at hev
  exact absurd hev (by simp)

/-- C13 (amended): for a file name with a slash and an argv of `n` arguments
before its sentinel, `n` at least 1 and `n + 2` inside `int` (the counter
`int argc` of line 157 and the sum `argc + 1` of line 160 do not overflow),
`dizi_execvp` does not depend on `PATH` or the `confstr` default and forms no
candidate; it reads no memory it may not read;
it calls `dizi_execve` first with the file, the caller's argv and `__environ`,
and a second and last time, for the shell with `[shell, file, a1, ..., NULL]`,
exactly when the first call returned with `ENOEXEC` and no `malloc` of the
script argv failed; when it returns, it returns -1, with `ENOMEM` after a
failed `malloc` and else with the `errno` of the last `dizi_execve` made. -/
theorem dizi_execvp_slash_dispatches {σ : Type} (h : Host σ) (s : St σ) (file a0 : CStr)
    (rest : List CStr) (hsl : '/' ∈ file) (hb : rest.length + 3 ≤ INT_MAX) :
    (∀ p c, dizi_execvp { h with getenv_PATH := p, cs_path := c } s file
        (some a0 :: (rest.map some ++ [none])) =
      dizi_execvp h s file (some a0 :: (rest.map some ++ [none]))) ∧
    candidates (dizi_execvp h s file (some a0 :: (rest.map some ++ [none]))).trace = [] ∧
    (∀ t, dizi_execvp h s file (some a0 :: (rest.map some ++ [none])) ≠ .fault t) ∧
    (dispatch_calls (dizi_execvp h s file (some a0 :: (rest.map some ++ [none]))).trace =
        [(file, some a0 :: (rest.map some ++ [none]), h.environ)] ∨
      dispatch_calls (dizi_execvp h s file (some a0 :: (rest.map some ++ [none]))).trace =
        [(file, some a0 :: (rest.map some ++ [none]), h.environ),
          (_PATH_BSHELL, some _PATH_BSHELL :: some file :: (rest.map some ++ [none]),
            h.environ)]) ∧
    (dispatch_calls (dizi_execvp h s file (some a0 :: (rest.map some ++ [none]))).trace =
        [(file, some a0 :: (rest.map some ++ [none]), h.environ),
          (_PATH_BSHELL, some _PATH_BSHELL :: some file :: (rest.map some ++ [none]),
            h.environ)] ↔
      (returned_errs (dizi_execvp h s file
          (some a0 :: (rest.map some ++ [none]))).trace).head? = some ENOEXEC ∧
        ∀ n, Event.malloc .ptr n false ∉
          (dizi_execvp h s file (some a0 :: (rest.map some ++ [none]))).trace) ∧
    (∀ v e, (dizi_execvp h s file (some a0 :: (rest.map some ++ [none]))).returns =
        some (v, e) →
      v = -1 ∧
      ((∃ n, Event.malloc .ptr n false ∈
          (dizi_execvp h s file (some a0 :: (rest.map some ++ [none]))).trace) → e = ENOMEM) ∧
      ((∀ n, Event.malloc .ptr n false ∉
          (dizi_execvp h s file (some a0 :: (rest.map some ++ [none]))).trace) →
        (returned_errs (dizi_execvp h s file
          (some a0 :: (rest.map some ++ [none]))).trace).getLast? = some e)) := by
  refine ⟨fun p c => execvp_slash_no_path h s file _ hsl p c, ?_⟩
  obtain ⟨mid, hmid, hcase⟩ := execvp_slash_shape h s file a0 rest hsl hb
  have hm1 := candidates_inner mid hmid
  have hm2 := dispatch_calls_inner mid hmid
  have hm3 := returned_errs_inner mid hmid
  have hm4 : ∀ n, Event.malloc .ptr n false ∉ mid := fun n => not_mem_inner (Event.malloc .ptr n false) rfl mid hmid
  rcases hcase with ⟨s1, v, hne, he⟩ | ⟨s1, c, he⟩ | ⟨s1, he⟩ | ⟨v, n, w, he⟩ |
    ⟨v, pre, mid2, hpre, hmid2, ⟨s2, v2, post, hpost, he⟩ | ⟨r, he, hr1, hr2, hr3⟩⟩
  · rw [he]
    simp [Res.trace, Res.returns, hm1, hm2, hm3, hm4, hne]
  · rw [he]
    simp [Res.trace, Res.returns, hm1, hm2, hm3, hm4]
  · rw [he]
    simp [Res.trace, Res.returns, hm1, hm2, hm3, hm4]
  · rw [he]
    simp [Res.trace, Res.returns, hm1, hm2, hm3, hm4]
  · have hn1 := candidates_inner mid2 hmid2
    have hn2 := dispatch_calls_inner mid2 hmid2
    have hn3 := returned_errs_inner mid2 hmid2
    have hn4 : ∀ n, Event.malloc .ptr n false ∉ mid2 := fun n => not_mem_inner (Event.malloc .ptr n false) rfl mid2 hmid2
    have hp1 : candidates pre = [] := filterMap_quiet _ _
      (by intro ev hev; obtain ⟨n, rfl⟩ := hpre ev hev; rfl)
    have hp2 : dispatch_calls pre = [] := filterMap_quiet _ _
      (by intro ev hev; obtain ⟨n, rfl⟩ := hpre ev hev; rfl)
    have hp3 : returned_errs pre = [] := filterMap_quiet _ _
      (by intro ev hev; obtain ⟨n, rfl⟩ := hpre ev hev; rfl)
    have hp4 : ∀ n, Event.malloc .ptr n false ∉ pre := by
      intro n hin
      obtain ⟨k, hk⟩ := hpre _ hin
      simp at hk
    have hq1 : candidates post = [] := filterMap_quiet _ _
      (by intro ev hev; rw [hpost ev hev])
    have hq2 : dispatch_calls post = [] := filterMap_quiet _ _
      (by intro ev hev; rw [hpost ev hev])
    have hq3 : returned_errs post = [] := filterMap_quiet _ _
      (by intro ev hev; rw [hpost ev hev])
    have hq4 : ∀ n, Event.malloc .ptr n false ∉ post := by
      intro n hin
      have hk := hpost _ hin
      simp at hk
    rw [he]
    simp [Res.trace, Res.returns, hm1, hm2, hm3, hm4, hn1, hn2, hn3, hn4, hp1, hp2, hp3, hp4,
      hq1, hq2, hq3, hq4]
  · have hn1 := candidates_inner mid2 hmid2
    have hn2 := dispatch_calls_inner mid2 hmid2
    have hn3 := returned_errs_inner mid2 hmid2
    have hn4 : ∀ n, Event.malloc .ptr n false ∉ mid2 := fun n => not_mem_inner (Event.malloc .ptr n false) rfl mid2 hmid2
    have hp1 : candidates pre = [] := filterMap_quiet _ _
      (by intro ev hev; obtain ⟨n, rfl⟩ := hpre ev hev; rfl)
    have hp2 : dispatch_calls pre = [] := filterMap_quiet _ _
      (by intro ev hev; obtain ⟨n, rfl⟩ := hpre ev hev; rfl)
    have hp3 : returned_errs pre = [] := filterMap_quiet _ _
      (by intro ev hev; obtain ⟨n, rfl⟩ := hpre ev hev; rfl)
    have hp4 : ∀ n, Event.malloc .ptr n false ∉ pre := by
      intro n hin
      obtain ⟨k, hk⟩ := hpre _ hin
      simp at hk
    rw [he, hr1, hr3]
    refine ⟨?_, hr2, ?_, ?_, ?_⟩ <;>
      simp [hm1, hm2, hm3, hm4, hn1, hn2, hn3, hn4, hp1, hp2, hp3, hp4]

/-- With an argv of `n + 1` arguments, `(n + 3) * 8 > 65536`, `n + 3` inside
`int`, and a failing `malloc`, the branch for a name with a slash returns after one call of
`dizi_execve`, which failed with `ENOEXEC`, leaving `errno = ENOMEM`. -/
theorem slash_alloc_fails (n : Nat) (hn : 65536 < (n + 3) * 8) (hb : n + 3 ≤ INT_MAX) :
    dizi_execvp (host_script none) ⟨(), 0⟩ "/a/prog".toList (argv_many n) =
      .ret [Event.dispatch "/a/prog".toList (argv_many n) [none], Event.lookup 7 0 0,
        Event.legacy "/a/prog".toList (argv_many n) [none], Event.returned (-1) ENOEXEC,
        Event.malloc .ptr ((n + 3) * 8) false] ⟨(), ENOMEM⟩ (-1) := by
  have hc : count_args ((argv_many n).drop 1) 0 = some (n + 1) := by
    have := count_args_args (List.replicate n "x".toList) [] 0
    simpa [argv_many] using this
  have hd : dizi_execve (host_script none) ⟨(), 0⟩ "/a/prog".toList (argv_many n) [none] =
      .ret [Event.dispatch "/a/prog".toList (argv_many n) [none], Event.lookup 7 0 0,
        Event.legacy "/a/prog".toList (argv_many n) [none], Event.returned (-1) ENOEXEC]
        ⟨(), ENOEXEC⟩ (-1) := by
    unfold dizi_execve __run_dios_file
    rw [hc]
    simp [host_script, example_host, script_errno, _PATH_BSHELL, ENOENT, ENOEXEC, ENOSYS]
  rw [execvp_slash _ _ _ _ (by decide)]
  have henv : (host_script none).environ = [none] := rfl
  rw [henv, hd]
  dsimp only
  rw [if_pos rfl]
  unfold argv_many
  rw [slash_script_eq _ _ _ _ _ _ (by rw [List.length_replicate]; exact hb),
    List.length_replicate]
  have h1 : ¬ (n + 3) * sizeof_ptr ≤ __MAX_ALLOCA_CUTOFF := by
    unfold sizeof_ptr __MAX_ALLOCA_CUTOFF
    omega
  rw [if_neg h1]
  simp [host_script, example_host, Res.after, sizeof_ptr]

/-- C13, as stated, fails: with the file name `/a/prog`, an argv of 8191
arguments (far inside `int`), a legacy `execve` that fails with `ENOEXEC` and a failing
`malloc`, `dizi_execvp` makes one call of `dizi_execve`, which returns with
`ENOEXEC`, and returns -1 with `errno = ENOMEM`, not with the error of that
call. -/
theorem dizi_execvp_slash_enomem_counterexample :
    '/' ∈ "/a/prog".toList ∧
    dispatch_calls (dizi_execvp (host_script none) ⟨(), 0⟩ "/a/prog".toList
      (argv_many 8190)).trace = [("/a/prog".toList, argv_many 8190, [none])] ∧
    returned_errs (dizi_execvp (host_script none) ⟨(), 0⟩ "/a/prog".toList
      (argv_many 8190)).trace = [ENOEXEC] ∧
    (dizi_execvp (host_script none) ⟨(), 0⟩ "/a/prog".toList
      (argv_many 8190)).returns = some (-1, ENOMEM) ∧
    ENOMEM ≠ ENOEXEC := by
  rw [slash_alloc_fails 8190 (by decide) (by decide)]
  exact ⟨by decide, rfl, rfl, rfl, by decide⟩

theorem dizi_execvp_slash_dispatches_witness :
    '/' ∈ "/a/prog".toList ∧ [ "x".toList ].length + 3 ≤ INT_MAX ∧
    dispatch_calls (dizi_execvp (host_script none) ⟨(), 0⟩ "/a/prog".toList
        (some "prog".toList :: ([ "x".toList ].map some ++ [none]))).trace =
      [("/a/prog".toList, [some "prog".toList, some "x".toList, none], [none]),
        ("/bin/sh".toList, [some "/bin/sh".toList, some "/a/prog".toList, some "x".toList, none],
          [none])] ∧
    (dizi_execvp (host_script none) ⟨(), 0⟩ "/a/prog".toList
        (some "prog".toList :: ([ "x".toList ].map some ++ [none]))).returns =
      some (-1, ESTALE) ∧
    candidates (dizi_execvp (host_script none) ⟨(), 0⟩ "/a/prog".toList
        (some "prog".toList :: ([ "x".toList ].map some ++ [none]))).trace = [] ∧
    (-1 : Int) = -1 ∧
    ((∀ n, Event.malloc .ptr n false ∉ (dizi_execvp (host_script none) ⟨(), 0⟩ "/a/prog".toList
        (some "prog".toList :: ([ "x".toList ].map some ++ [none]))).trace) →
      (returned_errs (dizi_execvp (host_script none) ⟨(), 0⟩ "/a/prog".toList
        (some "prog".toList :: ([ "x".toList ].map some ++ [none]))).trace).getLast? =
          some ESTALE) :=
  ⟨by decide, by decide, by decide, by decide,
    (dizi_execvp_slash_dispatches (host_script none) ⟨(), 0⟩ "/a/prog".toList "prog".toList
      [ "x".toList ] (by decide) (by decide)).2.1,
    ((dizi_execvp_slash_dispatches (host_script none) ⟨(), 0⟩ "/a/prog".toList "prog".toList
      [ "x".toList ] (by decide) (by decide)).2.2.2.2.2 (-1) ESTALE (by decide)).1,
    ((dizi_execvp_slash_dispatches (host_script none) ⟨(), 0⟩ "/a/prog".toList "prog".toList
      [ "x".toList ] (by decide) (by decide)).2.2.2.2.2 (-1) ESTALE (by decide)).2.2⟩

/-! ### The empty file name -/

/-- C14: for every argv (and every host and state), `dizi_execvp` called with
the empty file name returns -1 with `errno = ENOENT`; the call has no event
(no call of `dizi_execve`, `dios_lookup`, `dios_run`, the legacy `execve` or
`malloc`), leaves the world as it was, and its result is the same whatever
the host, so `PATH` is not read. -/
theorem dizi_execvp_empty_file_enoent {σ : Type} (h : Host σ) (s : St σ) (argv : Argv) :
    dizi_execvp h s [] argv = .ret [] { world := s.world, errno := ENOENT } (-1) ∧
    (dizi_execvp h s [] argv).returns = some (-1, ENOENT) ∧
    (dizi_execvp h s [] argv).trace = [] ∧
    dispatch_calls (dizi_execvp h s [] argv).trace = [] ∧
    legacy_calls (dizi_execvp h s [] argv).trace = [] ∧
    ∀ h2 : Host σ, dizi_execvp h2 s [] argv = dizi_execvp h s [] argv := by
  have he : ∀ h1 : Host σ,
      dizi_execvp h1 s [] argv = .ret [] { world := s.world, errno := ENOENT } (-1) := by
    intro h1
    unfold dizi_execvp
    simp
  refine ⟨he h, ?_, ?_, ?_, ?_, ?_⟩
  · rw [he]; rfl
  · rw [he]; rfl
  · rw [he]; rfl
  · rw [he]; rfl
  · intro h2
    rw [he, he]

/-! ### Release of the heap buffers of `dizi_execvp` -/

/-- The first directory of a search: when its candidate comes back with an
`errno` that is neither `ENOEXEC` nor of the skip class, the function returns
from inside the `switch`; the code after the loop is not run. -/
theorem search_over_first_abort {σ : Type} (h : Host σ) (argv envp : Argv)
    (alloclen name : Nat) (file : CStr) (pm : Bool) (d : CStr) (ds : List CStr)
    (st : Search σ) (tr : List Event) (s1 : St σ) (v : Int)
    (hd : dizi_execve h st.s (candidate_of file d) argv envp = .ret tr s1 v)
    (hne : s1.errno ≠ ENOEXEC) (hns : ¬ is_skip s1.errno) :
    search_over h argv envp alloclen name file pm (d :: ds) st =
      .ret (Event.candidate (candidate_of file d) :: (tr ++ [Event.tried s1.errno])) s1 (-1) := by
  have h1 : s1.errno ≠ EACCES := fun hh => hns (Or.inl hh)
  have h2 : ¬ (s1.errno = ENOENT ∨ s1.errno = ESTALE ∨ s1.errno = ENOTDIR ∨
      s1.errno = ENODEV ∨ s1.errno = ETIMEDOUT) := fun hh => hns (Or.inr hh)
  rw [search_over]
  try dsimp only
  unfold search_attempt
  try dsimp only
  rw [hd]
  try dsimp only
  rw [if_neg hne]
  unfold search_classify
  try dsimp only
  rw [if_neg h1, if_neg h2]
  simp [Step.after, Res.after]

theorem segments_x_long (n : Nat) :
    segments ('/' :: 'x' :: ':' :: long_dir n) = ['/' :: 'x' :: [], long_dir n] := by
  have h3 : segments (':' :: long_dir n) = [[], long_dir n] := by
    rw [segments, if_pos rfl, segments_long_dir]
  have h2 : segments ('x' :: ':' :: long_dir n) = [['x'], long_dir n] := by
    rw [segments, if_neg (by decide), h3]
  rw [segments, if_neg (by decide), h2]

/-- With `PATH` the directory `/x` and a directory of `n` bytes, `n + 9` above
the `alloca` cut-off, the buffer is taken from `malloc`; the candidate
`/x/prog` fails with `EINVAL` and `dizi_execvp` returns without a `free`. -/
theorem abort_without_free (n : Nat) (hn : 65536 < n + 9) :
    dizi_execvp (host_x_long n) ⟨(), 0⟩ "prog".toList argv_prog =
      .ret [Event.malloc .path_malloc (n + 9) true, Event.candidate "/x/prog".toList,
        Event.dispatch "/x/prog".toList argv_prog [none], Event.lookup 7 0 0,
        Event.legacy "/x/prog".toList argv_prog [none], Event.returned (-1) EINVAL,
        Event.tried EINVAL] ⟨(), EINVAL⟩ (-1) := by
  have hal : alloclen_of (host_x_long n) "prog".toList = n + 9 := by
    have hal := alloclen_of_some (host_x_long n) "prog".toList _ rfl
    simp only [List.length_cons, long_dir_length] at hal
    rw [hal]
    have : "prog".toList.length = 4 := rfl
    omega
  have hua : __libc_use_alloca (alloclen_of (host_x_long n) "prog".toList) = false := by
    rw [hal]
    unfold __libc_use_alloca __MAX_ALLOCA_CUTOFF
    exact decide_eq_false (by omega)
  have hseg : segments (search_path (host_x_long n)) = ['/' :: 'x' :: [], long_dir n] :=
    segments_x_long n
  rw [execvp_bare _ _ _ _ (by decide) (by decide), path_search_eq, hua, if_neg (by simp)]
  have hm : ((host_x_long n).malloc (⟨(), 0⟩ : St Unit).world
      (alloclen_of (host_x_long n) "prog".toList)).2 = true := rfl
  rw [if_pos hm, hseg]
  have hd : dizi_execve (host_x_long n)
      (init_search (host_x_long n) { (⟨(), 0⟩ : St Unit) with
        world := ((host_x_long n).malloc (⟨(), 0⟩ : St Unit).world
          (alloclen_of (host_x_long n) "prog".toList)).1 } "prog".toList).s
      (candidate_of "prog".toList ('/' :: 'x' :: [])) argv_prog (host_x_long n).environ =
      .ret [Event.dispatch "/x/prog".toList argv_prog [none], Event.lookup 7 0 0,
        Event.legacy "/x/prog".toList argv_prog [none], Event.returned (-1) EINVAL]
        ⟨(), EINVAL⟩ (-1) := rfl
  rw [search_over_first_abort _ _ _ _ _ _ _ _ _ _ _ _ _ hd (by decide) (by decide), hal]
  rfl

/-- C15 fails: with `PATH` the directory `/x` and a directory of 65536 bytes,
the file name `prog`, a `malloc` that succeeds and a legacy `execve` that
fails for `/x/prog` with `EINVAL`, `dizi_execvp` takes the candidate buffer of
65545 bytes from `malloc` and returns -1 from the `default:` branch of the
`switch` with no call of `free`: the buffer is not released. -/
theorem dizi_execvp_abort_keeps_buffer :
    Event.malloc .path_malloc 65545 true ∈
      (dizi_execvp (host_x_long 65536) ⟨(), 0⟩ "prog".toList argv_prog).trace ∧
    (∀ b, Event.free b ∉
      (dizi_execvp (host_x_long 65536) ⟨(), 0⟩ "prog".toList argv_prog).trace) ∧
    (dizi_execvp (host_x_long 65536) ⟨(), 0⟩ "prog".toList argv_prog).returns =
      some (-1, EINVAL) ∧
    tried_errs (dizi_execvp (host_x_long 65536) ⟨(), 0⟩ "prog".toList argv_prog).trace =
      [EINVAL] := by
  rw [abort_without_free 65536 (by decide)]
  refine ⟨by decide, ?_, rfl, rfl⟩
  intro b
  cases b <;> decide

/-! ### The script argv across candidates -/

/-- C16 fails: with `PATH = "/a:/bcd"`, the file name `prog`, the argv
`["prog", "x", NULL]`, a legacy `execve` that fails with `ENOEXEC` for every
candidate and with `ESTALE` for the shell, the candidates `/a/prog` and
`/bcd/prog` are both followed by a call for the shell; the script argv of the
second call reads `cd/prog` as its element 1, not the candidate `/bcd/prog`:
the script argv is built once, with the address `startp` had for `/a/prog`. -/
theorem dizi_execvp_script_argv_stale :
    candidates (dizi_execvp (host_script (some "/a:/bcd".toList)) ⟨(), 0⟩ "prog".toList
      argv_prog).trace = ["/a/prog".toList, "/bcd/prog".toList] ∧
    returned_errs (dizi_execvp (host_script (some "/a:/bcd".toList)) ⟨(), 0⟩ "prog".toList
      argv_prog).trace = [ENOEXEC, ESTALE, ENOEXEC, ESTALE] ∧
    dispatch_calls (dizi_execvp (host_script (some "/a:/bcd".toList)) ⟨(), 0⟩ "prog".toList
      argv_prog).trace =
      [("/a/prog".toList, argv_prog, [none]),
        ("/bin/sh".toList, [some "/bin/sh".toList, some "/a/prog".toList, some "x".toList, none],
          [none]),
        ("/bcd/prog".toList, argv_prog, [none]),
        ("/bin/sh".toList, [some "/bin/sh".toList, some "cd/prog".toList, some "x".toList, none],
          [none])] := by
  refine ⟨by decide, by decide, by decide⟩

/-! ### The empty argument vector -/

/-- C17 fails for the empty vector `[NULL]`: the loop `while (argv[++ts.argc]);`
reads `argv[1]` first, the slot after the sentinel, so with no readable slot
there the call reads memory it may not read, and with the slots
`[NULL, "x", NULL]` in memory the task specification handed to `dios_run` has
`argc = 2`, not 0.  For an argv of `n + 1` arguments before the sentinel the
count is `n + 1`. -/
theorem run_dios_file_counts_from_one {σ : Type} (h : Host σ) (s : St σ) (f a0 : CStr)
    (rest : List CStr) (extra : Argv) :
    __run_dios_file h s f [none] = .fault [] ∧
    __run_dios_file (example_host [7] 0 0 example_errno none) ⟨(), 0⟩ "/a/prog".toList
        [none, some "x".toList, none] =
      .ret [Event.lookup 7 0 1,
        Event.run 7 { input_count := 0, output_count := 0,
                      argv := [none, some "x".toList, none], argc := 2 } 0] ⟨(), 0⟩ 0 ∧
    count_args ((some a0 :: (rest.map some ++ none :: extra)).drop 1) 0 =
      some (rest.length + 1) := by
  refine ⟨rfl, rfl, ?_⟩
  have := count_args_args rest extra 0
  simpa using this

/-- C18 fails for the empty vector `[NULL]`: the callers count `argc = 1` and
give `scripts_argv` a buffer of two slots; it writes the shell and the file and
no sentinel, and the call of `dizi_execve` for the shell then reads past the
two slots. -/
theorem scripts_argv_empty_argv_no_sentinel {σ : Type} (h : Host σ) (s1 : St σ) (file : CStr)
    (f : Ptr) (envp : Argv) :
    count_args [none] 0 = some 1 ∧ count_args_int [none] 0 = some 1 ∧
    scripts_argv f [none] 1 (List.replicate (1 + 1) Slot.uninit) =
      some [Slot.ptr (.str _PATH_BSHELL), Slot.ptr f] ∧
    Slot.null ∉ [Slot.ptr (.str _PATH_BSHELL), Slot.ptr f] ∧
    slash_script h s1 file [none] envp =
      .fault [Event.dispatch _PATH_BSHELL [some _PATH_BSHELL, some file] envp] := by
  refine ⟨rfl, rfl, rfl, by simp, ?_⟩
  simp [slash_script, count_args, count_args_int, script_argv_len, INT_MAX, scripts_argv, scripts_argv_loop, set_slot, __libc_use_alloca,
    sizeof_ptr, __MAX_ALLOCA_CUTOFF, deref, load_argv, load_slot, dizi_execve, __run_dios_file,
    Res.after]

/-! ### The search path when `PATH` is not set -/

theorem step_after_trace {σ : Type} (c : Event) (pre : List Event) (x : Step σ)
    (F G : Search σ → Res σ) :
    ∃ tl, (match Step.after pre x with
      | .done r => Res.after [c] r
      | .brk t st1 => Res.after (c :: t) (F st1)
      | .next t st1 => Res.after (c :: t) (G st1)).trace = c :: (pre ++ tl) := by
  cases x with
  | next t st1 => exact ⟨t ++ (G st1).trace, by simp [Step.after, res_trace_after]⟩
  | brk t st1 => exact ⟨t ++ (F st1).trace, by simp [Step.after, res_trace_after]⟩
  | done r => exact ⟨r.trace, by simp [Step.after, res_trace_after]⟩

/-- The first events of a search over the directories `d :: ds`: the candidate
of `d` is formed and `dizi_execve` is called with it, `argv` and `envp`. -/
theorem search_over_first_events {σ : Type} (h : Host σ) (argv envp : Argv)
    (alloclen name : Nat) (file : CStr) (pm : Bool) (d : CStr) (ds : List CStr)
    (st : Search σ) :
    ∃ tl, (search_over h argv envp alloclen name file pm (d :: ds) st).trace =
      Event.candidate (candidate_of file d) ::
        Event.dispatch (candidate_of file d) argv envp :: tl := by
  rw [search_over]
  try dsimp only
  unfold search_attempt
  try dsimp only
  obtain ⟨mid, -, hcase⟩ := dizi_execve_cases h st.s (candidate_of file d) argv envp
  rcases hcase with ⟨s1, v, he⟩ | ⟨s1, c, he⟩ | ⟨s1, he⟩ | he
  · rw [he]
    dsimp only
    by_cases hc : s1.errno = ENOEXEC
    · rw [if_pos hc]
      generalize search_script h argv envp alloclen _ _ = x
      obtain ⟨tl, htl⟩ := step_after_trace (Event.candidate (candidate_of file d))
        (Event.dispatch (candidate_of file d) argv envp :: (mid ++ [Event.returned v s1.errno]))
        x (search_finish pm) (search_over h argv envp alloclen name file pm ds)
      exact ⟨_, htl⟩
    · rw [if_neg hc]
      generalize search_classify _ = x
      obtain ⟨tl, htl⟩ := step_after_trace (Event.candidate (candidate_of file d))
        (Event.dispatch (candidate_of file d) argv envp :: (mid ++ [Event.returned v s1.errno]))
        x (search_finish pm) (search_over h argv envp alloclen name file pm ds)
      exact ⟨_, htl⟩
  · rw [he]
    exact ⟨_, rfl⟩
  · rw [he]
    exact ⟨_, rfl⟩
  · rw [he]
    exact ⟨_, rfl⟩

/-- With `PATH` not set, a file name of `n` bytes, `n + 31` above the `alloca`
cut-off, and a failing `malloc`, `dizi_execvp` returns at once. -/
theorem unset_long_name_no_dispatch (n : Nat) (hn : 65536 < n + 31) :
    long_name n ≠ [] ∧ '/' ∉ long_name n ∧
    dizi_execvp host_unset ⟨(), 0⟩ (long_name n) argv_prog =
      .ret [Event.malloc .path_malloc (n + 31) false] ⟨(), ENOMEM⟩ (-1) := by
  have hf : long_name n ≠ [] := by
    intro hh
    have := congrArg List.length hh
    simp [long_name] at this
    omega
  have hsl : '/' ∉ long_name n := by
    intro hh
    have := List.eq_of_mem_replicate hh
    exact absurd this (by decide)
  have hal : alloclen_of host_unset (long_name n) = n + 31 := by
    have h1 : host_unset.getenv_PATH = none := rfl
    have h2 : host_unset.cs_path.length = 13 := rfl
    unfold alloclen_of pathlen_of
    rw [h1]
    dsimp only
    rw [h2, long_name, List.length_replicate]
    omega
  refine ⟨hf, hsl, ?_⟩
  rw [execvp_buffer_malloc_fails host_unset ⟨(), 0⟩ (long_name n) argv_prog hf hsl
    (by rw [hal]; unfold __MAX_ALLOCA_CUTOFF; omega) rfl, hal]

theorem init_buf_length {σ : Type} (h : Host σ) (file : CStr) :
    (init_buf h file).length = alloclen_of h file := by
  unfold init_buf alloclen_of pathlen_of cstr_cells
  cases h.getenv_PATH <;> simp <;> omega

theorem stored_length (buf cells : List Cell) (name k : Nat) (hk : k ≤ name)
    (hn : name ≤ buf.length) (hc : cells.length = k) :
    (buf.take (name - k) ++ cells ++ buf.drop name).length = buf.length := by
  simp [List.length_take, hc]
  omega

theorem memInv_init {σ : Type} (h : Host σ) (file : CStr) (p : Loc) (buf : List Cell)
    (hs : path_setup h file = some (p, buf)) : MemInv h file buf p := by
  obtain ⟨p0, hset, hp⟩ := path_setup_eq h file
  rw [hset] at hs
  simp only [Option.some.injEq, Prod.mk.injEq] at hs
  obtain ⟨rfl, rfl⟩ := hs
  refine ⟨init_buf_length h file, bufOk_init h file, ?_⟩
  cases hseg : segments (search_path h) with
  | nil => exact absurd hseg (segments_ne_nil _)
  | cons d ds =>
    have hj : join_segs (d :: ds) = search_path h := by rw [← hseg, join_segments]
    refine ⟨d, ds, ?_, ?_, ?_⟩
    · intro x hx
      rw [← hseg] at hx
      exact segments_no_colon _ x hx
    · rw [hj, search_path_length]
    · rw [hj]
      exact hp

theorem alloclen_ge {σ : Type} (h : Host σ) (file : CStr) :
    pathlen_of h + file.length + 2 ≤ alloclen_of h file := by
  unfold alloclen_of
  omega

/-- One pass of the PATH loop from memory that satisfies `MemInv`: every
access of lines 227-235 and of the loop test stays inside the memory, and a
pass that goes round the loop leaves memory that satisfies `MemInv`. -/
theorem memInv_pass {σ : Type} (h : Host σ) (file : CStr) (buf : List Cell) (p : Loc)
    (hinv : MemInv h file buf p) :
    ∃ k startp buf1, search_startp (env_cells h) buf (pathlen_of h) p = some (k, startp, buf1) ∧
      k ≤ pathlen_of h ∧ pathlen_of h - k ≤ startp ∧ buf1.length = alloclen_of h file ∧
      (∃ cand, read_cstr (buf1.drop startp) = some cand ∧
        startp + cand.length + 1 ≤ alloclen_of h file) ∧
      ((cells_at (env_cells h) buf1 (p.add k)).head? = some .nul ∨
        ∃ c, (cells_at (env_cells h) buf1 (p.add k)).head? = some (.ch c) ∧
          MemInv h file buf1 (p.add (k + 1))) := by
  obtain ⟨hlen, hb, d, ds, hcol, hjl, hp⟩ := hinv
  have hk : d.length ≤ pathlen_of h := Nat.le_trans (length_join_cons d ds).1 hjl
  have hd : ':' ∉ d := hcol d (List.mem_cons_self _ _)
  have hge := alloclen_ge h file
  have hl1 : (if d = [] then buf else buf.take (pathlen_of h - d.length) ++ d.map Cell.ch ++
      buf.drop (pathlen_of h)).length = alloclen_of h file := by
    by_cases h0 : d = []
    · simpa [h0] using hlen
    · simp only [h0, if_false]
      rw [stored_length buf _ _ d.length hk hb.1 (by simp), hlen]
  have hp1 : PathAt (env_cells h) (if d = [] then buf else
      buf.take (pathlen_of h - d.length) ++ d.map Cell.ch ++ buf.drop (pathlen_of h))
      (pathlen_of h) p (join_segs (d :: ds)) := by
    by_cases h0 : d = []
    · simpa [h0] using hp
    · simp only [h0, if_false]
      exact pathAt_stored hp _ d.length hk hb.1 (by simp)
  have hb1 : BufOk (if d = [] then buf else
      buf.take (pathlen_of h - d.length) ++ d.map Cell.ch ++ buf.drop (pathlen_of h))
      (pathlen_of h) file := by
    by_cases h0 : d = []
    · simpa [h0] using hb
    · simp only [h0, if_false]
      exact bufOk_stored hb _ d.length hk (by simp)
  refine ⟨d.length, _, _, search_startp_eq d ds hp hb hd hk, hk, ?_, hl1,
    ⟨candidate_of file d, read_candidate d hb, ?_⟩, ?_⟩
  · by_cases h0 : d = []
    · simp [h0]
    · simp [h0]
  · by_cases h0 : d = []
    · simp only [h0, if_true, candidate_of]
      omega
    · simp only [h0, if_false, candidate_of, List.length_append, List.length_cons]
      omega
  · rw [cells_at_add, pathAt_cells hp1, cstr_cells_join]
    have hdrop : (d.map Cell.ch ++ after_seg ds).drop d.length = after_seg ds := by
      simp
    rw [hdrop]
    cases ds with
    | nil => exact Or.inl rfl
    | cons d2 ds2 =>
      right
      refine ⟨':', rfl, hl1, hb1, d2, ds2, fun x hx => hcol x (List.mem_cons_of_mem _ hx),
        Nat.le_trans (length_join_cons d (d2 :: ds2)).2 hjl, pathAt_add d ds2 d2 hp1⟩

theorem memReach_inv {σ : Type} (h : Host σ) (file : CStr) (buf : List Cell) (p : Loc)
    (hr : MemReach h file buf p) : MemInv h file buf p := by
  induction hr with
  | init p buf hs => exact memInv_init h file p buf hs
  | step buf p k startp buf1 c _ hst hhead ih =>
    obtain ⟨k2, startp2, buf2, hst2, -, -, -, -, hnext⟩ := memInv_pass h file buf p ih
    rw [hst2] at hst
    simp only [Option.some.injEq, Prod.mk.injEq] at hst
    obtain ⟨rfl, rfl, rfl⟩ := hst
    rcases hnext with hnul | ⟨c2, -, hinv⟩
    · rw [hnul] at hhead
      simp at hhead
    · exact hinv

theorem cells_at_length (penv buf buf1 : List Cell) (p : Loc) (hl : buf1.length = buf.length) :
    (cells_at penv buf1 p).length = (cells_at penv buf p).length := by
  cases p <;> simp [cells_at, hl]

theorem head_drop_lt {α : Type} (l : List α) (k : Nat) (a : α)
    (hh : (l.drop k).head? = some a) : k < l.length := by
  by_contra hk
  rw [List.drop_eq_nil_of_le (by omega)] at hh
  simp at hh

/-- The start of the PATH branch: the writes of lines 204-217 succeed, and the
loop is entered with the buffer and pointer they leave and with fuel for every
byte of the search path. -/
theorem path_search_root {σ : Type} (h : Host σ) (s : St σ) (file : CStr) (argv envp : Argv) :
    ∃ p0, path_setup h file = some (p0, init_buf h file) ∧
      MemReach h file (init_buf h file) p0 ∧
      path_search h s file argv envp =
        if __libc_use_alloca (alloclen_of h file) then
          search_loop h argv envp (alloclen_of h file) (pathlen_of h) (env_cells h) false
            ((cells_at (env_cells h) (init_buf h file) p0).length + 1) (init_search h s file) p0
        else if (h.malloc s.world (alloclen_of h file)).2 then
          Res.after [Event.malloc .path_malloc (alloclen_of h file) true]
            (search_loop h argv envp (alloclen_of h file) (pathlen_of h) (env_cells h) true
              ((cells_at (env_cells h) (init_buf h file) p0).length + 1)
              (init_search h { s with world := (h.malloc s.world (alloclen_of h file)).1 } file)
              p0)
        else
          .ret [Event.malloc .path_malloc (alloclen_of h file) false]
            { world := (h.malloc s.world (alloclen_of h file)).1, errno := ENOMEM } (-1) := by
  obtain ⟨p, hset, -⟩ := path_setup_eq h file
  refine ⟨p, hset, MemReach.init _ _ hset, ?_⟩
  unfold path_search
  dsimp only
  rw [hset]
  dsimp only
  cases ha : __libc_use_alloca (alloclen_of h file)
  · simp only [Bool.false_eq_true, if_false, Bool.not_false, if_true]
    cases hm : (h.malloc s.world (alloclen_of h file)).2
    · simp
    · simp only [if_true]
      rfl
  · simp only [if_true, Bool.not_true, Bool.false_eq_true, if_false]
    rw [res_after_nil]
    rfl

/-- One pass of `search_loop` from memory the loop can stand in, with fuel for
the bytes of the search path still to read: the pass takes none of the
branches that leave the memory (`search_startp`, the read of the candidate,
the loop test) and does not run out of fuel; it ends as the attempt for the
candidate ends, and when it goes round the loop it does so from memory the
loop can stand in, with fuel for the bytes still to read. -/
theorem search_loop_pass {σ : Type} (h : Host σ) (file : CStr) (argv envp : Argv) (pm : Bool)
    (fuel : Nat) (st : Search σ) (p : Loc) (hr : MemReach h file st.buf p)
    (hfuel : (cells_at (env_cells h) st.buf p).length + 1 ≤ fuel) :
    ∃ k startp buf1 cand,
      search_startp (env_cells h) st.buf (pathlen_of h) p = some (k, startp, buf1) ∧
      read_cstr (buf1.drop startp) = some cand ∧
      (∀ r, search_attempt h argv envp (alloclen_of h file) { st with buf := buf1 } startp cand =
          .done r →
        search_loop h argv envp (alloclen_of h file) (pathlen_of h) (env_cells h) pm fuel st p =
          Res.after [Event.candidate cand] r) ∧
      (∀ tr st1, search_attempt h argv envp (alloclen_of h file) { st with buf := buf1 } startp
          cand = .brk tr st1 →
        search_loop h argv envp (alloclen_of h file) (pathlen_of h) (env_cells h) pm fuel st p =
          Res.after (Event.candidate cand :: tr) (search_finish pm st1)) ∧
      (∀ tr st1, search_attempt h argv envp (alloclen_of h file) { st with buf := buf1 } startp
          cand = .next tr st1 →
        st1.buf = buf1 ∧
        (((cells_at (env_cells h) buf1 (p.add k)).head? = some .nul ∧
            search_loop h argv envp (alloclen_of h file) (pathlen_of h) (env_cells h) pm fuel
                st p =
              Res.after (Event.candidate cand :: tr) (search_finish pm st1)) ∨
          (∃ c, (cells_at (env_cells h) buf1 (p.add k)).head? = some (.ch c) ∧
            MemReach h file st1.buf (p.add (k + 1)) ∧
            (cells_at (env_cells h) st1.buf (p.add (k + 1))).length + 1 ≤ fuel - 1 ∧
            search_loop h argv envp (alloclen_of h file) (pathlen_of h) (env_cells h) pm fuel
                st p =
              Res.after (Event.candidate cand :: tr)
                (search_loop h argv envp (alloclen_of h file) (pathlen_of h) (env_cells h) pm
                  (fuel - 1) st1 (p.add (k + 1)))))) := by
  have hinv := memReach_inv h file st.buf p hr
  obtain ⟨k, startp, buf1, hst, -, -, hl1, ⟨cand, hread, -⟩, hhead⟩ :=
    memInv_pass h file st.buf p hinv
  obtain ⟨f, rfl⟩ : ∃ f, fuel = f + 1 := ⟨fuel - 1, by omega⟩
  refine ⟨k, startp, buf1, cand, hst, hread, ?_, ?_, ?_⟩
  · intro r hatt
    rw [search_loop, hst]
    dsimp only
    rw [hread]
    dsimp only
    rw [hatt]
  · intro tr st1 hatt
    rw [search_loop, hst]
    dsimp only
    rw [hread]
    dsimp only
    rw [hatt]
  · intro tr st1 hatt
    have hbuf : st1.buf = buf1 := attempt_next_buf _ _ _ _ _ _ _ _ _ hatt
    refine ⟨hbuf, ?_⟩
    rcases hhead with hnul | ⟨c, hc, -⟩
    · left
      refine ⟨hnul, ?_⟩
      rw [search_loop, hst]
      dsimp only
      rw [hread]
      dsimp only
      rw [hatt]
      dsimp only
      rw [hbuf, hnul]
    · right
      refine ⟨c, hc, ?_, ?_, ?_⟩
      · rw [hbuf]
        exact MemReach.step st.buf p k startp buf1 c hr hst hc
      · rw [hbuf, cells_at_add]
        rw [cells_at_add] at hc
        have hlt := head_drop_lt _ _ _ hc
        have hlen := cells_at_length (env_cells h) st.buf buf1 p (by rw [hl1, hinv.1])
        rw [List.length_drop]
        simp only [Nat.add_sub_cancel]
        omega
      · rw [search_loop, hst]
        dsimp only
        rw [hread]
        dsimp only
        rw [hatt]
        dsimp only
        rw [hbuf, hc]
        rfl

/-- C20: for every `PATH` (set, or not set with any `confstr` default) and
every file name, the writes of lines 204-217 (the default search path, the
copy of the file name, the slash) stay inside the buffer of `alloclen` bytes,
and `dizi_execvp` enters the loop with the buffer and pointer they leave.  In
every pass `search_loop` makes from there, the buffer has `alloclen` bytes and
lines 227-235 and the loop test stay inside the memory: `__strchrnul` finds
the end of the segment after `k <= pathlen` bytes, so the `memcpy` to
`name - k` does not start before the buffer; the candidate at `startp` ends
with its terminator inside the buffer; the byte the loop test reads is the
terminator of the search path or a colon with the next segment behind it; and
the pass ends as the attempt for the candidate ends or goes round the loop
from memory of the same kind. -/
theorem dizi_execvp_candidate_buffer_bounds {σ : Type} (h : Host σ) (file : CStr) :
    (∃ p0, path_setup h file = some (p0, init_buf h file) ∧
      (init_buf h file).length = alloclen_of h file ∧
      MemReach h file (init_buf h file) p0 ∧
      ∀ (s : St σ) (argv : Argv), file ≠ [] → '/' ∉ file →
        dizi_execvp h s file argv =
          if __libc_use_alloca (alloclen_of h file) then
            search_loop h argv h.environ (alloclen_of h file) (pathlen_of h) (env_cells h) false
              ((cells_at (env_cells h) (init_buf h file) p0).length + 1) (init_search h s file)
              p0
          else if (h.malloc s.world (alloclen_of h file)).2 then
            Res.after [Event.malloc .path_malloc (alloclen_of h file) true]
              (search_loop h argv h.environ (alloclen_of h file) (pathlen_of h) (env_cells h)
                true ((cells_at (env_cells h) (init_buf h file) p0).length + 1)
                (init_search h { s with world := (h.malloc s.world (alloclen_of h file)).1 }
                  file) p0)
          else
            .ret [Event.malloc .path_malloc (alloclen_of h file) false]
              { world := (h.malloc s.world (alloclen_of h file)).1, errno := ENOMEM } (-1)) ∧
    pathlen_of h + 1 + (file.length + 1) ≤ alloclen_of h file ∧
    (h.getenv_PATH = none →
      pathlen_of h + (file.length + 1) + 1 + (1 + pathlen_of h) ≤ alloclen_of h file) ∧
    (∀ buf p, MemReach h file buf p →
      buf.length = alloclen_of h file ∧
      ∃ k startp buf1,
        search_startp (env_cells h) buf (pathlen_of h) p = some (k, startp, buf1) ∧
        k ≤ pathlen_of h ∧ pathlen_of h - k ≤ startp ∧ buf1.length = alloclen_of h file ∧
        (∃ cand, read_cstr (buf1.drop startp) = some cand ∧
          startp + cand.length + 1 ≤ alloclen_of h file) ∧
        ((cells_at (env_cells h) buf1 (p.add k)).head? = some .nul ∨
          ∃ c, (cells_at (env_cells h) buf1 (p.add k)).head? = some (.ch c) ∧
            MemReach h file buf1 (p.add (k + 1)))) ∧
    (∀ (argv envp : Argv) (pm : Bool) (fuel : Nat) (st : Search σ) (p : Loc),
      MemReach h file st.buf p → (cells_at (env_cells h) st.buf p).length + 1 ≤ fuel →
      ∃ k startp buf1 cand,
        search_startp (env_cells h) st.buf (pathlen_of h) p = some (k, startp, buf1) ∧
        read_cstr (buf1.drop startp) = some cand ∧
        (∀ r, search_attempt h argv envp (alloclen_of h file) { st with buf := buf1 } startp
            cand = .done r →
          search_loop h argv envp (alloclen_of h file) (pathlen_of h) (env_cells h) pm fuel st
              p =
            Res.after [Event.candidate cand] r) ∧
        (∀ tr st1, search_attempt h argv envp (alloclen_of h file) { st with buf := buf1 }
            startp cand = .brk tr st1 →
          search_loop h argv envp (alloclen_of h file) (pathlen_of h) (env_cells h) pm fuel st
              p =
            Res.after (Event.candidate cand :: tr) (search_finish pm st1)) ∧
        (∀ tr st1, search_attempt h argv envp (alloclen_of h file) { st with buf := buf1 }
            startp cand = .next tr st1 →
          st1.buf = buf1 ∧
          (((cells_at (env_cells h) buf1 (p.add k)).head? = some .nul ∧
              search_loop h argv envp (alloclen_of h file) (pathlen_of h) (env_cells h) pm fuel
                  st p =
                Res.after (Event.candidate cand :: tr) (search_finish pm st1)) ∨
            (∃ c, (cells_at (env_cells h) buf1 (p.add k)).head? = some (.ch c) ∧
              MemReach h file st1.buf (p.add (k + 1)) ∧
              (cells_at (env_cells h) st1.buf (p.add (k + 1))).length + 1 ≤ fuel - 1 ∧
              search_loop h argv envp (alloclen_of h file) (pathlen_of h) (env_cells h) pm fuel
                  st p =
                Res.after (Event.candidate cand :: tr)
                  (search_loop h argv envp (alloclen_of h file) (pathlen_of h) (env_cells h) pm
                    (fuel - 1) st1 (p.add (k + 1))))))) := by
  refine ⟨?_, ?_, ?_, ?_, ?_⟩
  · obtain ⟨p0, hset, -⟩ := path_setup_eq h file
    refine ⟨p0, hset, init_buf_length h file, MemReach.init _ _ hset, ?_⟩
    intro s argv hf hsl
    obtain ⟨p1, hset1, -, he⟩ := path_search_root h s file argv h.environ
    rw [hset] at hset1
    simp only [Option.some.injEq, Prod.mk.injEq, and_true] at hset1
    subst hset1
    rw [execvp_bare h s file argv hf hsl, he]
  · have := alloclen_ge h file
    omega
  · intro hp
    unfold alloclen_of
    rw [hp]
    dsimp only
    omega
  · intro buf p hr
    have hinv := memReach_inv h file buf p hr
    obtain ⟨k, startp, buf1, hst, h1, h2, h3, h4, h5⟩ := memInv_pass h file buf p hinv
    refine ⟨hinv.1, k, startp, buf1, hst, h1, h2, h3, h4, ?_⟩
    rcases h5 with hnul | ⟨c, hc, -⟩
    · exact Or.inl hnul
    · exact Or.inr ⟨c, hc, MemReach.step buf p k startp buf1 c hr hst hc⟩
  · intro argv envp pm fuel st p hr hfuel
    exact search_loop_pass h file argv envp pm fuel st p hr hfuel

theorem dizi_execvp_candidate_buffer_bounds_witness :
    MemReach host_ab "prog".toList
      [Cell.uninit, Cell.uninit, Cell.uninit, Cell.ch '/', Cell.ch 'a', Cell.ch '/', Cell.ch 'p',
        Cell.ch 'r', Cell.ch 'o', Cell.ch 'g', Cell.nul] (Loc.env 3) ∧
    alloclen_of host_ab "prog".toList = 11 ∧
    search_startp (env_cells host_ab)
      [Cell.uninit, Cell.uninit, Cell.uninit, Cell.ch '/', Cell.ch 'a', Cell.ch '/', Cell.ch 'p',
        Cell.ch 'r', Cell.ch 'o', Cell.ch 'g', Cell.nul] (pathlen_of host_ab) (Loc.env 3) =
      some (2, 3, [Cell.uninit, Cell.uninit, Cell.uninit, Cell.ch '/', Cell.ch 'b', Cell.ch '/',
        Cell.ch 'p', Cell.ch 'r', Cell.ch 'o', Cell.ch 'g', Cell.nul]) ∧
    ([Cell.uninit, Cell.uninit, Cell.uninit, Cell.ch '/', Cell.ch 'a', Cell.ch '/', Cell.ch 'p',
        Cell.ch 'r', Cell.ch 'o', Cell.ch 'g', Cell.nul].length = alloclen_of host_ab "prog".toList ∧
      ∃ k startp buf1,
        search_startp (env_cells host_ab)
          [Cell.uninit, Cell.uninit, Cell.uninit, Cell.ch '/', Cell.ch 'a', Cell.ch '/',
            Cell.ch 'p', Cell.ch 'r', Cell.ch 'o', Cell.ch 'g', Cell.nul] (pathlen_of host_ab)
          (Loc.env 3) = some (k, startp, buf1) ∧
        k ≤ pathlen_of host_ab ∧ pathlen_of host_ab - k ≤ startp ∧
        buf1.length = alloclen_of host_ab "prog".toList ∧
        (∃ cand, read_cstr (buf1.drop startp) = some cand ∧
          startp + cand.length + 1 ≤ alloclen_of host_ab "prog".toList) ∧
        ((cells_at (env_cells host_ab) buf1 ((Loc.env 3).add k)).head? = some .nul ∨
          ∃ c, (cells_at (env_cells host_ab) buf1 ((Loc.env 3).add k)).head? = some (.ch c) ∧
            MemReach host_ab "prog".toList buf1 ((Loc.env 3).add (k + 1)))) ∧
    "prog".toList ≠ [] ∧ '/' ∉ "prog".toList ∧
    MemReach host_ab "prog".toList (init_search host_ab ⟨(), 0⟩ "prog".toList).buf (Loc.env 0) ∧
    (cells_at (env_cells host_ab) (init_search host_ab ⟨(), 0⟩ "prog".toList).buf
      (Loc.env 0)).length + 1 ≤ 7 ∧
    dizi_execvp host_ab ⟨(), 0⟩ "prog".toList argv_prog =
      search_loop host_ab argv_prog host_ab.environ (alloclen_of host_ab "prog".toList)
        (pathlen_of host_ab) (env_cells host_ab) false 7
        (init_search host_ab ⟨(), 0⟩ "prog".toList) (Loc.env 0) ∧
    ∃ tr st1,
      search_loop host_ab argv_prog host_ab.environ (alloclen_of host_ab "prog".toList)
          (pathlen_of host_ab) (env_cells host_ab) false 7
          (init_search host_ab ⟨(), 0⟩ "prog".toList) (Loc.env 0) =
        Res.after (Event.candidate "/a/prog".toList :: tr)
          (search_loop host_ab argv_prog host_ab.environ (alloclen_of host_ab "prog".toList)
            (pathlen_of host_ab) (env_cells host_ab) false 6 st1 (Loc.env 3)) ∧
      MemReach host_ab "prog".toList st1.buf (Loc.env 3) := by
  have hr : MemReach host_ab "prog".toList
      [Cell.uninit, Cell.uninit, Cell.uninit, Cell.ch '/', Cell.ch 'a', Cell.ch '/', Cell.ch 'p',
        Cell.ch 'r', Cell.ch 'o', Cell.ch 'g', Cell.nul] (Loc.env 3) :=
    MemReach.step (init_buf host_ab "prog".toList) (Loc.env 0) 2 3 _ ':'
      (MemReach.init _ _ rfl) rfl rfl
  have hr0 : MemReach host_ab "prog".toList (init_search host_ab ⟨(), 0⟩ "prog".toList).buf
      (Loc.env 0) := MemReach.init _ _ rfl
  have hf : (cells_at (env_cells host_ab) (init_search host_ab ⟨(), 0⟩ "prog".toList).buf
      (Loc.env 0)).length + 1 ≤ 7 := by decide
  refine ⟨hr, rfl, rfl,
    (dizi_execvp_candidate_buffer_bounds host_ab "prog".toList).2.2.2.1 _ _ hr,
    by decide, by decide, hr0, hf, ?_, ?_⟩
  · obtain ⟨p0, hset, -, -, he⟩ := (dizi_execvp_candidate_buffer_bounds host_ab "prog".toList).1
    have e : path_setup host_ab "prog".toList =
        some (Loc.env 0, init_buf host_ab "prog".toList) := rfl
    rw [e] at hset
    simp only [Option.some.injEq, Prod.mk.injEq, and_true] at hset
    subst hset
    rw [he ⟨(), 0⟩ argv_prog (by decide) (by decide)]
    rfl
  · obtain ⟨k, startp, buf1, cand, hst, hread, -, -, h3⟩ :=
      (dizi_execvp_candidate_buffer_bounds host_ab "prog".toList).2.2.2.2 argv_prog
        host_ab.environ false 7 (init_search host_ab ⟨(), 0⟩ "prog".toList) (Loc.env 0) hr0 hf
    have e : search_startp (env_cells host_ab) (init_search host_ab ⟨(), 0⟩ "prog".toList).buf
        (pathlen_of host_ab) (Loc.env 0) =
        some (2, 3, [Cell.uninit, Cell.uninit, Cell.uninit, Cell.ch '/', Cell.ch 'a',
          Cell.ch '/', Cell.ch 'p', Cell.ch 'r', Cell.ch 'o', Cell.ch 'g', Cell.nul]) := rfl
    rw [e] at hst
    simp only [Option.some.injEq, Prod.mk.injEq] at hst
    obtain ⟨rfl, rfl, rfl⟩ := hst
    have e2 : read_cstr (List.drop 3 [Cell.uninit, Cell.uninit, Cell.uninit, Cell.ch '/',
        Cell.ch 'a', Cell.ch '/', Cell.ch 'p', Cell.ch 'r', Cell.ch 'o', Cell.ch 'g',
        Cell.nul]) = some "/a/prog".toList := rfl
    rw [e2] at hread
    simp only [Option.some.injEq] at hread
    subst hread
    obtain ⟨-, hnul | ⟨c, -, hm, -, hl⟩⟩ := h3 _ _ rfl
    · exact absurd hnul.1 (by decide)
    · exact ⟨_, _, hl, hm⟩

end Dizi
